import Mathlib

/-!
# A shallow embedding of `matrix.h`

`matrix<T>` is a dense row-major two-dimensional container: a buffer pointer
`_data` and two dimensions `_rows`, `_cols`.

Modelling conventions.

* A buffer pointer is an `Option (List T)`: `none` is `nullptr`, `some buf` is
  the array obtained from `new T[buf.length]`.  Each matrix owns its buffer,
  so the buffer is stored by value inside the object.
* A pointer into a buffer is its offset from the start of the buffer.
* An operation whose C++ behaviour is undefined (a read or write outside the
  buffer, a failed `assert`, a division by zero) returns `none`;
  `some x` means the operation ran to completion with result `x`.
* `size_t` is taken to be 64 bits wide.  The sized constructor computes the
  length `rows * cols` of its allocation in `size_t`, that is modulo `2 ^ 64`
  (`size_t_range`).  The other sizes and offsets (`size()`, `row * cols() + col`)
  are natural numbers: they are the values the source computes whenever the
  product of the dimensions is below `2 ^ 64`, as it is for every matrix whose
  buffer holds `rows * cols` elements.  The length `Rows * Cols` that the
  literal constructor allocates is the number of elements of an array that
  exists, so it is below `2 ^ 64` as well.  `ptrdiff_t` values are integers.
  An allocation of a representable length always succeeds.
* `new T[n]` without an initialiser leaves the elements indeterminate: the
  content of such an array is taken from a function `uninit : Nat → T` that
  the operation receives as an argument, and every statement quantifies over it.
* `T()` is `0`, and the element type's `==` is equality.
-/

namespace MatrixSpec

variable {T : Type}

/-! ## Memory -/

/-- The number of values of the type `size_t`, taken to be 64 bits wide:
arithmetic on `size_t` is modulo this number. -/
def size_t_range : Nat := 2 ^ 64

/-- Read of `p[off]`; `none` when `p` is null or `off` is past the array. -/
def load (p : Option (List T)) (off : Nat) : Option T :=
  match p with
  | none => none
  | some buf => buf[off]?

/-- Write `p[off] = v`, giving the new array content; `none` when `p` is null
or `off` is past the array. -/
def store (p : Option (List T)) (off : Nat) (v : T) : Option (List T) :=
  match p with
  | none => none
  | some buf => if off < buf.length then some (buf.set off v) else none

/-- Read of `*(p + pos)` for a signed position. -/
def load_at (p : Option (List T)) (pos : Int) : Option T :=
  if 0 ≤ pos then load p pos.toNat else none

/-- The array `new T[n]` with no initialiser: element `i` holds `uninit i`. -/
def new_array (uninit : Nat → T) (n : Nat) : List T :=
  (List.range n).map uninit

/-- The loop `for (size_t i = first; count iterations; ++i) body`, threading
the state; it stops with `none` as soon as the body is undefined. -/
def for_loop {σ : Type} (body : Nat → σ → Option σ) : Nat → Nat → σ → Option σ
  | 0, _, s => some s
  | count + 1, i, s => (body i s).bind (for_loop body count (i + 1))

/-! ## The strided column iterator -/

/-- Struct `basic_col_iterator`: `_data` is the position of the pointer in the
buffer, `_col_index` the column and `_cols` the stride. -/
structure basic_col_iterator where
  _data : Int
  _col_index : Nat
  _cols : Nat
deriving DecidableEq

namespace basic_col_iterator

/-- Private helper `check_col_indices`. -/
def check_col_indices (self other : basic_col_iterator) : Bool :=
  self._col_index == other._col_index

/-- Prefix `operator++`. -/
def incr (self : basic_col_iterator) : basic_col_iterator :=
  { self with _data := self._data + (self._cols : Int) }

/-- Prefix `operator--`. -/
def decr (self : basic_col_iterator) : basic_col_iterator :=
  { self with _data := self._data - (self._cols : Int) }

/-- Member `operator+=`. -/
def add_assign (self : basic_col_iterator) (n : Int) : basic_col_iterator :=
  { self with _data := self._data + (self._cols : Int) * n }

/-- Member `operator-=`. -/
def sub_assign (self : basic_col_iterator) (n : Int) : basic_col_iterator :=
  { self with _data := self._data - (self._cols : Int) * n }

/-- Friend `operator+(iterator, difference_type)`. -/
def add (left : basic_col_iterator) (right : Int) : basic_col_iterator :=
  left.add_assign right

/-- Friend `operator+(difference_type, iterator)`. -/
def add_left (left : Int) (right : basic_col_iterator) : basic_col_iterator :=
  right.add left

/-- Friend `operator-(iterator, difference_type)`. -/
def sub (left : basic_col_iterator) (right : Int) : basic_col_iterator :=
  left.sub_assign right

/-- Friend `operator-(iterator, iterator)`: the pointer difference divided
(rounding toward zero) by the stride of `left`; undefined for a zero stride. -/
def diff (left right : basic_col_iterator) : Option Int :=
  if left._cols = 0 then none
  else some (Int.tdiv (left._data - right._data) (left._cols : Int))

/-- Member `operator[]`, reading from the buffer `p` the iterator points into. -/
def index (self : basic_col_iterator) (p : Option (List T)) (n : Int) : Option T :=
  load_at p (self._data + (self._cols : Int) * n + (self._col_index : Int))

/-- Member `operator*`, reading from the buffer `p` the iterator points into. -/
def deref (self : basic_col_iterator) (p : Option (List T)) : Option T :=
  load_at p (self._data + (self._col_index : Int))

/-- Friend `operator<`; the `assert` on the column indices fails with `none`. -/
def lt (left right : basic_col_iterator) : Option Bool :=
  if left.check_col_indices right then some (decide (left._data < right._data)) else none

/-- Friend `operator>`. -/
def gt (left right : basic_col_iterator) : Option Bool :=
  if left.check_col_indices right then some (decide (left._data > right._data)) else none

/-- Friend `operator<=`. -/
def le (left right : basic_col_iterator) : Option Bool :=
  if left.check_col_indices right then some (decide (left._data ≤ right._data)) else none

/-- Friend `operator>=`. -/
def ge (left right : basic_col_iterator) : Option Bool :=
  if left.check_col_indices right then some (decide (left._data ≥ right._data)) else none

/-- Member `operator==`. -/
def operator_eq (self other : basic_col_iterator) : Option Bool :=
  if self.check_col_indices other then some (decide (self._data = other._data)) else none

/-- Member `operator!=`. -/
def operator_ne (self other : basic_col_iterator) : Option Bool :=
  (self.operator_eq other).map (fun b => !b)

end basic_col_iterator

/-! ## Algorithms of the standard library, as the header uses them -/

/-- The loop of `std::inner_product`: `n` rounds of
`init = init + *first1 * *first2; ++first1; ++first2`. -/
def inner_product_loop [Add T] [Mul T] (p1 p2 : Option (List T)) :
    Nat → Nat → basic_col_iterator → T → Option T
  | 0, _, _, init => some init
  | n + 1, first1, first2, init =>
    (load p1 first1).bind fun a =>
    (first2.deref p2).bind fun b =>
    inner_product_loop p1 p2 n (first1 + 1) first2.incr (init + a * b)

/-- Function `std::inner_product(first1, last1, first2, init)` over a pointer
range of the buffer `p1` and a column iterator of the buffer `p2`. -/
def std_inner_product [Add T] [Mul T] (p1 : Option (List T)) (first1 last1 : Nat)
    (p2 : Option (List T)) (first2 : basic_col_iterator) (init : T) : Option T :=
  if last1 < first1 then none
  else inner_product_loop p1 p2 (last1 - first1) first1 first2 init

/-- The loop of `std::equal`: it returns `false` at the first pair that
differs and `true` when the range is exhausted. -/
def equal_loop [DecidableEq T] (p1 p2 : Option (List T)) : Nat → Nat → Nat → Option Bool
  | 0, _, _ => some true
  | n + 1, first1, first2 =>
    (load p1 first1).bind fun a =>
    (load p2 first2).bind fun b =>
    if a = b then equal_loop p1 p2 n (first1 + 1) (first2 + 1) else some false

/-- Function `std::equal(first1, last1, first2)`. -/
def std_equal [DecidableEq T] (p1 : Option (List T)) (first1 last1 : Nat)
    (p2 : Option (List T)) (first2 : Nat) : Option Bool :=
  if last1 < first1 then none else equal_loop p1 p2 (last1 - first1) first1 first2

/-- The loop shared by `std::copy` and `std::copy_n`: `n` rounds of
`*d_first++ = *first++`, reading from `src` and writing into `dst`. -/
def copy_loop (src : Option (List T)) : Nat → Nat → Option (List T) → Nat → Option (Option (List T))
  | 0, _, dst, _ => some dst
  | n + 1, first, dst, d_first =>
    (load src first).bind fun v =>
    (store dst d_first v).bind fun buf =>
    copy_loop src n (first + 1) (some buf) (d_first + 1)

/-- Function `std::copy(first, last, d_first)`. -/
def std_copy (src : Option (List T)) (first last : Nat) (dst : Option (List T))
    (d_first : Nat) : Option (Option (List T)) :=
  if last < first then none else copy_loop src (last - first) first dst d_first

/-- Function `std::copy_n(first, count, result)`. -/
def std_copy_n (src : Option (List T)) (first count : Nat) (dst : Option (List T))
    (result : Nat) : Option (Option (List T)) :=
  copy_loop src count first dst result

/-! ## The container -/

/-- Class `matrix<T>`: its three data members. -/
structure matrix (T : Type) where
  _data : Option (List T)
  _rows : Nat
  _cols : Nat
deriving DecidableEq

namespace matrix

/-- Member `rows()`. -/
def rows (self : matrix T) : Nat := self._rows

/-- Member `cols()`. -/
def cols (self : matrix T) : Nat := self._cols

/-- Member `size()`. -/
def size (self : matrix T) : Nat := self._rows * self._cols

/-- Member `empty()`. -/
def empty (self : matrix T) : Bool := self.size == 0

/-- Member `data()`. -/
def data (self : matrix T) : Option (List T) := self._data

/-- Member `begin()`: the pointer `_data`, at offset zero of the buffer. -/
def begin (_self : matrix T) : Nat := 0

/-- Member `end()`. -/
def end_ (self : matrix T) : Nat := self.begin + self.size

/-- Member `row_begin(row_index)`; `none` when the `assert` fails. -/
def row_begin (self : matrix T) (row_index : Nat) : Option Nat :=
  if row_index < self.rows then some (row_index * self.cols) else none

/-- Member `row_end(row_index)`; `none` when an `assert` fails. -/
def row_end (self : matrix T) (row_index : Nat) : Option Nat :=
  if row_index < self.rows then (self.row_begin row_index).map (fun p => p + self.cols)
  else none

/-- Member `col_begin(col_index)`; `none` when the `assert` fails. -/
def col_begin (self : matrix T) (col_index : Nat) : Option basic_col_iterator :=
  if col_index < self.cols then some ⟨(self.begin : Int), col_index, self.cols⟩ else none

/-- Member `col_end(col_index)`; `none` when the `assert` fails. -/
def col_end (self : matrix T) (col_index : Nat) : Option basic_col_iterator :=
  if col_index < self.cols then some ⟨(self.end_ : Int), col_index, self.cols⟩ else none

/-- Read through `operator()(row, col)`: the element `_data[row * cols() + col]`. -/
def operator_call (self : matrix T) (row col : Nat) : Option T :=
  load self._data (row * self.cols + col)

/-- Write through `operator()(row, col)`: the statement `self(row, col) = v`. -/
def assign_call (self : matrix T) (row col : Nat) (v : T) : Option (matrix T) :=
  (store self._data (row * self.cols + col) v).map fun buf => { self with _data := some buf }

/-- Constructor `matrix()`. -/
def ctor_default : matrix T := ⟨none, 0, 0⟩

/-- Constructor `matrix(size_t rows, size_t cols)`.  The length `rows * cols`
of the allocation is a product of `size_t` values, hence taken modulo
`size_t_range`; `new T[n]()` zeroes the `n` elements. -/
def ctor_sized [Zero T] (rows cols : Nat) : matrix T :=
  if rows ≠ 0 ∧ cols ≠ 0 then
    { (ctor_default : matrix T) with
      _data := some (List.replicate ((rows * cols) % size_t_range) 0),
      _rows := rows, _cols := cols }
  else ctor_default

/-- Constructor `matrix(const T (&init)[Rows][Cols])`: the buffer is allocated
without initialiser and row `i` of the literal is copied to `row_begin(i)`. -/
def ctor_literal (uninit : Nat → T) {Rows Cols : Nat} (init : Fin Rows → Fin Cols → T) :
    Option (matrix T) :=
  let self : matrix T := ⟨some (new_array uninit (Rows * Cols)), Rows, Cols⟩
  for_loop (fun i (self : matrix T) =>
      if h : i < Rows then
        (self.row_begin i).bind fun dst =>
        (std_copy_n (some (List.ofFn (init ⟨i, h⟩))) 0 Cols self._data dst).map fun d =>
          { self with _data := d }
      else none)
    self.rows 0 self

/-- Constructor `matrix(const matrix& other)`. -/
def ctor_copy (uninit : Nat → T) (other : matrix T) : Option (matrix T) :=
  let self : matrix T := ⟨none, other.rows, other.cols⟩
  if other.empty then some { self with _data := none }
  else
    let self : matrix T := { self with _data := some (new_array uninit other.size) }
    (std_copy other._data other.begin other.end_ self._data self.begin).map fun d =>
      { self with _data := d }

/-- Constructor `matrix(matrix&& other)`: the pair is the constructed object
and `other` as the constructor leaves it. -/
def ctor_move (other : matrix T) : matrix T × matrix T :=
  let d := other._data
  let other : matrix T := { other with _data := none }
  (⟨d, other.rows, other.cols⟩, other)

/-- Friend `operator==`. -/
def operator_eq [DecidableEq T] (left right : matrix T) : Option Bool :=
  if left.rows ≠ right.rows ∨ left.cols ≠ right.cols then some false
  else std_equal left._data left.begin left.end_ right._data right.begin

/-- Friend `operator!=`. -/
def operator_ne [DecidableEq T] (left right : matrix T) : Option Bool :=
  (operator_eq left right).map fun b => !b

/-- Friend `operator*(const matrix&, const matrix&)`.  The local `result` is
returned by name, so the caller receives its value. -/
def operator_mul [Zero T] [Add T] [Mul T] (left right : matrix T) : Option (matrix T) :=
  let result : matrix T := ctor_sized left.rows right.cols
  for_loop (fun i (result : matrix T) =>
      for_loop (fun j (result : matrix T) =>
          (left.row_begin i).bind fun first1 =>
          (left.row_end i).bind fun last1 =>
          (right.col_begin j).bind fun first2 =>
          (std_inner_product left._data first1 last1 right._data first2 0).bind fun v =>
          result.assign_call i j v)
        right.cols 0 result)
    left.rows 0 result

end matrix

/-! ## Objects and references

Member functions that modify `*this` and receive another matrix by reference
act on a store of objects, so that `other` may be `*this`.  `A` is the type of
object addresses. -/

/-- A store of matrix objects indexed by their addresses. -/
abbrev Store (A T : Type) := A → matrix T

namespace Store

variable {A : Type} [DecidableEq A]

/-- The store with one more object, a temporary or a local, at address `none`. -/
def extend (σ : Store A T) (tmp : matrix T) : Store (Option A) T
  | none => tmp
  | some a => σ a

/-- The store once the object at address `none` has been destroyed. -/
def restrict (σ : Store (Option A) T) : Store A T :=
  fun a => σ (some a)

/-- Assignment to the member `_data` of the object at `a`. -/
def set_data (σ : Store A T) (a : A) (d : Option (List T)) : Store A T :=
  Function.update σ a { σ a with _data := d }

/-- Assignment to the member `_rows` of the object at `a`. -/
def set_rows (σ : Store A T) (a : A) (n : Nat) : Store A T :=
  Function.update σ a { σ a with _rows := n }

/-- Assignment to the member `_cols` of the object at `a`. -/
def set_cols (σ : Store A T) (a : A) (n : Nat) : Store A T :=
  Function.update σ a { σ a with _cols := n }

/-- Member `swap(other)`: three `std::swap` calls, each of which saves the
first member, overwrites it with the second and writes the saved value to the
second. -/
def swap (σ : Store A T) (self other : A) : Store A T :=
  let tmp := (σ self)._data
  let σ := set_data σ self (σ other)._data
  let σ := set_data σ other tmp
  let tmp := (σ self)._rows
  let σ := set_rows σ self (σ other)._rows
  let σ := set_rows σ other tmp
  let tmp := (σ self)._cols
  let σ := set_cols σ self (σ other)._cols
  set_cols σ other tmp

/-- Member `operator=(matrix&& other)`.  Each `std::exchange` resets the
member of `other` before the old value is assigned to the member of `*this`;
`delete[]` has no effect on the store. -/
def move_assign (σ : Store A T) (self other : A) : Store A T :=
  if other ≠ self then
    let old := (σ other)._data
    let σ := set_data σ other none
    let σ := set_data σ self old
    let old := (σ other)._rows
    let σ := set_rows σ other 0
    let σ := set_rows σ self old
    let old := (σ other)._cols
    let σ := set_cols σ other 0
    set_cols σ self old
  else σ

/-- Member `operator=(const matrix& other)`: the temporary `matrix(other)` is
swapped with `*this` and destroyed. -/
def copy_assign (uninit : Nat → T) (σ : Store A T) (self other : A) : Option (Store A T) :=
  if other ≠ self then
    (matrix.ctor_copy uninit (σ other)).map fun tmp =>
      restrict (swap (extend σ tmp) none (some self))
  else some σ

/-- Member `operator+=(const matrix& other)`. -/
def add_assign [Add T] (σ : Store A T) (self other : A) : Option (Store A T) :=
  for_loop (fun i (σ : Store A T) =>
      (load (σ self)._data i).bind fun a =>
      (load (σ other).data i).bind fun b =>
      (store (σ self)._data i (a + b)).map fun buf => set_data σ self (some buf))
    (σ self).size 0 σ

/-- Member `operator-=(const matrix& other)`. -/
def sub_assign [Sub T] (σ : Store A T) (self other : A) : Option (Store A T) :=
  for_loop (fun i (σ : Store A T) =>
      (load (σ self)._data i).bind fun a =>
      (load (σ other).data i).bind fun b =>
      (store (σ self)._data i (a - b)).map fun buf => set_data σ self (some buf))
    (σ self).size 0 σ

/-- Member `operator*=(const_reference factor)`, for a `factor` that is not an
element of the matrix itself. -/
def scale_assign [Mul T] (σ : Store A T) (self : A) (factor : T) : Option (Store A T) :=
  for_loop (fun i (σ : Store A T) =>
      (load (σ self)._data i).bind fun a =>
      (store (σ self)._data i (a * factor)).map fun buf => set_data σ self (some buf))
    (σ self).size 0 σ

/-- Member `operator*=(const matrix& other)`: the temporary product is
move-assigned to `*this` and destroyed. -/
def mul_assign [Zero T] [Add T] [Mul T] (σ : Store A T) (self other : A) :
    Option (Store A T) :=
  (matrix.operator_mul (σ self) (σ other)).map fun tmp =>
    restrict (move_assign (extend σ tmp) (some self) none)

end Store

namespace matrix

/-- The store of a friend operator's body: the local `result` at address
`none` and the operand `right` at address `some ()`. -/
def locals (result right : matrix T) : Store (Option Unit) T :=
  Store.extend (fun _ => right) result

/-- Friend `operator+`: `matrix result = left; return result += right;`.  The
returned value is copy-constructed from the reference that `+=` yields. -/
def operator_add [Add T] (uninit : Nat → T) (left right : matrix T) : Option (matrix T) :=
  (ctor_copy uninit left).bind fun result =>
  (Store.add_assign (locals result right) none (some ())).bind fun σ =>
  ctor_copy uninit (σ none)

/-- Friend `operator-`: `matrix result = left; return result -= right;`. -/
def operator_sub [Sub T] (uninit : Nat → T) (left right : matrix T) : Option (matrix T) :=
  (ctor_copy uninit left).bind fun result =>
  (Store.sub_assign (locals result right) none (some ())).bind fun σ =>
  ctor_copy uninit (σ none)

/-- Friend `operator*(const matrix&, const_reference)`:
`matrix result = left; return result *= right;`.  The store of the body holds
the local `result` alone. -/
def operator_scale [Mul T] (uninit : Nat → T) (left : matrix T) (right : T) :
    Option (matrix T) :=
  (ctor_copy uninit left).bind fun result =>
  (Store.scale_assign (fun _ : Unit => result) () right).bind fun σ =>
  ctor_copy uninit (σ ())

/-- Friend `operator*(const_reference, const matrix&)`: `return right * left;`. -/
def operator_scale_left [Mul T] (uninit : Nat → T) (left : T) (right : matrix T) :
    Option (matrix T) :=
  operator_scale uninit right left

/-! ## Invariants -/

/-- The shape invariant: `size() == rows() * cols()`, and a zero dimension
forces both dimensions to be zero. -/
def shape_invariant (self : matrix T) : Prop :=
  self.size = self.rows * self.cols ∧
    (self.rows = 0 ∨ self.cols = 0 → self.rows = 0 ∧ self.cols = 0)

/-- The number of elements of the buffer `_data`, zero for `nullptr`. -/
def capacity (self : matrix T) : Nat :=
  match self._data with
  | none => 0
  | some buf => buf.length

/-- The invariant of the data model: the shape invariant, and the buffer holds
exactly `size()` elements. -/
def valid (self : matrix T) : Prop :=
  self.shape_invariant ∧ self.capacity = self.size

/-- The canonical empty state: no rows, no columns, no buffer. -/
def canonical_empty (self : matrix T) : Prop :=
  self.rows = 0 ∧ self.cols = 0 ∧ self._data = none

instance (self : matrix T) : Decidable self.shape_invariant := by
  unfold shape_invariant; infer_instance

instance (self : matrix T) : Decidable self.valid := by
  unfold valid; infer_instance

instance [DecidableEq T] (self : matrix T) : Decidable self.canonical_empty := by
  unfold canonical_empty; infer_instance

end matrix

/-! ## The product with a record of its steps

The same code as `operator*` and the functions it calls, where every call of
`row_begin`, `row_end` and `col_begin`, every read of an element of `left` or
`right` and every write of an element of `result` is recorded, in order,
before it is carried out.  The record ends with the step at which the
behaviour becomes undefined, if there is one. -/

/-- A step of `operator*`: a call of `left.row_begin(i)`, `left.row_end(i)` or
`right.col_begin(j)`, the read of `left`'s buffer at an offset, the read of
`right`'s buffer at a position, or the write of `result`'s buffer at an
offset. -/
inductive Event where
  | row_begin (row_index : Nat)
  | row_end (row_index : Nat)
  | col_begin (col_index : Nat)
  | read_left (off : Nat)
  | read_right (pos : Int)
  | write_result (off : Nat)
deriving DecidableEq

/-- A computation with its record: the steps taken, and the result unless the
behaviour became undefined. -/
abbrev Traced (α : Type) := List Event × Option α

namespace Traced

/-- Sequencing: the second computation runs, and its steps are recorded, only
when the first has a result. -/
def bind {α β : Type} (x : Traced α) (f : α → Traced β) : Traced β :=
  match x.2 with
  | none => (x.1, none)
  | some a => (x.1 ++ (f a).1, (f a).2)

/-- One recorded step with its outcome. -/
def step {α : Type} (e : Event) (r : Option α) : Traced α := ([e], r)

end Traced

/-- The loop `for_loop` with the steps of its body recorded. -/
def for_loop_traced {σ : Type} (body : Nat → σ → Traced σ) : Nat → Nat → σ → Traced σ
  | 0, _, s => ([], some s)
  | count + 1, i, s => (body i s).bind (for_loop_traced body count (i + 1))

/-- The loop of `std::inner_product` with its reads recorded: `*first1` is a
read of `left` at `first1`, `*first2` a read of `right` at
`_data + _col_index`. -/
def inner_product_loop_traced [Add T] [Mul T] (p1 p2 : Option (List T)) :
    Nat → Nat → basic_col_iterator → T → Traced T
  | 0, _, _, init => ([], some init)
  | n + 1, first1, first2, init =>
    (Traced.step (Event.read_left first1) (load p1 first1)).bind fun a =>
    (Traced.step (Event.read_right (first2._data + (first2._col_index : Int)))
      (first2.deref p2)).bind fun b =>
    inner_product_loop_traced p1 p2 n (first1 + 1) first2.incr (init + a * b)

/-- Function `std::inner_product` with its reads recorded. -/
def std_inner_product_traced [Add T] [Mul T] (p1 : Option (List T)) (first1 last1 : Nat)
    (p2 : Option (List T)) (first2 : basic_col_iterator) (init : T) : Traced T :=
  if last1 < first1 then ([], none)
  else inner_product_loop_traced p1 p2 (last1 - first1) first1 first2 init

namespace matrix

/-- Member `row_begin(row_index)`, recorded. -/
def row_begin_traced (self : matrix T) (row_index : Nat) : Traced Nat :=
  Traced.step (Event.row_begin row_index)
    (if row_index < self.rows then some (row_index * self.cols) else none)

/-- Member `row_end(row_index)`, recorded, with the call of `row_begin` that
its body makes. -/
def row_end_traced (self : matrix T) (row_index : Nat) : Traced Nat :=
  (Traced.step (Event.row_end row_index)
    (if row_index < self.rows then some () else none)).bind fun _ =>
  (self.row_begin_traced row_index).bind fun p => ([], some (p + self.cols))

/-- Member `col_begin(col_index)`, recorded. -/
def col_begin_traced (self : matrix T) (col_index : Nat) : Traced basic_col_iterator :=
  Traced.step (Event.col_begin col_index)
    (if col_index < self.cols then some ⟨(self.begin : Int), col_index, self.cols⟩ else none)

/-- The statement `self(row, col) = v`, recorded. -/
def assign_call_traced (self : matrix T) (row col : Nat) (v : T) : Traced (matrix T) :=
  Traced.step (Event.write_result (row * self.cols + col)) (self.assign_call row col v)

/-- Friend `operator*(const matrix&, const matrix&)` with its steps recorded. -/
def operator_mul_traced [Zero T] [Add T] [Mul T] (left right : matrix T) :
    Traced (matrix T) :=
  let result : matrix T := ctor_sized left.rows right.cols
  for_loop_traced (fun i (result : matrix T) =>
      for_loop_traced (fun j (result : matrix T) =>
          (left.row_begin_traced i).bind fun first1 =>
          (left.row_end_traced i).bind fun last1 =>
          (right.col_begin_traced j).bind fun first2 =>
          (std_inner_product_traced left._data first1 last1 right._data first2 0).bind fun v =>
          result.assign_call_traced i j v)
        right.cols 0 result)
    left.rows 0 result

end matrix

/-- The step respects the bounds of `left * right`: the row index of
`row_begin`/`row_end` is below `left.rows()`, the column index of `col_begin`
below `right.cols()`, a read of `left` below `left.size()`, a read of `right`
inside `[0, right.size())`, a write of `result` below `result.size()`. -/
def Event.in_bounds (left right result : matrix T) : Event → Prop
  | Event.row_begin i => i < left.rows
  | Event.row_end i => i < left.rows
  | Event.col_begin j => j < right.cols
  | Event.read_left off => off < left.size
  | Event.read_right pos => 0 ≤ pos ∧ pos < (right.size : Int)
  | Event.write_result off => off < result.size

/-- The step is a read of `right`'s buffer at an offset `>= right.size()`. -/
def Event.past_right (right : matrix T) : Event → Prop
  | Event.read_right pos => (right.size : Int) ≤ pos
  | _ => False

instance (left right result : matrix T) (e : Event) :
    Decidable (e.in_bounds left right result) := by
  cases e <;> unfold Event.in_bounds <;> infer_instance

instance (right : matrix T) (e : Event) : Decidable (e.past_right right) := by
  cases e <;> unfold Event.past_right <;> infer_instance

/-- The steps that a walk of `n` steps of `std::inner_product` records when no
step is undefined: step `t` reads `left` at offset `first1 + t`, then `right`
at position `pos + stride * t`. -/
def column_walk (first1 : Nat) (pos stride : Int) : Nat → List Event
  | 0 => []
  | n + 1 => Event.read_left first1 :: Event.read_right pos ::
      column_walk (first1 + 1) (pos + stride) stride n

/-- The steps that a loop of `count` iterations starting at `i` records when
iteration `k` records `steps k`. -/
def steps_from (steps : Nat → List Event) : Nat → Nat → List Event
  | 0, _ => []
  | count + 1, i => steps i ++ steps_from steps count (i + 1)

/-- The steps that the computation of `result(i, j)` records when no step is
undefined, for a left operand with `left_cols` columns and a right operand
with `right_cols` columns: the calls `row_begin(i)`, `row_end(i)` (which calls
`row_begin(i)`) and `col_begin(j)`, a walk of `left_cols` steps over row `i` of
`left` and column `j` of `right`, and the write of `result(i, j)`. -/
def cell_steps (left_cols right_cols i j : Nat) : List Event :=
  [Event.row_begin i, Event.row_end i, Event.row_begin i, Event.col_begin j] ++
    column_walk (i * left_cols) (j : Int) (right_cols : Int) left_cols ++
    [Event.write_result (i * right_cols + j)]

/-- The steps that a product records when no step is undefined: the steps of
the cells `(i, j)`, row by row. -/
def product_steps (left_rows left_cols right_cols : Nat) : List Event :=
  steps_from (fun i => steps_from (cell_steps left_cols right_cols i) right_cols 0) left_rows 0

/-! ## A store for the examples -/

/-- A store holding the `3 × 1` matrix `[[7],[8],[9]]` at address `0` and the
`1 × 2` matrix `[[1,2]]` at every other address. -/
def demo_store : Store Nat Int :=
  fun x => if x = 0 then ⟨some [7, 8, 9], 3, 1⟩ else ⟨some [1, 2], 1, 2⟩

/-- A store holding the `2 × 2` matrix `[[1,2],[3,4]]` at address `0` and the
`2 × 2` matrix `[[5,6],[7,8]]` at every other address. -/
def sum_store : Store Nat Int :=
  fun x => if x = 0 then ⟨some [1, 2, 3, 4], 2, 2⟩ else ⟨some [5, 6, 7, 8], 2, 2⟩

/-- The `n × 1` matrix whose elements are all `1`. -/
def column_of_ones (n : Nat) : matrix Int := ⟨some (List.replicate n 1), n, 1⟩

/-- The `1 × n` matrix whose elements are all `1`. -/
def row_of_ones (n : Nat) : matrix Int := ⟨some (List.replicate n 1), 1, n⟩

/-! ## Predicates used in the loop invariants -/

/-- The state of `result` inside `operator*` when rows `< i` are complete and
row `i` is complete up to column `j`: the shape is `m × n`, the buffer has
`m * n` elements and the finished cells hold `val`. -/
def mul_progress (m n : Nat) (val : Nat → Nat → T) (i j : Nat) (res : matrix T) : Prop :=
  res._rows = m ∧ res._cols = n ∧ ∃ buf, res._data = some buf ∧ buf.length = m * n ∧
    (∀ i' < i, ∀ j' < n, buf[i' * n + j']? = some (val i' j')) ∧
    (∀ j' < j, buf[i * n + j']? = some (val i j'))

/-- The state of `result` inside `operator*`, values apart: the shape is
`m × n` and the buffer has `m * n` elements. -/
def result_shape (m n : Nat) (res : matrix T) : Prop :=
  res._rows = m ∧ res._cols = n ∧ ∃ buf, res._data = some buf ∧ buf.length = m * n

/-- Element `(i, j)` of the literal `init` as the literal constructor reads
it: row `i` of the literal, as an array of `Cols` elements, at index `j`. -/
def literal_entry {Rows Cols : Nat} (init : Fin Rows → Fin Cols → T) (i j : Nat) : Option T :=
  if h : i < Rows then (List.ofFn (init ⟨i, h⟩))[j]? else none

/-- The state of `*this` inside the literal constructor when rows `< i` have
been copied. -/
def literal_progress {Rows Cols : Nat} (init : Fin Rows → Fin Cols → T) (i : Nat)
    (self : matrix T) : Prop :=
  self._rows = Rows ∧ self._cols = Cols ∧ ∃ buf, self._data = some buf ∧
    buf.length = Rows * Cols ∧
    ∀ i' < i, ∀ j' < Cols, buf[i' * Cols + j']? = literal_entry init i' j'

/-! ## Loops and memory: auxiliary facts -/

theorem for_loop_spec {σ : Type} (body : Nat → σ → Option σ) (I : Nat → σ → Prop) :
    ∀ (count i : Nat) (s : σ), I i s →
      (∀ j s, i ≤ j → j < i + count → I j s → ∃ s', body j s = some s' ∧ I (j + 1) s') →
      ∃ s', for_loop body count i s = some s' ∧ I (i + count) s' := by
  intro count
  induction count with
  | zero => intro i s h0 _; exact ⟨s, rfl, by simpa using h0⟩
  | succ c ih =>
    intro i s h0 hstep
    obtain ⟨s1, hb, h1⟩ := hstep i s (Nat.le_refl i) (by omega) h0
    obtain ⟨s2, hl, h2⟩ := ih (i + 1) s1 h1
      (fun j s hj hj' hI => hstep j s (by omega) (by omega) hI)
    refine ⟨s2, ?_, ?_⟩
    · simp [for_loop, hb, hl]
    · have e : i + (c + 1) = i + 1 + c := by omega
      rw [e]; exact h2

theorem load_some (buf : List T) (off : Nat) : load (some buf) off = buf[off]? := rfl

theorem store_some (buf : List T) (off : Nat) (v : T) (h : off < buf.length) :
    store (some buf) off v = some (buf.set off v) := by
  simp [store, h]

theorem load_at_natCast (p : Option (List T)) (off : Nat) :
    load_at p (off : Int) = load p off := by
  simp [load_at]

theorem inner_product_loop_spec [Add T] [Mul T] (p1 p2 : Option (List T)) :
    ∀ (n first1 : Nat) (first2 : basic_col_iterator) (init : T) (a b : Nat → T),
      (∀ t < n, load p1 (first1 + t) = some (a t)) →
      (∀ t < n, load_at p2 (first2._data + (first2._cols : Int) * (t : Int)
          + (first2._col_index : Int)) = some (b t)) →
      inner_product_loop p1 p2 n first1 first2 init
        = some ((List.range n).foldl (fun acc t => acc + a t * b t) init) := by
  intro n
  induction n with
  | zero => intro first1 first2 init a b _ _; rfl
  | succ n ih =>
    intro first1 first2 init a b ha hb
    have ha0 : load p1 first1 = some (a 0) := by simpa using ha 0 (Nat.succ_pos n)
    have hb0 : first2.deref p2 = some (b 0) := by
      simpa [basic_col_iterator.deref] using hb 0 (Nat.succ_pos n)
    have hrec := ih (first1 + 1) first2.incr (init + a 0 * b 0)
      (fun t => a (t + 1)) (fun t => b (t + 1))
      (fun t ht => by
        have := ha (t + 1) (by omega)
        rw [← this]; congr 1; omega)
      (fun t ht => by
        have := hb (t + 1) (by omega)
        rw [← this]; congr 1
        simp only [basic_col_iterator.incr]; push_cast; ring)
    rw [List.range_succ_eq_map, List.foldl_cons, List.foldl_map]
    simp only [inner_product_loop, ha0, hb0, Option.some_bind]
    exact hrec

theorem row_major_lt {r c i j : Nat} (hi : i < r) (hj : j < c) : i * c + j < r * c := by
  have h1 : (i + 1) * c ≤ r * c := Nat.mul_le_mul_right c hi
  have h2 : (i + 1) * c = i * c + c := by ring
  omega

theorem row_major_lt_of_row_lt {c i i' j j' : Nat} (hi : i' < i) (hj' : j' < c) :
    i' * c + j' < i * c + j := by
  have h1 : (i' + 1) * c ≤ i * c := Nat.mul_le_mul_right c hi
  have h2 : (i' + 1) * c = i' * c + c := by ring
  omega

theorem mul_progress_step (m n : Nat) (val : Nat → Nat → T) (i j : Nat) (res : matrix T)
    (hi : i < m) (hj : j < n) (h : mul_progress m n val i j res) :
    ∃ res', res.assign_call i j (val i j) = some res' ∧ mul_progress m n val i (j + 1) res' := by
  obtain ⟨hr, hc, buf, hd, hlen, hdone, hrow⟩ := h
  have hoff : i * n + j < buf.length := by rw [hlen]; exact row_major_lt hi hj
  refine ⟨{ res with _data := some (buf.set (i * n + j) (val i j)) }, ?_, hr, hc,
    buf.set (i * n + j) (val i j), rfl, by simpa using hlen, ?_, ?_⟩
  · simp [matrix.assign_call, matrix.cols, hc, hd, store_some _ _ _ hoff]
  · intro i' hi' j' hj'
    have hne : i * n + j ≠ i' * n + j' := by
      have := @row_major_lt_of_row_lt n i i' j j' hi' hj'
      omega
    rw [List.getElem?_set_ne hne]
    exact hdone i' hi' j' hj'
  · intro j' hj'
    rcases Nat.lt_succ_iff_lt_or_eq.mp hj' with hlt | heq
    · rw [List.getElem?_set_ne (by omega)]
      exact hrow j' hlt
    · subst heq
      exact List.getElem?_set_self hoff

theorem mul_progress_next_row (m n : Nat) (val : Nat → Nat → T) (i : Nat) (res : matrix T)
    (h : mul_progress m n val i n res) : mul_progress m n val (i + 1) 0 res := by
  obtain ⟨hr, hc, buf, hd, hlen, hdone, hrow⟩ := h
  refine ⟨hr, hc, buf, hd, hlen, ?_, ?_⟩
  · intro i' hi' j' hj'
    rcases Nat.lt_succ_iff_lt_or_eq.mp hi' with hlt | heq
    · exact hdone i' hlt j' hj'
    · subst heq; exact hrow j' hj'
  · intro j' hj'; exact absurd hj' (Nat.not_lt_zero _)

theorem mul_cell [Add T] [Mul T] (left right : matrix T) (k n : Nat) (L R : Nat → Nat → T)
    (hlc : left.cols = k) (hrc : right.cols = n) (i j : Nat) (init : T)
    (hL : ∀ t < k, left.operator_call i t = some (L i t))
    (hR : ∀ t < k, right.operator_call t j = some (R t j)) :
    std_inner_product left._data (i * k) (i * k + k) right._data ⟨(right.begin : Int), j, n⟩ init
      = some ((List.range k).foldl (fun acc t => acc + L i t * R t j) init) := by
  have hnot : ¬ (i * k + k < i * k) := by omega
  have hsub : i * k + k - i * k = k := by omega
  rw [std_inner_product, if_neg hnot, hsub]
  apply inner_product_loop_spec
  · intro t ht
    have := hL t ht
    simpa [matrix.operator_call, hlc] using this
  · intro t ht
    have := hR t ht
    simp only [matrix.operator_call, hrc] at this
    rw [← this, ← load_at_natCast]
    congr 1
    simp only [matrix.begin]; push_cast; ring

theorem for_loop_first_none {σ : Type} (body : Nat → σ → Option σ) (count i : Nat) (s : σ)
    (hc : 0 < count) (h : body i s = none) : for_loop body count i s = none := by
  obtain ⟨c, rfl⟩ : ∃ c, count = c + 1 := ⟨count - 1, by omega⟩
  simp only [for_loop, h, Option.none_bind]

/-! ## Copying and comparing buffers: auxiliary facts -/

theorem copy_loop_spec (sbuf : List T) :
    ∀ (n first : Nat) (dbuf : List T) (d_first : Nat),
      first + n ≤ sbuf.length → d_first + n ≤ dbuf.length →
      ∃ out, copy_loop (some sbuf) n first (some dbuf) d_first = some (some out) ∧
        out.length = dbuf.length ∧
        ∀ x, out[x]? = if d_first ≤ x ∧ x < d_first + n then sbuf[first + (x - d_first)]?
          else dbuf[x]? := by
  intro n
  induction n with
  | zero =>
    intro first dbuf d_first _ _
    refine ⟨dbuf, rfl, rfl, fun x => ?_⟩
    have : ¬ (d_first ≤ x ∧ x < d_first + 0) := by omega
    rw [if_neg this]
  | succ n ih =>
    intro first dbuf d_first hs hd
    have hfirst : first < sbuf.length := by omega
    have hdf : d_first < dbuf.length := by omega
    obtain ⟨out, hout, hlen, hget⟩ := ih (first + 1) (dbuf.set d_first sbuf[first]) (d_first + 1)
      (by omega) (by simp only [List.length_set]; omega)
    refine ⟨out, ?_, by simpa using hlen, fun x => ?_⟩
    · simp only [copy_loop, load_some, List.getElem?_eq_getElem hfirst, Option.some_bind,
        store_some _ _ _ hdf]
      exact hout
    · rw [hget x]
      by_cases h1 : d_first + 1 ≤ x ∧ x < d_first + 1 + n
      · have h2 : d_first ≤ x ∧ x < d_first + (n + 1) := by omega
        rw [if_pos h1, if_pos h2]
        congr 1; omega
      · rw [if_neg h1]
        by_cases h3 : x = d_first
        · subst h3
          have h2 : x ≤ x ∧ x < x + (n + 1) := by omega
          rw [if_pos h2, List.getElem?_set_self hdf, Nat.sub_self, Nat.add_zero,
            List.getElem?_eq_getElem hfirst]
        · have h2 : ¬ (d_first ≤ x ∧ x < d_first + (n + 1)) := by omega
          rw [if_neg h2, List.getElem?_set_ne (fun e => h3 e.symm)]

theorem equal_loop_spec [DecidableEq T] (b1 b2 : List T) :
    ∀ (n first1 first2 : Nat), first1 + n ≤ b1.length → first2 + n ≤ b2.length →
      equal_loop (some b1) (some b2) n first1 first2
        = some (decide (∀ t < n, b1[first1 + t]? = b2[first2 + t]?)) := by
  intro n
  induction n with
  | zero => intro first1 first2 _ _; simp [equal_loop]
  | succ n ih =>
    intro first1 first2 h1 h2
    have hf1 : first1 < b1.length := by omega
    have hf2 : first2 < b2.length := by omega
    simp only [equal_loop, load_some, List.getElem?_eq_getElem hf1,
      List.getElem?_eq_getElem hf2, Option.some_bind]
    by_cases heq : b1[first1] = b2[first2]
    · rw [if_pos heq, ih (first1 + 1) (first2 + 1) (by omega) (by omega)]
      congr 1
      apply decide_eq_decide.mpr
      constructor
      · intro h t ht
        rcases Nat.eq_zero_or_pos t with h0 | hpos
        · subst h0
          simp only [Nat.add_zero, List.getElem?_eq_getElem hf1, List.getElem?_eq_getElem hf2,
            heq]
        · have := h (t - 1) (by omega)
          have e1 : first1 + 1 + (t - 1) = first1 + t := by omega
          have e2 : first2 + 1 + (t - 1) = first2 + t := by omega
          rwa [e1, e2] at this
      · intro h t ht
        have := h (t + 1) (by omega)
        have e1 : first1 + (t + 1) = first1 + 1 + t := by omega
        have e2 : first2 + (t + 1) = first2 + 1 + t := by omega
        rwa [e1, e2] at this
    · rw [if_neg heq]
      congr 1
      symm
      apply decide_eq_false
      intro h
      have := h 0 (Nat.succ_pos n)
      simp only [Nat.add_zero, List.getElem?_eq_getElem hf1, List.getElem?_eq_getElem hf2,
        Option.some.injEq] at this
      exact heq this

theorem valid_data {m : matrix T} (h : m.valid) (hs : m.size ≠ 0) :
    ∃ buf, m._data = some buf ∧ buf.length = m.size := by
  have hcap := h.2
  unfold matrix.capacity at hcap
  cases hd : m._data with
  | none => rw [hd] at hcap; exact absurd hcap.symm hs
  | some buf => rw [hd] at hcap; exact ⟨buf, rfl, hcap⟩

theorem valid_empty_dims {m : matrix T} (h : m.valid) (hs : m.size = 0) :
    m.rows = 0 ∧ m.cols = 0 := by
  have : m.rows = 0 ∨ m.cols = 0 := by
    have : m.rows * m.cols = 0 := hs
    exact Nat.mul_eq_zero.mp this
  exact h.1.2 this

theorem new_array_length (uninit : Nat → T) (n : Nat) : (new_array uninit n).length = n := by
  simp [new_array]

theorem ctor_copy_of_valid (uninit : Nat → T) (a : matrix T) (ha : a.valid) :
    ∃ b, matrix.ctor_copy uninit a = some b ∧ b.rows = a.rows ∧ b.cols = a.cols ∧
      b.valid ∧ (b._data = a._data ∨ (a.size = 0 ∧ b._data = none)) := by
  by_cases hs : a.size = 0
  · refine ⟨⟨none, a.rows, a.cols⟩, ?_, rfl, rfl, ?_, Or.inr ⟨hs, rfl⟩⟩
    · simp [matrix.ctor_copy, matrix.empty, hs]
    · obtain ⟨hr, hc⟩ := valid_empty_dims ha hs
      refine ⟨⟨rfl, fun _ => ⟨hr, hc⟩⟩, ?_⟩
      show (0 : Nat) = a.rows * a.cols
      exact hs.symm
  · obtain ⟨sbuf, hd, hlen⟩ := valid_data ha hs
    obtain ⟨out, hout, holen, hget⟩ := copy_loop_spec sbuf a.size 0 (new_array uninit a.size) 0
      (by omega) (by rw [new_array_length]; omega)
    have hout_eq : out = sbuf := by
      apply List.ext_getElem?
      intro x
      rw [hget x]
      by_cases hx : x < a.size
      · have : 0 ≤ x ∧ x < 0 + a.size := by omega
        rw [if_pos this]; simp
      · have : ¬ (0 ≤ x ∧ x < 0 + a.size) := by omega
        rw [if_neg this, List.getElem?_eq_none (by rw [new_array_length]; omega),
          List.getElem?_eq_none (by omega)]
    subst hout_eq
    refine ⟨⟨some out, a.rows, a.cols⟩, ?_, rfl, rfl, ?_, Or.inl hd.symm⟩
    · have hne : ¬ (a.begin + a.size < a.begin) := by omega
      simp only [matrix.ctor_copy, matrix.empty, beq_iff_eq, hs, if_false, std_copy,
        matrix.end_, hne, hd]
      have hsub : a.begin + a.size - a.begin = a.size := by omega
      rw [hsub]
      simp only [matrix.begin] at hout ⊢
      rw [hout]; rfl
    · refine ⟨⟨rfl, ha.1.2⟩, ?_⟩
      show out.length = a.rows * a.cols
      exact hlen

theorem operator_eq_linear [DecidableEq T] (a b : matrix T) (ha : a.valid) (hb : b.valid)
    (hr : a.rows = b.rows) (hc : a.cols = b.cols) :
    matrix.operator_eq a b = some (decide (∀ p < a.size, load a._data p = load b._data p)) := by
  have hsize : a.size = b.size := by
    show a._rows * a._cols = b._rows * b._cols
    have h1 : a._rows = b._rows := hr
    have h2 : a._cols = b._cols := hc
    rw [h1, h2]
  have hdim : ¬ (a.rows ≠ b.rows ∨ a.cols ≠ b.cols) := by
    intro h; rcases h with h | h
    · exact h hr
    · exact h hc
  have hne : ¬ (a.begin + a.size < a.begin) := by omega
  have hsub : a.begin + a.size - a.begin = a.size := by omega
  simp only [matrix.operator_eq, if_neg hdim, std_equal, matrix.end_, if_neg hne, hsub]
  by_cases hs : a.size = 0
  · rw [hs]
    simp [equal_loop]
  · obtain ⟨b1, hd1, hl1⟩ := valid_data ha hs
    obtain ⟨b2, hd2, hl2⟩ := valid_data hb (by omega)
    rw [hd1, hd2, equal_loop_spec b1 b2 a.size a.begin b.begin
      (by simp only [matrix.begin]; omega) (by simp only [matrix.begin]; omega)]
    simp [matrix.begin, load_some]

theorem operator_eq_self_of_data [DecidableEq T] (a b : matrix T) (ha : a.valid) (hb : b.valid)
    (hr : b.rows = a.rows) (hc : b.cols = a.cols)
    (hd : b._data = a._data ∨ (a.size = 0 ∧ b._data = none)) :
    matrix.operator_eq b a = some true := by
  rw [operator_eq_linear b a hb ha hr hc]
  congr 1
  apply decide_eq_true
  intro p hp
  rcases hd with hd | ⟨hs, _⟩
  · rw [hd]
  · have : b.size = a.size := by
      show b._rows * b._cols = a._rows * a._cols
      have h1 : b._rows = a._rows := hr
      have h2 : b._cols = a._cols := hc
      rw [h1, h2]
    omega

theorem swap_apply {A : Type} [DecidableEq A] (σ : Store A T) (x y z : A) (h : x ≠ y) :
    Store.swap σ x y z = if z = x then σ y else if z = y then σ x else σ z := by
  have hyx : y ≠ x := fun e => h e.symm
  by_cases hzx : z = x
  · subst hzx
    simp [Store.swap, Store.set_data, Store.set_rows, Store.set_cols, Function.update, h, hyx]
  · by_cases hzy : z = y
    · subst hzy
      simp [Store.swap, Store.set_data, Store.set_rows, Store.set_cols, Function.update, h,
        hyx]
    · simp [Store.swap, Store.set_data, Store.set_rows, Store.set_cols, Function.update, hzx,
        hzy]

theorem swap_self {A : Type} [DecidableEq A] (σ : Store A T) (x : A) : Store.swap σ x x = σ := by
  funext z
  by_cases hzx : z = x
  · subst hzx
    simp [Store.swap, Store.set_data, Store.set_rows, Store.set_cols, Function.update]
  · simp [Store.swap, Store.set_data, Store.set_rows, Store.set_cols, Function.update, hzx]

theorem copy_assign_apply {A : Type} [DecidableEq A] (uninit : Nat → T) (σ : Store A T)
    (self other : A) (tmp : matrix T) (hne : other ≠ self)
    (htmp : matrix.ctor_copy uninit (σ other) = some tmp) :
    Store.copy_assign uninit σ self other = some (Function.update σ self tmp) := by
  simp only [Store.copy_assign, if_pos hne, htmp, Option.map_some']
  congr 1
  funext z
  simp only [Store.restrict]
  rw [swap_apply _ _ _ _ (by simp)]
  by_cases hz : z = self
  · subst hz; simp [Store.extend]
  · simp [Store.extend, hz, Function.update]

/-! ## C1: the matrix product -/

theorem operator_mul_nonempty [Zero T] [Add T] [Mul T] (left right : matrix T) (m k n : Nat)
    (L R : Nat → Nat → T) (hm : 0 < m) (hn : 0 < n) (hfit : m * n < size_t_range)
    (hlr : left.rows = m) (hlc : left.cols = k) (hrc : right.cols = n)
    (hL : ∀ i < m, ∀ t < k, left.operator_call i t = some (L i t))
    (hR : ∀ t < k, ∀ j < n, right.operator_call t j = some (R t j)) :
    ∃ result, matrix.operator_mul left right = some result ∧
      mul_progress m n
        (fun i j => (List.range k).foldl (fun acc t => acc + L i t * R t j) 0) m 0 result := by
  have hinit : mul_progress m n
      (fun i j => (List.range k).foldl (fun acc t => acc + L i t * R t j) 0) 0 0
      (matrix.ctor_sized m n) := by
    have hne : m ≠ 0 ∧ n ≠ 0 := ⟨by omega, by omega⟩
    refine ⟨by simp [matrix.ctor_sized, hne], by simp [matrix.ctor_sized, hne],
      List.replicate (m * n) 0, by simp [matrix.ctor_sized, hne, Nat.mod_eq_of_lt hfit],
      by simp, ?_, ?_⟩
    · intro i' hi'; omega
    · intro j' hj'; omega
  have houter := for_loop_spec
    (fun i (result : matrix T) =>
      for_loop (fun j (result : matrix T) =>
          (left.row_begin i).bind fun first1 =>
          (left.row_end i).bind fun last1 =>
          (right.col_begin j).bind fun first2 =>
          (std_inner_product left._data first1 last1 right._data first2 0).bind fun v =>
          result.assign_call i j v)
        right.cols 0 result)
    (fun i res => mul_progress m n
      (fun i j => (List.range k).foldl (fun acc t => acc + L i t * R t j) 0) i 0 res)
    m 0 (matrix.ctor_sized m n) hinit
    (by
      intro i res _ hi hI
      have hi : i < m := by omega
      have hinner := for_loop_spec
        (fun j (result : matrix T) =>
          (left.row_begin i).bind fun first1 =>
          (left.row_end i).bind fun last1 =>
          (right.col_begin j).bind fun first2 =>
          (std_inner_product left._data first1 last1 right._data first2 0).bind fun v =>
          result.assign_call i j v)
        (fun j res => mul_progress m n
          (fun i j => (List.range k).foldl (fun acc t => acc + L i t * R t j) 0) i j res)
        n 0 res hI
        (by
          intro j res' _ hj hJ
          have hj : j < n := by omega
          have hcell := mul_cell left right k n L R hlc hrc i j 0
            (fun t ht => hL i hi t ht) (fun t ht => hR t ht j hj)
          have hrb : left.row_begin i = some (i * k) := by
            simp [matrix.row_begin, hlr, hlc, hi]
          have hre : left.row_end i = some (i * k + k) := by
            simp [matrix.row_end, hrb, hlr, hlc, hi]
          have hcb : right.col_begin j = some ⟨(right.begin : Int), j, n⟩ := by
            simp [matrix.col_begin, hrc, hj]
          simp only [hrb, hre, hcb, hcell, Option.some_bind]
          exact mul_progress_step m n _ i j res' hi hj hJ)
      obtain ⟨res', hres', hJ⟩ := hinner
      refine ⟨res', ?_, ?_⟩
      · rw [hrc]; exact hres'
      · apply mul_progress_next_row
        simpa using hJ)
  obtain ⟨result, hres, hprog⟩ := houter
  refine ⟨result, ?_, by simpa using hprog⟩
  rw [← hlr, ← hrc] at hres
  exact hres

theorem ones_valid (n : Nat) (hn : 0 < n) :
    (column_of_ones n).valid ∧ (row_of_ones n).valid := by
  refine ⟨⟨⟨rfl, fun h => ?_⟩, ?_⟩, ⟨⟨rfl, fun h => ?_⟩, ?_⟩⟩
  · have h1 : (column_of_ones n).rows = n := rfl
    have h2 : (column_of_ones n).cols = 1 := rfl
    omega
  · show (List.replicate n (1 : Int)).length = n * 1
    simp
  · have h1 : (row_of_ones n).rows = 1 := rfl
    have h2 : (row_of_ones n).cols = n := rfl
    omega
  · show (List.replicate n (1 : Int)).length = 1 * n
    simp

theorem ones_cells (n : Nat) :
    (∀ i < n, ∀ t < 1, (column_of_ones n).operator_call i t = some 1) ∧
    (∀ t < 1, ∀ j < n, (row_of_ones n).operator_call t j = some 1) := by
  constructor
  · intro i hi t ht
    have ht0 : t = 0 := by omega
    subst ht0
    simp [column_of_ones, matrix.operator_call, matrix.cols, load_some,
      List.getElem?_replicate, hi]
  · intro t ht j hj
    have ht0 : t = 0 := by omega
    subst ht0
    simp [row_of_ones, matrix.operator_call, matrix.cols, load_some,
      List.getElem?_replicate, hj]

theorem ones_product_undefined (n : Nat) (hn : 0 < n) (hw : (n * n) % size_t_range = 0) :
    matrix.operator_mul (column_of_ones n) (row_of_ones n) = none := by
  unfold matrix.operator_mul
  apply for_loop_first_none _ _ _ _ (show 0 < (column_of_ones n).rows from hn)
  apply for_loop_first_none _ _ _ _ (show 0 < (row_of_ones n).cols from hn)
  have hne : n ≠ 0 := by omega
  have hrb : (column_of_ones n).row_begin 0 = some 0 := by
    simp [matrix.row_begin, column_of_ones, matrix.rows, hn]
  have hre : (column_of_ones n).row_end 0 = some 1 := by
    simp [matrix.row_end, matrix.row_begin, column_of_ones, matrix.rows, matrix.cols, hn]
  have hcb : (row_of_ones n).col_begin 0 = some ⟨0, 0, n⟩ := by
    simp [matrix.col_begin, row_of_ones, matrix.cols, matrix.begin, hn]
  have hip : std_inner_product (column_of_ones n)._data 0 1 (row_of_ones n)._data ⟨0, 0, n⟩ 0
      = some (0 + 1 * 1) := by
    simp [std_inner_product, inner_product_loop, column_of_ones, row_of_ones, load_some,
      basic_col_iterator.deref, load_at, List.getElem?_replicate, hn]
  have hst : (matrix.ctor_sized (column_of_ones n).rows (row_of_ones n).cols : matrix Int).assign_call
      0 0 (0 + 1 * 1) = none := by
    have h1 : (column_of_ones n).rows = n := rfl
    have h2 : (row_of_ones n).cols = n := rfl
    simp [matrix.assign_call, matrix.ctor_sized, h1, h2, hne, hw, store]
  simp only [hrb, hre, hcb, hip, Option.some_bind, hst]

/-- C1, as stated, fails: the `2^32 × 1` and `1 × 2^32` matrices of ones satisfy
the shape invariant, have matching inner dimension and readable elements, but
the result `matrix(2^32, 2^32)` is allocated with `2^32 * 2^32 mod 2^64 = 0`
elements, so the write of its element `(0, 0)` is outside the buffer and the
product has no defined result. -/
theorem operator_mul_result_wraps :
    (column_of_ones (2 ^ 32)).shape_invariant ∧ (row_of_ones (2 ^ 32)).shape_invariant ∧
    (column_of_ones (2 ^ 32)).rows = 2 ^ 32 ∧ (column_of_ones (2 ^ 32)).cols = 1 ∧
    (row_of_ones (2 ^ 32)).rows = 1 ∧ (row_of_ones (2 ^ 32)).cols = 2 ^ 32 ∧
    (∀ i < 2 ^ 32, ∀ t < 1, (column_of_ones (2 ^ 32)).operator_call i t = some 1) ∧
    (∀ t < 1, ∀ j < 2 ^ 32, (row_of_ones (2 ^ 32)).operator_call t j = some 1) ∧
    (matrix.ctor_sized (2 ^ 32) (2 ^ 32) : matrix Int)._data = some [] ∧
    matrix.operator_mul (column_of_ones (2 ^ 32)) (row_of_ones (2 ^ 32)) = none := by
  have hv := ones_valid (2 ^ 32) (by norm_num)
  have hc := ones_cells (2 ^ 32)
  refine ⟨hv.1.1, hv.2.1, rfl, rfl, rfl, rfl, hc.1, hc.2, ?_, ?_⟩
  · have hw : (2 ^ 32 * 2 ^ 32) % size_t_range = 0 := by norm_num [size_t_range]
    have hne : (2 : Nat) ^ 32 ≠ 0 := by norm_num
    unfold matrix.ctor_sized
    rw [if_pos ⟨hne, hne⟩]
    show some (List.replicate ((2 ^ 32 * 2 ^ 32) % size_t_range) (0 : Int)) = some []
    rw [hw]
    rfl
  · exact ones_product_undefined (2 ^ 32) (by norm_num) (by norm_num [size_t_range])

/-- C1, amended.  For `left` of shape `m × k` with elements `L` and `right` of
shape `k × n` with elements `R`, both satisfying the shape invariant, and
`m * n` below `2 ^ 64`, `left * right` runs to completion, its result has `m`
rows and `n` columns, and its element `(i, j)` is `L i t * R t j` accumulated
over `t = 0, …, k - 1` from left to right, starting from zero. -/
theorem operator_mul_entries [Zero T] [Add T] [Mul T] (left right : matrix T) (m k n : Nat)
    (L R : Nat → Nat → T)
    (hl : left.shape_invariant) (hr : right.shape_invariant)
    (hlr : left.rows = m) (hlc : left.cols = k) (hrr : right.rows = k) (hrc : right.cols = n)
    (hfit : m * n < size_t_range)
    (hL : ∀ i < m, ∀ t < k, left.operator_call i t = some (L i t))
    (hR : ∀ t < k, ∀ j < n, right.operator_call t j = some (R t j)) :
    ∃ result, matrix.operator_mul left right = some result ∧
      result.rows = m ∧ result.cols = n ∧
      ∀ i < m, ∀ j < n, result.operator_call i j =
        some ((List.range k).foldl (fun acc t => acc + L i t * R t j) 0) := by
  rcases Nat.eq_zero_or_pos m with hm | hm
  · have hk : k = 0 := by
      have := (hl.2 (Or.inl (hlr.trans hm))).2
      omega
    have hn : n = 0 := by
      have := (hr.2 (Or.inl (hrr.trans hk))).2
      omega
    refine ⟨matrix.ctor_default, ?_, ?_, ?_, ?_⟩
    · simp [matrix.operator_mul, matrix.ctor_sized, hlr, hm, for_loop]
    · simp [matrix.ctor_default, matrix.rows, hm]
    · simp [matrix.ctor_default, matrix.cols, hn]
    · intro i hi; omega
  · have hn : 0 < n := by
      rcases Nat.eq_zero_or_pos n with h | h
      · have h1 := (hr.2 (Or.inr (hrc.trans h))).1
        have h2 := (hl.2 (Or.inr (hlc.trans (hrr.symm.trans h1)))).1
        omega
      · exact h
    obtain ⟨result, hres, hr', hc', buf, hd, hlen, hdone, _⟩ :=
      operator_mul_nonempty left right m k n L R hm hn hfit hlr hlc hrc hL hR
    refine ⟨result, hres, hr', hc', ?_⟩
    intro i hi j hj
    have := hdone i (by omega) j hj
    simpa [matrix.operator_call, matrix.cols, hc', hd, load_some] using this

/-- Witness for C1, amended: the product of `[[1,2],[3,4]]` and `[[5,6],[7,8]]`. -/
theorem operator_mul_entries_witness :
    2 * 2 < size_t_range ∧
    ∃ result, matrix.operator_mul (⟨some [1, 2, 3, 4], 2, 2⟩ : matrix Int)
        ⟨some [5, 6, 7, 8], 2, 2⟩ = some result ∧
      result.rows = 2 ∧ result.cols = 2 ∧
      ∀ i < 2, ∀ j < 2, result.operator_call i j =
        some ((List.range 2).foldl
          (fun acc t => acc + (fun i t => ([1, 2, 3, 4] : List Int).getD (i * 2 + t) 0) i t
            * (fun t j => ([5, 6, 7, 8] : List Int).getD (t * 2 + j) 0) t j) 0) :=
  ⟨by decide,
    operator_mul_entries (⟨some [1, 2, 3, 4], 2, 2⟩ : matrix Int) ⟨some [5, 6, 7, 8], 2, 2⟩
      2 2 2
      (fun i t => ([1, 2, 3, 4] : List Int).getD (i * 2 + t) 0)
      (fun t j => ([5, 6, 7, 8] : List Int).getD (t * 2 + j) 0)
      (by decide) (by decide) rfl rfl rfl rfl (by decide) (by decide) (by decide)⟩

/-! ## C2: the product example -/

/-- C2.  The product of the matrices built from the literals `[[1,2],[3,4]]`
and `[[5,6],[7,8]]` compares equal, through `operator==`, to the matrix built
from the literal `[[19,22],[43,50]]`, whatever the allocated storage held. -/
theorem operator_mul_example (u1 u2 u3 : Nat → Int) :
    ∃ a b c p : matrix Int,
      matrix.ctor_literal u1 ![![1, 2], ![3, 4]] = some a ∧
      matrix.ctor_literal u2 ![![5, 6], ![7, 8]] = some b ∧
      matrix.ctor_literal u3 ![![19, 22], ![43, 50]] = some c ∧
      matrix.operator_mul a b = some p ∧
      matrix.operator_eq p c = some true :=
  ⟨_, _, _, _, rfl, rfl, rfl, rfl, rfl⟩

/-! ## C3: the move constructor -/

/-- C3.  Move-constructing from the `1 × 1` matrix `[[5]]` gives the
constructed object the source's shape and buffer, and leaves the source with a
null buffer but with `rows() == 1`, `cols() == 1`, `size() == 1` and
`empty() == false`: the source is not in the canonical empty state. -/
theorem ctor_move_source_keeps_shape :
    ∃ a : matrix Int, matrix.ctor_literal (fun _ => 0) ![![5]] = some a ∧
      (matrix.ctor_move a).1 = a ∧
      (matrix.ctor_move a).2._data = none ∧
      (matrix.ctor_move a).2.rows = 1 ∧ (matrix.ctor_move a).2.cols = 1 ∧
      (matrix.ctor_move a).2.size = 1 ∧ (matrix.ctor_move a).2.empty = false ∧
      ¬ (matrix.ctor_move a).2.canonical_empty :=
  ⟨_, rfl, rfl, rfl, rfl, rfl, rfl, rfl, by decide⟩

/-! ## C4: move assignment -/

/-- C4.  Move-assigning the object at `a` to a distinct object at `c` leaves
`c` with the original rows, columns, buffer and elements of `a`, leaves `a` in
the canonical empty state and touches no third object; move-assigning an
object to itself leaves the store unchanged. -/
theorem move_assign_transfers {A : Type} [DecidableEq A] (σ : Store A T) (c a : A)
    (h : a ≠ c) :
    ((Store.move_assign σ c a c).rows = (σ a).rows ∧
      (Store.move_assign σ c a c).cols = (σ a).cols ∧
      (Store.move_assign σ c a c)._data = (σ a)._data ∧
      (∀ i j, (Store.move_assign σ c a c).operator_call i j = (σ a).operator_call i j) ∧
      (Store.move_assign σ c a a).canonical_empty ∧
      ∀ b, b ≠ c → b ≠ a → Store.move_assign σ c a b = σ b) ∧
    Store.move_assign σ c c = σ := by
  refine ⟨?_, by simp [Store.move_assign]⟩
  have hca : c ≠ a := fun e => h e.symm
  have hc : Store.move_assign σ c a c = σ a := by
    simp [Store.move_assign, Store.set_data, Store.set_rows, Store.set_cols, h, hca,
      Function.update]
  have ha : Store.move_assign σ c a a = ⟨none, 0, 0⟩ := by
    simp [Store.move_assign, Store.set_data, Store.set_rows, Store.set_cols, h, hca,
      Function.update]
  refine ⟨by rw [hc], by rw [hc], by rw [hc], fun i j => by rw [hc], ?_, ?_⟩
  · rw [ha]; exact ⟨rfl, rfl, rfl⟩
  · intro b hbc hba
    simp [Store.move_assign, Store.set_data, Store.set_rows, Store.set_cols, h, hbc, hba,
      Function.update]

/-- Witness for C4: in `demo_store` the matrix `[[1,2]]` at address `1` is
move-assigned to the matrix `[[7],[8],[9]]` at address `0`. -/
theorem move_assign_transfers_witness :
    (1 : Nat) ≠ 0 ∧
    (((Store.move_assign demo_store 0 1 0).rows = (demo_store 1).rows ∧
      (Store.move_assign demo_store 0 1 0).cols = (demo_store 1).cols ∧
      (Store.move_assign demo_store 0 1 0)._data = (demo_store 1)._data ∧
      (∀ i j, (Store.move_assign demo_store 0 1 0).operator_call i j
          = (demo_store 1).operator_call i j) ∧
      (Store.move_assign demo_store 0 1 1).canonical_empty ∧
      ∀ b, b ≠ 0 → b ≠ 1 → Store.move_assign demo_store 0 1 b = demo_store b) ∧
    Store.move_assign demo_store 0 0 = demo_store) :=
  ⟨by decide, move_assign_transfers demo_store 0 1 (by decide)⟩

/-! ## C5: copy construction and copy assignment -/

/-- C5.  For a matrix `a` satisfying the invariant of the data model, the copy
constructor runs to completion and yields `b` with the rows and columns of `a`
and `b == a`.  Copy-assigning a valid object at `other` to a distinct object at
`self`, whatever `self` held before, runs to completion, leaves `self` with the
rows and columns of `other` and equal to it, and leaves `other` and every
third object as they were; copy-assigning an object to itself leaves the store
unchanged. -/
theorem copy_preserves_value [DecidableEq T] {A : Type} [DecidableEq A] (uninit : Nat → T)
    (a : matrix T) (σ : Store A T) (self other : A)
    (ha : a.valid) (hne : other ≠ self) (hv : (σ other).valid) :
    (∃ b, matrix.ctor_copy uninit a = some b ∧ b.rows = a.rows ∧ b.cols = a.cols ∧
      matrix.operator_eq b a = some true ∧
      ∀ i j, i < a.rows → j < a.cols → b.operator_call i j = a.operator_call i j) ∧
    (∃ σ', Store.copy_assign uninit σ self other = some σ' ∧
      (σ' self).rows = (σ other).rows ∧ (σ' self).cols = (σ other).cols ∧
      matrix.operator_eq (σ' self) (σ' other) = some true ∧
      (∀ i j, i < (σ other).rows → j < (σ other).cols →
        (σ' self).operator_call i j = (σ other).operator_call i j) ∧
      ∀ x, x ≠ self → σ' x = σ x) ∧
    Store.copy_assign uninit σ self self = some σ := by
  have hcall : ∀ (a b : matrix T), b.cols = a.cols →
      (b._data = a._data ∨ (a.size = 0 ∧ b._data = none)) →
      ∀ i j, i < a.rows → j < a.cols → b.operator_call i j = a.operator_call i j := by
    intro a b hc hd i j hi hj
    rcases hd with hd | ⟨hs, _⟩
    · simp only [matrix.operator_call, hd, hc]
    · have : i * a.cols + j < a.rows * a.cols := row_major_lt hi hj
      have hs' : a.rows * a.cols = 0 := hs
      omega
  refine ⟨?_, ?_, by simp [Store.copy_assign]⟩
  · obtain ⟨b, hb, hr, hc, hbv, hd⟩ := ctor_copy_of_valid uninit a ha
    exact ⟨b, hb, hr, hc, operator_eq_self_of_data a b ha hbv hr hc hd, hcall a b hc hd⟩
  · obtain ⟨tmp, htmp, hr, hc, hbv, hd⟩ := ctor_copy_of_valid uninit (σ other) hv
    refine ⟨Function.update σ self tmp, copy_assign_apply uninit σ self other tmp hne htmp,
      ?_, ?_, ?_, ?_, ?_⟩
    · simpa using hr
    · simpa using hc
    · simp only [Function.update_same, Function.update_noteq hne]
      exact operator_eq_self_of_data (σ other) tmp hv hbv hr hc hd
    · simp only [Function.update_same]
      exact hcall (σ other) tmp hc hd
    · intro x hx
      exact Function.update_noteq hx _ _

/-- Witness for C5: `[[1,2]]` is copied, and in `demo_store` the object at
address `1` is copy-assigned to the object at address `0`. -/
theorem copy_preserves_value_witness :
    (⟨some [1, 2], 1, 2⟩ : matrix Int).valid ∧ (1 : Nat) ≠ 0 ∧ (demo_store 1).valid ∧
    ((∃ b, matrix.ctor_copy (fun _ => 0) (⟨some [1, 2], 1, 2⟩ : matrix Int) = some b ∧
      b.rows = (⟨some [1, 2], 1, 2⟩ : matrix Int).rows ∧
      b.cols = (⟨some [1, 2], 1, 2⟩ : matrix Int).cols ∧
      matrix.operator_eq b ⟨some [1, 2], 1, 2⟩ = some true ∧
      ∀ i j, i < (⟨some [1, 2], 1, 2⟩ : matrix Int).rows →
        j < (⟨some [1, 2], 1, 2⟩ : matrix Int).cols →
        b.operator_call i j = (⟨some [1, 2], 1, 2⟩ : matrix Int).operator_call i j) ∧
    (∃ σ', Store.copy_assign (fun _ => 0) demo_store 0 1 = some σ' ∧
      (σ' 0).rows = (demo_store 1).rows ∧ (σ' 0).cols = (demo_store 1).cols ∧
      matrix.operator_eq (σ' 0) (σ' 1) = some true ∧
      (∀ i j, i < (demo_store 1).rows → j < (demo_store 1).cols →
        (σ' 0).operator_call i j = (demo_store 1).operator_call i j) ∧
      ∀ x, x ≠ 0 → σ' x = demo_store x) ∧
    Store.copy_assign (fun _ => 0) demo_store 0 0 = some demo_store) :=
  ⟨by decide, by decide, by decide,
    copy_preserves_value (fun _ => 0) (⟨some [1, 2], 1, 2⟩ : matrix Int) demo_store 0 1
      (by decide) (by decide) (by decide)⟩

/-! ## C7: the sized constructor -/

/-- C7, as stated, fails: `matrix(2^63, 2)` allocates `2^63 * 2 mod 2^64 = 0`
elements, so it has `2^63` rows and `2` columns but an empty buffer, and its
element `(0, 0)` cannot be read. -/
theorem ctor_sized_wraps :
    (matrix.ctor_sized (2 ^ 63) 2 : matrix Int).rows = 2 ^ 63 ∧
    (matrix.ctor_sized (2 ^ 63) 2 : matrix Int).cols = 2 ∧
    (matrix.ctor_sized (2 ^ 63) 2 : matrix Int)._data = some [] ∧
    (matrix.ctor_sized (2 ^ 63) 2 : matrix Int).capacity = 0 ∧
    (matrix.ctor_sized (2 ^ 63) 2 : matrix Int).operator_call 0 0 = none := by
  have hne : (2 : Nat) ^ 63 ≠ 0 ∧ 2 ≠ 0 := ⟨by norm_num, by norm_num⟩
  have hw : (2 ^ 63 * 2) % size_t_range = 0 := by norm_num [size_t_range]
  have hd : (matrix.ctor_sized (2 ^ 63) 2 : matrix Int) = ⟨some [], 2 ^ 63, 2⟩ := by
    unfold matrix.ctor_sized
    rw [if_pos hne]
    show (⟨some (List.replicate ((2 ^ 63 * 2) % size_t_range) (0 : Int)), 2 ^ 63, 2⟩ : matrix Int)
      = ⟨some [], 2 ^ 63, 2⟩
    rw [hw]
    rfl
  rw [hd]
  refine ⟨rfl, rfl, rfl, rfl, ?_⟩
  simp [matrix.operator_call, matrix.rows, matrix.cols, load]

/-- C7, amended.  For all sizes `r` and `c` with `r * c` below `2 ^ 64`: when
`r` or `c` is zero, `matrix(r, c)` is the canonical empty matrix; otherwise it
has `r` rows, `c` columns, size `r * c`, a buffer of `r * c` elements, and
every element `(i, j)` with `i < r` and `j < c` is zero. -/
theorem ctor_sized_spec [Zero T] (r c : Nat) (hfit : r * c < size_t_range) :
    (r = 0 ∨ c = 0 → (matrix.ctor_sized r c : matrix T).canonical_empty) ∧
    (r ≠ 0 ∧ c ≠ 0 →
      (matrix.ctor_sized r c : matrix T).rows = r ∧
      (matrix.ctor_sized r c : matrix T).cols = c ∧
      (matrix.ctor_sized r c : matrix T).size = r * c ∧
      (matrix.ctor_sized r c : matrix T).capacity = r * c ∧
      ∀ i < r, ∀ j < c, (matrix.ctor_sized r c : matrix T).operator_call i j = some 0) := by
  constructor
  · intro h
    have hn : ¬ (r ≠ 0 ∧ c ≠ 0) := by
      intro ⟨h1, h2⟩
      rcases h with h | h
      · exact h1 h
      · exact h2 h
    rw [matrix.ctor_sized, if_neg hn]
    exact ⟨rfl, rfl, rfl⟩
  · intro h
    rw [matrix.ctor_sized, if_pos h, Nat.mod_eq_of_lt hfit]
    refine ⟨rfl, rfl, rfl, by simp [matrix.capacity], ?_⟩
    intro i hi j hj
    have hlt : i * c + j < r * c := row_major_lt hi hj
    simp [matrix.operator_call, matrix.cols, load_some, List.getElem?_replicate, hlt]

/-- Witness for C7, amended: `matrix(0, 3)` is empty and `matrix(2, 3)` holds
six zeros. -/
theorem ctor_sized_spec_witness :
    (0 * 3 < size_t_range ∧ (matrix.ctor_sized 0 3 : matrix Int).canonical_empty) ∧
    (2 * 3 < size_t_range ∧
      (matrix.ctor_sized 2 3 : matrix Int).rows = 2 ∧
      (matrix.ctor_sized 2 3 : matrix Int).cols = 3 ∧
      (matrix.ctor_sized 2 3 : matrix Int).size = 2 * 3 ∧
      (matrix.ctor_sized 2 3 : matrix Int).capacity = 2 * 3 ∧
      ∀ i < 2, ∀ j < 3, (matrix.ctor_sized 2 3 : matrix Int).operator_call i j = some 0) :=
  ⟨⟨by decide, (ctor_sized_spec 0 3 (by decide)).1 (Or.inl rfl)⟩,
    ⟨by decide, (ctor_sized_spec 2 3 (by decide)).2 ⟨by decide, by decide⟩⟩⟩

/-! ## C8: construction from a literal -/

theorem literal_entry_fin {Rows Cols : Nat} (init : Fin Rows → Fin Cols → T)
    (i : Fin Rows) (j : Fin Cols) : literal_entry init i j = some (init i j) := by
  have hlen : (j : Nat) < (List.ofFn (init i)).length := by
    rw [List.length_ofFn]; exact j.isLt
  simp only [literal_entry, i.isLt, dite_true, Fin.eta]
  rw [List.getElem?_eq_getElem hlen, List.getElem_ofFn]

theorem literal_progress_step {Rows Cols : Nat}
    (init : Fin Rows → Fin Cols → T) (i : Nat) (self : matrix T) (hi : i < Rows)
    (h : literal_progress init i self) :
    ∃ self', ((self.row_begin i).bind fun dst =>
        (std_copy_n (some (List.ofFn (init ⟨i, hi⟩))) 0 Cols self._data dst).map fun d =>
          { self with _data := d }) = some self' ∧ literal_progress init (i + 1) self' := by
  obtain ⟨hr, hc, buf, hd, hlen, hdone⟩ := h
  have hrb : self.row_begin i = some (i * Cols) := by
    simp [matrix.row_begin, matrix.rows, matrix.cols, hr, hc, hi]
  have hfit : i * Cols + Cols ≤ buf.length := by
    rw [hlen]
    have h1 : (i + 1) * Cols ≤ Rows * Cols := Nat.mul_le_mul_right Cols hi
    have h2 : (i + 1) * Cols = i * Cols + Cols := by ring
    omega
  obtain ⟨out, hout, holen, hget⟩ := copy_loop_spec (List.ofFn (init ⟨i, hi⟩)) Cols 0 buf
    (i * Cols) (by rw [List.length_ofFn]; omega) hfit
  refine ⟨{ self with _data := some out }, ?_, hr, hc, out, rfl, by rw [holen, hlen], ?_⟩
  · simp only [hrb, Option.some_bind, std_copy_n, hd, hout, Option.map_some']
  · intro i' hi' j' hj'
    rw [hget]
    rcases Nat.lt_succ_iff_lt_or_eq.mp hi' with hlt | heq
    · have hx : i' * Cols + j' < i * Cols + 0 := row_major_lt_of_row_lt hlt hj'
      have hn : ¬ (i * Cols ≤ i' * Cols + j' ∧ i' * Cols + j' < i * Cols + Cols) := by omega
      rw [if_neg hn]
      exact hdone i' hlt j' hj'
    · subst heq
      have hp : i' * Cols ≤ i' * Cols + j' ∧ i' * Cols + j' < i' * Cols + Cols := by omega
      rw [if_pos hp]
      simp only [literal_entry, hi, dite_true]
      congr 1; omega

theorem ctor_literal_progress (uninit : Nat → T) {Rows Cols : Nat}
    (init : Fin Rows → Fin Cols → T) :
    ∃ M, matrix.ctor_literal uninit init = some M ∧ literal_progress init Rows M := by
  have hinit : literal_progress init 0
      (⟨some (new_array uninit (Rows * Cols)), Rows, Cols⟩ : matrix T) :=
    ⟨rfl, rfl, _, rfl, new_array_length uninit _, fun i' hi' => absurd hi' (Nat.not_lt_zero _)⟩
  obtain ⟨M, hM, hprog⟩ := for_loop_spec
    (fun i (self : matrix T) =>
      if h : i < Rows then
        (self.row_begin i).bind fun dst =>
        (std_copy_n (some (List.ofFn (init ⟨i, h⟩))) 0 Cols self._data dst).map fun d =>
          { self with _data := d }
      else none)
    (fun i self => literal_progress init i self) Rows 0 _ hinit
    (by
      intro i self _ hi hI
      have hi : i < Rows := by omega
      simp only [hi, dite_true]
      exact literal_progress_step init i self hi hI)
  exact ⟨M, hM, by simpa using hprog⟩

/-- C8.  The matrix `M` constructed from a rectangular literal `init` of `Rows`
rows and `Cols` columns, whatever the allocated storage held, has
`rows() == Rows`, `cols() == Cols` and `M(i, j) == init[i][j]` for every
`i < Rows` and `j < Cols`; this covers every literal with at least one row and
one column. -/
theorem ctor_literal_roundtrip (uninit : Nat → T) {Rows Cols : Nat}
    (init : Fin Rows → Fin Cols → T) :
    ∃ M, matrix.ctor_literal uninit init = some M ∧ M.rows = Rows ∧ M.cols = Cols ∧
      ∀ (i : Fin Rows) (j : Fin Cols), M.operator_call i j = some (init i j) := by
  obtain ⟨M, hM, hr, hc, buf, hd, hlen, hdone⟩ := ctor_literal_progress uninit init
  refine ⟨M, hM, hr, hc, ?_⟩
  intro i j
  have := hdone i i.isLt j j.isLt
  rw [literal_entry_fin] at this
  simpa [matrix.operator_call, matrix.cols, hc, hd, load_some] using this

/-! ## C9: equality -/

theorem linear_iff_cells (a b : matrix T) (hc : a.cols = b.cols) :
    (∀ p < a.size, load a._data p = load b._data p) ↔
      ∀ i < a.rows, ∀ j < a.cols, a.operator_call i j = b.operator_call i j := by
  constructor
  · intro h i hi j hj
    have hlt : i * a.cols + j < a.size := row_major_lt hi hj
    have := h _ hlt
    simpa [matrix.operator_call, ← hc] using this
  · intro h p hp
    have hp' : p < a.cols * a.rows := by
      have : a.size = a.cols * a.rows := Nat.mul_comm _ _
      omega
    have hcpos : 0 < a.cols := by
      rcases Nat.eq_zero_or_pos a.cols with h0 | h0
      · rw [h0, Nat.zero_mul] at hp'; omega
      · exact h0
    have := h (p / a.cols) (Nat.div_lt_of_lt_mul hp') (p % a.cols) (Nat.mod_lt _ hcpos)
    have hpos : p / a.cols * a.cols + p % a.cols = p := by
      rw [Nat.mul_comm]; exact Nat.div_add_mod p a.cols
    simpa [matrix.operator_call, ← hc, hpos] using this

/-- C9.  For matrices `a` and `b` satisfying the invariant of the data model,
`a == b` runs to completion and is true exactly when the rows agree, the
columns agree and `a(i, j) == b(i, j)` for every `i < rows` and `j < cols`;
`a != b` is its negation; and the `2 × 3` zero matrix compares unequal to the
`3 × 2` zero matrix. -/
theorem operator_eq_iff [DecidableEq T] [Zero T] (a b : matrix T)
    (ha : a.valid) (hb : b.valid) :
    (∃ r, matrix.operator_eq a b = some r ∧ matrix.operator_ne a b = some (!r) ∧
      (r = true ↔ a.rows = b.rows ∧ a.cols = b.cols ∧
        ∀ i < a.rows, ∀ j < a.cols, a.operator_call i j = b.operator_call i j)) ∧
    matrix.operator_eq (matrix.ctor_sized 2 3 : matrix T) (matrix.ctor_sized 3 2) = some false ∧
    matrix.operator_ne (matrix.ctor_sized 2 3 : matrix T) (matrix.ctor_sized 3 2) = some true := by
  refine ⟨?_, by simp [matrix.operator_eq, matrix.ctor_sized, matrix.rows],
    by simp [matrix.operator_ne, matrix.operator_eq, matrix.ctor_sized, matrix.rows]⟩
  by_cases hdim : a.rows ≠ b.rows ∨ a.cols ≠ b.cols
  · refine ⟨false, by simp [matrix.operator_eq, hdim],
      by simp [matrix.operator_ne, matrix.operator_eq, hdim], ?_⟩
    constructor
    · intro h; exact absurd h (by decide)
    · intro ⟨h1, h2, _⟩
      rcases hdim with h | h
      · exact absurd h1 h
      · exact absurd h2 h
  · have hr : a.rows = b.rows := by
      by_contra h; exact hdim (Or.inl h)
    have hc : a.cols = b.cols := by
      by_contra h; exact hdim (Or.inr h)
    have heq := operator_eq_linear a b ha hb hr hc
    refine ⟨_, heq, by simp [matrix.operator_ne, heq], ?_⟩
    rw [decide_eq_true_iff, linear_iff_cells a b hc]
    constructor
    · intro h; exact ⟨hr, hc, h⟩
    · intro h; exact h.2.2

/-- Witness for C9: `[[1,2]]` against the `2 × 1` matrix `[[1],[2]]`. -/
theorem operator_eq_iff_witness :
    (⟨some [1, 2], 1, 2⟩ : matrix Int).valid ∧ (⟨some [1, 2], 2, 1⟩ : matrix Int).valid ∧
    ((∃ r, matrix.operator_eq (⟨some [1, 2], 1, 2⟩ : matrix Int) ⟨some [1, 2], 2, 1⟩ = some r ∧
      matrix.operator_ne (⟨some [1, 2], 1, 2⟩ : matrix Int) ⟨some [1, 2], 2, 1⟩ = some (!r) ∧
      (r = true ↔ (⟨some [1, 2], 1, 2⟩ : matrix Int).rows
          = (⟨some [1, 2], 2, 1⟩ : matrix Int).rows ∧
        (⟨some [1, 2], 1, 2⟩ : matrix Int).cols = (⟨some [1, 2], 2, 1⟩ : matrix Int).cols ∧
        ∀ i < (⟨some [1, 2], 1, 2⟩ : matrix Int).rows,
          ∀ j < (⟨some [1, 2], 1, 2⟩ : matrix Int).cols,
            (⟨some [1, 2], 1, 2⟩ : matrix Int).operator_call i j
              = (⟨some [1, 2], 2, 1⟩ : matrix Int).operator_call i j)) ∧
    matrix.operator_eq (matrix.ctor_sized 2 3 : matrix Int) (matrix.ctor_sized 3 2) = some false ∧
    matrix.operator_ne (matrix.ctor_sized 2 3 : matrix Int) (matrix.ctor_sized 3 2)
      = some true) :=
  ⟨by decide, by decide,
    operator_eq_iff (⟨some [1, 2], 1, 2⟩ : matrix Int) ⟨some [1, 2], 2, 1⟩
      (by decide) (by decide)⟩

/-! ## C10: the column range -/

theorem iterate_incr (b : basic_col_iterator) (i : Nat) :
    basic_col_iterator.incr^[i] b
      = ⟨b._data + (i : Int) * (b._cols : Int), b._col_index, b._cols⟩ := by
  induction i with
  | zero => simp
  | succ i ih =>
    rw [Function.iterate_succ_apply', ih]
    simp only [basic_col_iterator.incr, basic_col_iterator.mk.injEq, and_true]
    push_cast; ring

/-- C10.  For a matrix `M` of shape `r × c` satisfying the invariant of the
data model and a column `j < c`: `col_begin(j)` and `col_end(j)` pass their
assertions, `col_end(j) - col_begin(j) == r`, `r` increments of `col_begin(j)`
give `col_end(j)` (also under the iterator's `operator==`), and for every
`i < r` the element reached after `i` increments, and `col_begin(j)[i]`, is the
element `M(i, j)`, which is readable. -/
theorem col_range_spec (M : matrix T) (r c j : Nat) (hM : M.valid)
    (hr : M.rows = r) (hc : M.cols = c) (hj : j < c) :
    ∃ b e, M.col_begin j = some b ∧ M.col_end j = some e ∧
      e.diff b = some (r : Int) ∧
      basic_col_iterator.incr^[r] b = e ∧
      (basic_col_iterator.incr^[r] b).operator_eq e = some true ∧
      ∀ i < r, (∃ v, M.operator_call i j = some v) ∧
        (basic_col_iterator.incr^[i] b).deref M._data = M.operator_call i j ∧
        b.index M._data (i : Int) = M.operator_call i j := by
  have hjc : j < M.cols := by omega
  have hcpos : (M.cols : Int) ≠ 0 := by
    have : 0 < M.cols := by omega
    exact_mod_cast this.ne'
  have hsize : M.size = r * M.cols := by rw [← hr]; rfl
  have hend : (⟨(M.begin : Int), j, M.cols⟩ : basic_col_iterator)._data
      + (r : Int) * ((⟨(M.begin : Int), j, M.cols⟩ : basic_col_iterator)._cols : Int)
      = (M.end_ : Int) := by
    simp only [matrix.begin, matrix.end_, hsize]; push_cast; ring
  have hiter : basic_col_iterator.incr^[r] (⟨(M.begin : Int), j, M.cols⟩ : basic_col_iterator)
      = ⟨(M.end_ : Int), j, M.cols⟩ := by
    rw [iterate_incr, hend]
  refine ⟨⟨(M.begin : Int), j, M.cols⟩, ⟨(M.end_ : Int), j, M.cols⟩, ?_, ?_, ?_, hiter, ?_, ?_⟩
  · simp [matrix.col_begin, hjc]
  · simp [matrix.col_end, hjc]
  · have hne : ¬ (M.cols = 0) := by omega
    simp only [basic_col_iterator.diff, if_neg hne, matrix.begin, matrix.end_, hsize]
    congr 1
    push_cast
    simp only [Int.zero_add, Int.sub_zero]
    exact Int.mul_tdiv_cancel _ hcpos
  · rw [hiter]
    simp [basic_col_iterator.operator_eq, basic_col_iterator.check_col_indices]
  · intro i hi
    have hlt : i * M.cols + j < M.size := by
      rw [hsize]; exact row_major_lt hi hjc
    have hsz : M.size ≠ 0 := by omega
    obtain ⟨buf, hd, hlen⟩ := valid_data hM hsz
    have hpos1 : (M.begin : Int) + (i : Int) * (M.cols : Int) + (j : Int)
        = ((i * M.cols + j : Nat) : Int) := by
      simp only [matrix.begin]; push_cast; ring
    have hpos2 : (M.begin : Int) + (M.cols : Int) * (i : Int) + (j : Int)
        = ((i * M.cols + j : Nat) : Int) := by
      simp only [matrix.begin]; push_cast; ring
    refine ⟨⟨buf[i * M.cols + j], ?_⟩, ?_, ?_⟩
    · simp only [matrix.operator_call, hd, load_some]
      exact List.getElem?_eq_getElem (by omega)
    · rw [iterate_incr]
      simp only [basic_col_iterator.deref, hpos1, load_at_natCast, matrix.operator_call]
    · simp only [basic_col_iterator.index, hpos2, load_at_natCast, matrix.operator_call]

/-- Witness for C10: column `1` of the `3 × 2` matrix `[[1,2],[3,4],[5,6]]`. -/
theorem col_range_spec_witness :
    (⟨some [1, 2, 3, 4, 5, 6], 3, 2⟩ : matrix Int).valid ∧ (1 : Nat) < 2 ∧
    ∃ b e, (⟨some [1, 2, 3, 4, 5, 6], 3, 2⟩ : matrix Int).col_begin 1 = some b ∧
      (⟨some [1, 2, 3, 4, 5, 6], 3, 2⟩ : matrix Int).col_end 1 = some e ∧
      e.diff b = some ((3 : Nat) : Int) ∧
      basic_col_iterator.incr^[3] b = e ∧
      (basic_col_iterator.incr^[3] b).operator_eq e = some true ∧
      ∀ i < 3, (∃ v, (⟨some [1, 2, 3, 4, 5, 6], 3, 2⟩ : matrix Int).operator_call i 1 = some v) ∧
        (basic_col_iterator.incr^[i] b).deref
            (⟨some [1, 2, 3, 4, 5, 6], 3, 2⟩ : matrix Int)._data
          = (⟨some [1, 2, 3, 4, 5, 6], 3, 2⟩ : matrix Int).operator_call i 1 ∧
        b.index (⟨some [1, 2, 3, 4, 5, 6], 3, 2⟩ : matrix Int)._data (i : Int)
          = (⟨some [1, 2, 3, 4, 5, 6], 3, 2⟩ : matrix Int).operator_call i 1 :=
  ⟨by decide, by decide,
    col_range_spec (⟨some [1, 2, 3, 4, 5, 6], 3, 2⟩ : matrix Int) 3 2 1 (by decide) rfl rfl
      (by decide)⟩

/-! ## C6: the shape invariant -/

theorem for_loop_preserves {σ : Type} (body : Nat → σ → Option σ) (P : σ → Prop)
    (hbody : ∀ i s s', P s → body i s = some s' → P s') :
    ∀ (count i : Nat) (s s' : σ), P s → for_loop body count i s = some s' → P s' := by
  intro count
  induction count with
  | zero =>
    intro i s s' hP h
    simp only [for_loop, Option.some.injEq] at h
    subst h; exact hP
  | succ c ih =>
    intro i s s' hP h
    simp only [for_loop] at h
    cases hb : body i s with
    | none => rw [hb] at h; simp at h
    | some s1 =>
      rw [hb] at h
      exact ih (i + 1) s1 s' (hbody i s s1 hP hb) h

theorem shape_invariant_of_dims {a b : matrix T} (hr : a._rows = b._rows)
    (hc : a._cols = b._cols) (h : b.shape_invariant) : a.shape_invariant := by
  unfold matrix.shape_invariant matrix.size matrix.rows matrix.cols at *
  rw [hr, hc]; exact h

theorem ctor_sized_shape [Zero T] (r c : Nat) :
    (matrix.ctor_sized r c : matrix T).shape_invariant := by
  by_cases h : r ≠ 0 ∧ c ≠ 0
  · rw [matrix.ctor_sized, if_pos h]
    refine ⟨rfl, fun h' => ?_⟩
    rcases h' with h' | h'
    · exact absurd h' h.1
    · exact absurd h' h.2
  · rw [matrix.ctor_sized, if_neg h]
    exact ⟨rfl, fun _ => ⟨rfl, rfl⟩⟩

theorem ctor_copy_dims (uninit : Nat → T) (a b : matrix T)
    (h : matrix.ctor_copy uninit a = some b) : b._rows = a._rows ∧ b._cols = a._cols := by
  unfold matrix.ctor_copy at h
  by_cases he : a.empty = true
  · simp only [he, if_true, Option.some.injEq] at h
    subst h; exact ⟨rfl, rfl⟩
  · simp only [he, Bool.false_eq_true, if_false, Option.map_eq_some'] at h
    obtain ⟨d, _, hd⟩ := h
    subst hd; exact ⟨rfl, rfl⟩

theorem assign_call_dims (a b : matrix T) (i j : Nat) (v : T)
    (h : a.assign_call i j v = some b) : b._rows = a._rows ∧ b._cols = a._cols := by
  simp only [matrix.assign_call, Option.map_eq_some'] at h
  obtain ⟨d, _, hd⟩ := h
  subst hd; exact ⟨rfl, rfl⟩

theorem operator_mul_dims [Zero T] [Add T] [Mul T] (left right res : matrix T)
    (h : matrix.operator_mul left right = some res) :
    res._rows = (matrix.ctor_sized left.rows right.cols : matrix T)._rows ∧
      res._cols = (matrix.ctor_sized left.rows right.cols : matrix T)._cols := by
  unfold matrix.operator_mul at h
  refine for_loop_preserves _
    (fun r : matrix T =>
      r._rows = (matrix.ctor_sized left.rows right.cols : matrix T)._rows ∧
      r._cols = (matrix.ctor_sized left.rows right.cols : matrix T)._cols)
    ?_ left.rows 0 _ res ⟨rfl, rfl⟩ h
  intro i s s' hP hs
  refine for_loop_preserves _
    (fun r : matrix T =>
      r._rows = (matrix.ctor_sized left.rows right.cols : matrix T)._rows ∧
      r._cols = (matrix.ctor_sized left.rows right.cols : matrix T)._cols)
    ?_ right.cols 0 s s' hP hs
  intro j t t' hP' ht
  simp only [Option.bind_eq_some] at ht
  obtain ⟨_, _, _, _, _, _, v, _, hv⟩ := ht
  obtain ⟨h1, h2⟩ := assign_call_dims t t' i j v hv
  exact ⟨h1.trans hP'.1, h2.trans hP'.2⟩

theorem set_data_dims {A : Type} [DecidableEq A] (σ : Store A T) (a x : A)
    (d : Option (List T)) :
    (Store.set_data σ a d x)._rows = (σ x)._rows ∧
      (Store.set_data σ a d x)._cols = (σ x)._cols := by
  by_cases h : x = a
  · subst h; simp [Store.set_data]
  · simp [Store.set_data, Function.update_noteq h]

theorem add_assign_dims [Add T] {A : Type} [DecidableEq A] (σ σ' : Store A T) (self other : A)
    (h : Store.add_assign σ self other = some σ') :
    ∀ x, (σ' x)._rows = (σ x)._rows ∧ (σ' x)._cols = (σ x)._cols := by
  refine for_loop_preserves _
    (fun τ : Store A T => ∀ x, (τ x)._rows = (σ x)._rows ∧ (τ x)._cols = (σ x)._cols)
    ?_ _ 0 σ σ' (fun _ => ⟨rfl, rfl⟩) h
  intro i s s' hP hs
  simp only [Option.bind_eq_some, Option.map_eq_some'] at hs
  obtain ⟨_, _, _, _, buf, _, hbuf⟩ := hs
  subst hbuf
  intro x
  have := set_data_dims s self x (some buf)
  exact ⟨this.1.trans (hP x).1, this.2.trans (hP x).2⟩

theorem sub_assign_dims [Sub T] {A : Type} [DecidableEq A] (σ σ' : Store A T) (self other : A)
    (h : Store.sub_assign σ self other = some σ') :
    ∀ x, (σ' x)._rows = (σ x)._rows ∧ (σ' x)._cols = (σ x)._cols := by
  refine for_loop_preserves _
    (fun τ : Store A T => ∀ x, (τ x)._rows = (σ x)._rows ∧ (τ x)._cols = (σ x)._cols)
    ?_ _ 0 σ σ' (fun _ => ⟨rfl, rfl⟩) h
  intro i s s' hP hs
  simp only [Option.bind_eq_some, Option.map_eq_some'] at hs
  obtain ⟨_, _, _, _, buf, _, hbuf⟩ := hs
  subst hbuf
  intro x
  have := set_data_dims s self x (some buf)
  exact ⟨this.1.trans (hP x).1, this.2.trans (hP x).2⟩

theorem scale_assign_dims [Mul T] {A : Type} [DecidableEq A] (σ σ' : Store A T) (self : A)
    (factor : T) (h : Store.scale_assign σ self factor = some σ') :
    ∀ x, (σ' x)._rows = (σ x)._rows ∧ (σ' x)._cols = (σ x)._cols := by
  refine for_loop_preserves _
    (fun τ : Store A T => ∀ x, (τ x)._rows = (σ x)._rows ∧ (τ x)._cols = (σ x)._cols)
    ?_ _ 0 σ σ' (fun _ => ⟨rfl, rfl⟩) h
  intro i s s' hP hs
  simp only [Option.bind_eq_some, Option.map_eq_some'] at hs
  obtain ⟨_, _, buf, _, hbuf⟩ := hs
  subst hbuf
  intro x
  have := set_data_dims s self x (some buf)
  exact ⟨this.1.trans (hP x).1, this.2.trans (hP x).2⟩

theorem set_data_set_data {A : Type} [DecidableEq A] (σ : Store A T) (a : A)
    (d d' : Option (List T)) :
    Store.set_data (Store.set_data σ a d) a d' = Store.set_data σ a d' := by
  funext x
  by_cases h : x = a
  · subst h; simp [Store.set_data]
  · simp [Store.set_data, Function.update_noteq h]

theorem set_data_same {A : Type} [DecidableEq A] (σ : Store A T) (a : A)
    (d : Option (List T)) (h : (σ a)._data = d) : Store.set_data σ a d = σ := by
  funext x
  by_cases hx : x = a
  · subst hx; subst h; simp [Store.set_data]
  · simp [Store.set_data, Function.update_noteq hx]

theorem set_data_apply_self {A : Type} [DecidableEq A] (σ : Store A T) (a : A)
    (d : Option (List T)) : (Store.set_data σ a d a)._data = d := by
  simp [Store.set_data]

theorem set_data_apply_ne {A : Type} [DecidableEq A] (σ : Store A T) (a x : A)
    (d : Option (List T)) (h : x ≠ a) : Store.set_data σ a d x = σ x := by
  simp [Store.set_data, Function.update_noteq h]

theorem pointwise_loop_spec {A : Type} [DecidableEq A]
    (body : Nat → Store A T → Option (Store A T)) (σ0 : Store A T) (self : A)
    (g : Nat → T → T) (buf0 : List T) (n : Nat) (hn : n ≤ buf0.length)
    (hbody : ∀ i < n, ∀ buf : List T, buf.length = buf0.length →
      (∀ x, i ≤ x → buf[x]? = buf0[x]?) →
      ∃ v, buf0[i]? = some v ∧ body i (Store.set_data σ0 self (some buf))
        = some (Store.set_data σ0 self (some (buf.set i (g i v))))) :
    ∃ out, for_loop body n 0 (Store.set_data σ0 self (some buf0))
        = some (Store.set_data σ0 self (some out)) ∧
      out.length = buf0.length ∧
      ∀ x, out[x]? = if x < n then (buf0[x]?).map (g x) else buf0[x]? := by
  obtain ⟨τ, hτ, out, hout, hlen, hget⟩ := for_loop_spec body
    (fun i τ => ∃ buf : List T, τ = Store.set_data σ0 self (some buf) ∧
      buf.length = buf0.length ∧
      ∀ x, buf[x]? = if x < i then (buf0[x]?).map (g x) else buf0[x]?)
    n 0 (Store.set_data σ0 self (some buf0))
    ⟨buf0, rfl, rfl, fun x => by simp⟩
    (by
      intro i τ _ hi ⟨buf, hτ, hlen, hget⟩
      have hi : i < n := by omega
      obtain ⟨v, hv, hb⟩ := hbody i hi buf hlen (fun x hx => by
        rw [hget x, if_neg (by omega)])
      subst hτ
      refine ⟨_, hb, buf.set i (g i v), rfl, by simpa using hlen, fun x => ?_⟩
      by_cases hx : x = i
      · subst hx
        rw [List.getElem?_set_self (by omega), if_pos (by omega), hv]
        rfl
      · rw [List.getElem?_set_ne (fun e => hx e.symm), hget x]
        by_cases hlt : x < i
        · rw [if_pos hlt, if_pos (by omega)]
        · rw [if_neg hlt, if_neg (by omega)])
  subst hout
  exact ⟨out, hτ, hlen, by simpa using hget⟩

theorem add_assign_spec [Add T] {A : Type} [DecidableEq A] (σ : Store A T) (self other : A)
    (abuf bbuf : List T) (hd : (σ self)._data = some abuf)
    (hlen : (σ self).size ≤ abuf.length) (hb : (σ other)._data = some bbuf)
    (hble : (σ self).size ≤ bbuf.length) :
    ∃ out, Store.add_assign σ self other = some (Store.set_data σ self (some out)) ∧
      out.length = abuf.length ∧
      ∀ x, out[x]? = if x < (σ self).size
        then (abuf[x]?).bind fun a => (bbuf[x]?).map fun b => a + b
        else abuf[x]? := by
  have hσ : Store.set_data σ self (some abuf) = σ := set_data_same σ self _ hd
  by_cases hso : other = self
  · subst hso
    have hbb : bbuf = abuf := by
      rw [hd] at hb; exact (Option.some.inj hb).symm
    subst hbb
    obtain ⟨out, hout, holen, hget⟩ := pointwise_loop_spec
      (fun i (σ : Store A T) =>
        (load (σ other)._data i).bind fun a =>
        (load (σ other).data i).bind fun b =>
        (store (σ other)._data i (a + b)).map fun buf => Store.set_data σ other (some buf))
      σ other (fun _ v => v + v) bbuf (σ other).size hlen
      (by
        intro i hi buf hbl hsame
        have hib : i < buf.length := by omega
        have hi0 : i < bbuf.length := by omega
        refine ⟨bbuf[i], List.getElem?_eq_getElem hi0, ?_⟩
        have hbi : buf[i]? = some bbuf[i] := by
          rw [hsame i (Nat.le_refl i)]; exact List.getElem?_eq_getElem hi0
        simp only [matrix.data, set_data_apply_self, load_some, hbi, Option.some_bind,
          store_some _ _ _ hib, Option.map_some', set_data_set_data])
    refine ⟨out, ?_, holen, fun x => ?_⟩
    · rw [hσ] at hout
      exact hout
    · rw [hget x]
      by_cases hx : x < (σ other).size
      · have hx0 : x < bbuf.length := by omega
        simp [hx, List.getElem?_eq_getElem hx0]
      · simp [hx]
  · obtain ⟨out, hout, holen, hget⟩ := pointwise_loop_spec
      (fun i (σ : Store A T) =>
        (load (σ self)._data i).bind fun a =>
        (load (σ other).data i).bind fun b =>
        (store (σ self)._data i (a + b)).map fun buf => Store.set_data σ self (some buf))
      σ self (fun i v => match bbuf[i]? with
        | some b => v + b
        | none => v) abuf (σ self).size hlen
      (by
        intro i hi buf hbl hsame
        have hib : i < buf.length := by omega
        have hi0 : i < abuf.length := by omega
        have hi1 : i < bbuf.length := by omega
        refine ⟨abuf[i], List.getElem?_eq_getElem hi0, ?_⟩
        have hbi : buf[i]? = some abuf[i] := by
          rw [hsame i (Nat.le_refl i)]; exact List.getElem?_eq_getElem hi0
        simp only [matrix.data, set_data_apply_self, set_data_apply_ne _ _ _ _ hso, hb,
          load_some, hbi, List.getElem?_eq_getElem hi1, Option.some_bind,
          store_some _ _ _ hib, Option.map_some', set_data_set_data])
    refine ⟨out, ?_, holen, fun x => ?_⟩
    · rw [hσ] at hout
      exact hout
    · rw [hget x]
      by_cases hx : x < (σ self).size
      · have hx0 : x < abuf.length := by omega
        have hx1 : x < bbuf.length := by omega
        simp [hx, List.getElem?_eq_getElem hx0, List.getElem?_eq_getElem hx1]
      · simp [hx]

theorem sub_assign_spec [Sub T] {A : Type} [DecidableEq A] (σ : Store A T) (self other : A)
    (abuf bbuf : List T) (hd : (σ self)._data = some abuf)
    (hlen : (σ self).size ≤ abuf.length) (hb : (σ other)._data = some bbuf)
    (hble : (σ self).size ≤ bbuf.length) :
    ∃ out, Store.sub_assign σ self other = some (Store.set_data σ self (some out)) ∧
      out.length = abuf.length ∧
      ∀ x, out[x]? = if x < (σ self).size
        then (abuf[x]?).bind fun a => (bbuf[x]?).map fun b => a - b
        else abuf[x]? := by
  have hσ : Store.set_data σ self (some abuf) = σ := set_data_same σ self _ hd
  by_cases hso : other = self
  · subst hso
    have hbb : bbuf = abuf := by
      rw [hd] at hb; exact (Option.some.inj hb).symm
    subst hbb
    obtain ⟨out, hout, holen, hget⟩ := pointwise_loop_spec
      (fun i (σ : Store A T) =>
        (load (σ other)._data i).bind fun a =>
        (load (σ other).data i).bind fun b =>
        (store (σ other)._data i (a - b)).map fun buf => Store.set_data σ other (some buf))
      σ other (fun _ v => v - v) bbuf (σ other).size hlen
      (by
        intro i hi buf hbl hsame
        have hib : i < buf.length := by omega
        have hi0 : i < bbuf.length := by omega
        refine ⟨bbuf[i], List.getElem?_eq_getElem hi0, ?_⟩
        have hbi : buf[i]? = some bbuf[i] := by
          rw [hsame i (Nat.le_refl i)]; exact List.getElem?_eq_getElem hi0
        simp only [matrix.data, set_data_apply_self, load_some, hbi, Option.some_bind,
          store_some _ _ _ hib, Option.map_some', set_data_set_data])
    refine ⟨out, ?_, holen, fun x => ?_⟩
    · rw [hσ] at hout
      exact hout
    · rw [hget x]
      by_cases hx : x < (σ other).size
      · have hx0 : x < bbuf.length := by omega
        simp [hx, List.getElem?_eq_getElem hx0]
      · simp [hx]
  · obtain ⟨out, hout, holen, hget⟩ := pointwise_loop_spec
      (fun i (σ : Store A T) =>
        (load (σ self)._data i).bind fun a =>
        (load (σ other).data i).bind fun b =>
        (store (σ self)._data i (a - b)).map fun buf => Store.set_data σ self (some buf))
      σ self (fun i v => match bbuf[i]? with
        | some b => v - b
        | none => v) abuf (σ self).size hlen
      (by
        intro i hi buf hbl hsame
        have hib : i < buf.length := by omega
        have hi0 : i < abuf.length := by omega
        have hi1 : i < bbuf.length := by omega
        refine ⟨abuf[i], List.getElem?_eq_getElem hi0, ?_⟩
        have hbi : buf[i]? = some abuf[i] := by
          rw [hsame i (Nat.le_refl i)]; exact List.getElem?_eq_getElem hi0
        simp only [matrix.data, set_data_apply_self, set_data_apply_ne _ _ _ _ hso, hb,
          load_some, hbi, List.getElem?_eq_getElem hi1, Option.some_bind,
          store_some _ _ _ hib, Option.map_some', set_data_set_data])
    refine ⟨out, ?_, holen, fun x => ?_⟩
    · rw [hσ] at hout
      exact hout
    · rw [hget x]
      by_cases hx : x < (σ self).size
      · have hx0 : x < abuf.length := by omega
        have hx1 : x < bbuf.length := by omega
        simp [hx, List.getElem?_eq_getElem hx0, List.getElem?_eq_getElem hx1]
      · simp [hx]

theorem scale_assign_spec [Mul T] {A : Type} [DecidableEq A] (σ : Store A T) (self : A)
    (factor : T) (abuf : List T) (hd : (σ self)._data = some abuf)
    (hlen : (σ self).size ≤ abuf.length) :
    ∃ out, Store.scale_assign σ self factor = some (Store.set_data σ self (some out)) ∧
      out.length = abuf.length ∧
      ∀ x, out[x]? = if x < (σ self).size then (abuf[x]?).map fun a => a * factor
        else abuf[x]? := by
  have hσ : Store.set_data σ self (some abuf) = σ := set_data_same σ self _ hd
  obtain ⟨out, hout, holen, hget⟩ := pointwise_loop_spec
    (fun i (σ : Store A T) =>
      (load (σ self)._data i).bind fun a =>
      (store (σ self)._data i (a * factor)).map fun buf => Store.set_data σ self (some buf))
    σ self (fun _ v => v * factor) abuf (σ self).size hlen
    (by
      intro i hi buf hbl hsame
      have hib : i < buf.length := by omega
      have hi0 : i < abuf.length := by omega
      refine ⟨abuf[i], List.getElem?_eq_getElem hi0, ?_⟩
      have hbi : buf[i]? = some abuf[i] := by
        rw [hsame i (Nat.le_refl i)]; exact List.getElem?_eq_getElem hi0
      simp only [set_data_apply_self, load_some, hbi, Option.some_bind,
        store_some _ _ _ hib, Option.map_some', set_data_set_data])
  refine ⟨out, ?_, holen, hget⟩
  rw [hσ] at hout
  exact hout

theorem move_assign_apply {A : Type} [DecidableEq A] (σ : Store A T) (c a x : A) (h : a ≠ c) :
    Store.move_assign σ c a x
      = if x = c then σ a else if x = a then ⟨none, 0, 0⟩ else σ x := by
  have hca : c ≠ a := fun e => h e.symm
  by_cases hxc : x = c
  · subst hxc
    simp [Store.move_assign, Store.set_data, Store.set_rows, Store.set_cols, h, hca,
      Function.update]
  · by_cases hxa : x = a
    · subst hxa
      simp [Store.move_assign, Store.set_data, Store.set_rows, Store.set_cols, h, hca,
        Function.update]
    · simp [Store.move_assign, Store.set_data, Store.set_rows, Store.set_cols, h, hxc, hxa,
        Function.update]

theorem mul_assign_apply [Zero T] [Add T] [Mul T] {A : Type} [DecidableEq A] (σ : Store A T)
    (self other : A) (tmp : matrix T)
    (h : matrix.operator_mul (σ self) (σ other) = some tmp) :
    Store.mul_assign σ self other = some (Function.update σ self tmp) := by
  simp only [Store.mul_assign, h, Option.map_some']
  congr 1
  funext x
  simp only [Store.restrict]
  rw [move_assign_apply _ _ _ _ (by simp)]
  by_cases hx : x = self
  · subst hx; simp [Store.extend]
  · simp [Store.extend, hx, Function.update]

theorem empty_shape : (⟨none, 0, 0⟩ : matrix T).shape_invariant :=
  ⟨rfl, fun _ => ⟨rfl, rfl⟩⟩

theorem valid_of_dims_data {a b : matrix T} (hr : b._rows = a._rows) (hc : b._cols = a._cols)
    (hcap : b.capacity = a.capacity) (h : a.valid) : b.valid := by
  refine ⟨shape_invariant_of_dims hr hc h.1, ?_⟩
  rw [hcap, h.2]
  unfold matrix.size
  rw [hr, hc]

theorem add_assign_valid [Add T] {A : Type} [DecidableEq A] (σ : Store A T) (self other : A)
    (hs : (σ self).valid) (ho : (σ other).valid) (hle : (σ self).size ≤ (σ other).size) :
    ∃ σ', Store.add_assign σ self other = some σ' ∧ (σ' self).valid := by
  by_cases hz : (σ self).size = 0
  · refine ⟨σ, ?_, hs⟩
    unfold Store.add_assign
    rw [hz]; rfl
  · obtain ⟨abuf, hd, hlen⟩ := valid_data hs hz
    obtain ⟨bbuf, hb, hblen⟩ := valid_data ho (by omega)
    obtain ⟨out, hout, holen, _⟩ := add_assign_spec σ self other abuf bbuf hd (by omega) hb
      (by omega)
    refine ⟨_, hout, ?_⟩
    have hdims := set_data_dims σ self self (some out)
    refine valid_of_dims_data hdims.1 hdims.2 ?_ hs
    simp only [matrix.capacity, set_data_apply_self, hd, holen]

theorem sub_assign_valid [Sub T] {A : Type} [DecidableEq A] (σ : Store A T) (self other : A)
    (hs : (σ self).valid) (ho : (σ other).valid) (hle : (σ self).size ≤ (σ other).size) :
    ∃ σ', Store.sub_assign σ self other = some σ' ∧ (σ' self).valid := by
  by_cases hz : (σ self).size = 0
  · refine ⟨σ, ?_, hs⟩
    unfold Store.sub_assign
    rw [hz]; rfl
  · obtain ⟨abuf, hd, hlen⟩ := valid_data hs hz
    obtain ⟨bbuf, hb, hblen⟩ := valid_data ho (by omega)
    obtain ⟨out, hout, holen, _⟩ := sub_assign_spec σ self other abuf bbuf hd (by omega) hb
      (by omega)
    refine ⟨_, hout, ?_⟩
    have hdims := set_data_dims σ self self (some out)
    refine valid_of_dims_data hdims.1 hdims.2 ?_ hs
    simp only [matrix.capacity, set_data_apply_self, hd, holen]

theorem scale_assign_valid [Mul T] {A : Type} [DecidableEq A] (σ : Store A T) (self : A)
    (factor : T) (hs : (σ self).valid) :
    ∃ σ', Store.scale_assign σ self factor = some σ' ∧ (σ' self).valid := by
  by_cases hz : (σ self).size = 0
  · refine ⟨σ, ?_, hs⟩
    unfold Store.scale_assign
    rw [hz]; rfl
  · obtain ⟨abuf, hd, hlen⟩ := valid_data hs hz
    obtain ⟨out, hout, holen, _⟩ := scale_assign_spec σ self factor abuf hd (by omega)
    refine ⟨_, hout, ?_⟩
    have hdims := set_data_dims σ self self (some out)
    refine valid_of_dims_data hdims.1 hdims.2 ?_ hs
    simp only [matrix.capacity, set_data_apply_self, hd, holen]

theorem valid_cells [Zero T] (m : matrix T) (h : m.valid) :
    ∀ i < m.rows, ∀ j < m.cols,
      m.operator_call i j = some ((m.operator_call i j).getD 0) := by
  intro i hi j hj
  have hlt : i * m.cols + j < m.size := row_major_lt hi hj
  obtain ⟨buf, hd, hlen⟩ := valid_data h (by omega)
  have hb : i * m.cols + j < buf.length := by omega
  simp [matrix.operator_call, hd, load_some, List.getElem?_eq_getElem hb]

theorem operator_mul_total [Zero T] [Add T] [Mul T] (left right : matrix T)
    (hl : left.valid) (hr : right.valid) (h : left.cols = right.rows)
    (hfit : left.rows * right.cols < size_t_range) :
    ∃ res, matrix.operator_mul left right = some res := by
  rcases Nat.eq_zero_or_pos left.rows with hm | hm
  · refine ⟨matrix.ctor_default, ?_⟩
    simp [matrix.operator_mul, matrix.ctor_sized, hm, for_loop]
  · have hk : 0 < left.cols := by
      rcases Nat.eq_zero_or_pos left.cols with h0 | h0
      · have := (hl.1.2 (Or.inr h0)).1
        omega
      · exact h0
    have hn : 0 < right.cols := by
      rcases Nat.eq_zero_or_pos right.cols with h0 | h0
      · have := (hr.1.2 (Or.inr h0)).1
        omega
      · exact h0
    obtain ⟨res, hres, _⟩ := operator_mul_nonempty left right left.rows left.cols right.cols
      (fun i t => (left.operator_call i t).getD 0) (fun t j => (right.operator_call t j).getD 0)
      hm hn hfit rfl rfl rfl (valid_cells left hl)
      (fun t ht j hj => valid_cells right hr t (by omega) j hj)
    exact ⟨res, hres⟩

theorem size_of_dims {a b : matrix T} (hr : b.rows = a.rows) (hc : b.cols = a.cols) :
    b.size = a.size := by
  show b._rows * b._cols = a._rows * a._cols
  have h1 : b._rows = a._rows := hr
  have h2 : b._cols = a._cols := hc
  rw [h1, h2]

theorem operator_add_dims [Add T] (uninit : Nat → T) (left right res : matrix T)
    (h : matrix.operator_add uninit left right = some res) :
    res._rows = left._rows ∧ res._cols = left._cols := by
  simp only [matrix.operator_add, Option.bind_eq_some] at h
  obtain ⟨result, h1, σ, h2, h3⟩ := h
  have d1 := ctor_copy_dims uninit left result h1
  have d2 := add_assign_dims _ σ none (some ()) h2 none
  have d3 := ctor_copy_dims uninit (σ none) res h3
  exact ⟨d3.1.trans (d2.1.trans d1.1), d3.2.trans (d2.2.trans d1.2)⟩

theorem operator_sub_dims [Sub T] (uninit : Nat → T) (left right res : matrix T)
    (h : matrix.operator_sub uninit left right = some res) :
    res._rows = left._rows ∧ res._cols = left._cols := by
  simp only [matrix.operator_sub, Option.bind_eq_some] at h
  obtain ⟨result, h1, σ, h2, h3⟩ := h
  have d1 := ctor_copy_dims uninit left result h1
  have d2 := sub_assign_dims _ σ none (some ()) h2 none
  have d3 := ctor_copy_dims uninit (σ none) res h3
  exact ⟨d3.1.trans (d2.1.trans d1.1), d3.2.trans (d2.2.trans d1.2)⟩

theorem operator_scale_dims [Mul T] (uninit : Nat → T) (left res : matrix T) (right : T)
    (h : matrix.operator_scale uninit left right = some res) :
    res._rows = left._rows ∧ res._cols = left._cols := by
  simp only [matrix.operator_scale, Option.bind_eq_some] at h
  obtain ⟨result, h1, σ, h2, h3⟩ := h
  have d1 := ctor_copy_dims uninit left result h1
  have d2 := scale_assign_dims _ σ () right h2 ()
  have d3 := ctor_copy_dims uninit (σ ()) res h3
  exact ⟨d3.1.trans (d2.1.trans d1.1), d3.2.trans (d2.2.trans d1.2)⟩

theorem operator_add_total [Add T] (uninit : Nat → T) (left right : matrix T)
    (hl : left.valid) (hr : right.valid) (hle : left.size ≤ right.size) :
    ∃ res, matrix.operator_add uninit left right = some res := by
  obtain ⟨result, h1, hrr, hrc, hrv, _⟩ := ctor_copy_of_valid uninit left hl
  have hsz : result.size = left.size := size_of_dims hrr hrc
  obtain ⟨σ, h2, hσv⟩ := add_assign_valid (matrix.locals result right) none (some ())
    hrv hr (by show result.size ≤ right.size; omega)
  obtain ⟨res, h3, _⟩ := ctor_copy_of_valid uninit (σ none) hσv
  exact ⟨res, by simp only [matrix.operator_add, h1, h2, h3, Option.some_bind]⟩

theorem operator_sub_total [Sub T] (uninit : Nat → T) (left right : matrix T)
    (hl : left.valid) (hr : right.valid) (hle : left.size ≤ right.size) :
    ∃ res, matrix.operator_sub uninit left right = some res := by
  obtain ⟨result, h1, hrr, hrc, hrv, _⟩ := ctor_copy_of_valid uninit left hl
  have hsz : result.size = left.size := size_of_dims hrr hrc
  obtain ⟨σ, h2, hσv⟩ := sub_assign_valid (matrix.locals result right) none (some ())
    hrv hr (by show result.size ≤ right.size; omega)
  obtain ⟨res, h3, _⟩ := ctor_copy_of_valid uninit (σ none) hσv
  exact ⟨res, by simp only [matrix.operator_sub, h1, h2, h3, Option.some_bind]⟩

theorem operator_scale_total [Mul T] (uninit : Nat → T) (left : matrix T) (right : T)
    (hl : left.valid) : ∃ res, matrix.operator_scale uninit left right = some res := by
  obtain ⟨result, h1, _, _, hrv, _⟩ := ctor_copy_of_valid uninit left hl
  obtain ⟨σ, h2, hσv⟩ := scale_assign_valid (fun _ : Unit => result) () right hrv
  obtain ⟨res, h3, _⟩ := ctor_copy_of_valid uninit (σ ()) hσv
  exact ⟨res, by simp only [matrix.operator_scale, h1, h2, h3, Option.some_bind]⟩

theorem shape_of_all_dims {A : Type} (σ σ' : Store A T)
    (hσ : ∀ x, (σ x).shape_invariant)
    (h : ∀ x, (σ' x)._rows = (σ x)._rows ∧ (σ' x)._cols = (σ x)._cols) :
    ∀ x, (σ' x).shape_invariant :=
  fun x => shape_invariant_of_dims (h x).1 (h x).2 (hσ x)

theorem shape_of_update {A : Type} [DecidableEq A] (σ : Store A T) (a : A) (m : matrix T)
    (hσ : ∀ x, (σ x).shape_invariant) (hm : m.shape_invariant) :
    ∀ x, (Function.update σ a m x).shape_invariant := by
  intro x
  by_cases hx : x = a
  · subst hx; simpa using hm
  · rw [Function.update_noteq hx]; exact hσ x

theorem demo_store_shape : ∀ x, (demo_store x).shape_invariant := by
  intro x
  unfold demo_store
  split <;> decide

/-- C6.  The shape invariant, `size() == rows() * cols()` with a zero
dimension forcing both to be zero, holds for every matrix returned or left
behind by the constructors (default, sized, literal with at least one row and
one column, copy, move), by `swap`, by move and copy assignment, by the
compound operators `+=`, `-=`, `*=` (scalar and matrix) and by the friend
operators `+`, `-`, `*` (scalar on either side, and matrix), whenever the
operands satisfy it.  Moreover each of these operations runs to completion
when its operands satisfy the invariant of the data model and, for `+`/`-`,
the right operand has at least as many elements as the left one and, for the
matrix product, the inner dimensions agree and the number of elements of the
result is below `2 ^ 64`. -/
theorem shape_invariant_maintained [Zero T] [Add T] [Sub T] [Mul T] {A : Type}
    [DecidableEq A] (uninit : Nat → T) :
    ((matrix.ctor_default : matrix T).shape_invariant ∧
      (∀ r c, (matrix.ctor_sized r c : matrix T).shape_invariant) ∧
      (∀ (Rows Cols : Nat) (init : Fin Rows → Fin Cols → T), 0 < Rows → 0 < Cols →
        ∃ M, matrix.ctor_literal uninit init = some M ∧ M.shape_invariant) ∧
      (∀ other : matrix T, other.shape_invariant →
        (∀ b, matrix.ctor_copy uninit other = some b → b.shape_invariant) ∧
        (matrix.ctor_move other).1.shape_invariant ∧
        (matrix.ctor_move other).2.shape_invariant) ∧
      (∀ other : matrix T, other.valid → ∃ b, matrix.ctor_copy uninit other = some b)) ∧
    (∀ (σ : Store A T) (self other : A), (∀ x, (σ x).shape_invariant) →
      (∀ x, (Store.swap σ self other x).shape_invariant) ∧
      (∀ x, (Store.move_assign σ self other x).shape_invariant) ∧
      (∀ σ', Store.copy_assign uninit σ self other = some σ' →
        ∀ x, (σ' x).shape_invariant) ∧
      (∀ σ', Store.add_assign σ self other = some σ' → ∀ x, (σ' x).shape_invariant) ∧
      (∀ σ', Store.sub_assign σ self other = some σ' → ∀ x, (σ' x).shape_invariant) ∧
      (∀ factor σ', Store.scale_assign σ self factor = some σ' →
        ∀ x, (σ' x).shape_invariant) ∧
      (∀ σ', Store.mul_assign σ self other = some σ' → ∀ x, (σ' x).shape_invariant)) ∧
    (∀ (σ : Store A T) (self other : A), (σ self).valid → (σ other).valid →
      (∃ σ', Store.copy_assign uninit σ self other = some σ') ∧
      ((σ self).size ≤ (σ other).size →
        (∃ σ', Store.add_assign σ self other = some σ') ∧
        (∃ σ', Store.sub_assign σ self other = some σ')) ∧
      (∀ factor, ∃ σ', Store.scale_assign σ self factor = some σ') ∧
      ((σ self).cols = (σ other).rows → (σ self).rows * (σ other).cols < size_t_range →
        ∃ σ', Store.mul_assign σ self other = some σ')) ∧
    (∀ left right : matrix T, left.shape_invariant → right.shape_invariant →
      (∀ res, matrix.operator_add uninit left right = some res → res.shape_invariant) ∧
      (∀ res, matrix.operator_sub uninit left right = some res → res.shape_invariant) ∧
      (∀ s res, matrix.operator_scale uninit left s = some res → res.shape_invariant) ∧
      (∀ s res, matrix.operator_scale_left uninit s right = some res →
        res.shape_invariant) ∧
      (∀ res, matrix.operator_mul left right = some res → res.shape_invariant)) ∧
    (∀ left right : matrix T, left.valid → right.valid →
      (left.size ≤ right.size →
        (∃ res, matrix.operator_add uninit left right = some res) ∧
        (∃ res, matrix.operator_sub uninit left right = some res)) ∧
      (∀ s, (∃ res, matrix.operator_scale uninit left s = some res) ∧
        ∃ res, matrix.operator_scale_left uninit s right = some res) ∧
      (left.cols = right.rows → left.rows * right.cols < size_t_range →
        ∃ res, matrix.operator_mul left right = some res)) := by
  refine ⟨⟨empty_shape, ctor_sized_shape, ?_, ?_, ?_⟩, ?_, ?_, ?_, ?_⟩
  · intro Rows Cols init hR hC
    obtain ⟨M, hM, hr, hc, _⟩ := ctor_literal_progress uninit init
    refine ⟨M, hM, rfl, fun h => ?_⟩
    have h1 : M.rows = Rows := hr
    have h2 : M.cols = Cols := hc
    omega
  · intro other ho
    refine ⟨fun b hb => ?_, shape_invariant_of_dims rfl rfl ho,
      shape_invariant_of_dims rfl rfl ho⟩
    have := ctor_copy_dims uninit other b hb
    exact shape_invariant_of_dims this.1 this.2 ho
  · intro other ho
    obtain ⟨b, hb, _⟩ := ctor_copy_of_valid uninit other ho
    exact ⟨b, hb⟩
  · intro σ self other hσ
    refine ⟨?_, ?_, ?_, ?_, ?_, ?_, ?_⟩
    · intro x
      by_cases hso : self = other
      · subst hso; rw [swap_self]; exact hσ x
      · rw [swap_apply σ self other x hso]
        split
        · exact hσ other
        · split
          · exact hσ self
          · exact hσ x
    · intro x
      by_cases hso : other = self
      · subst hso
        simp only [Store.move_assign, ne_eq, not_true_eq_false, if_false]
        exact hσ x
      · rw [move_assign_apply σ self other x hso]
        split
        · exact hσ other
        · split
          · exact empty_shape
          · exact hσ x
    · intro σ' h
      by_cases hso : other = self
      · subst hso
        simp only [Store.copy_assign, ne_eq, not_true_eq_false, if_false,
          Option.some.injEq] at h
        subst h; exact hσ
      · cases htmp : matrix.ctor_copy uninit (σ other) with
        | none => simp [Store.copy_assign, hso, htmp] at h
        | some tmp =>
          rw [copy_assign_apply uninit σ self other tmp hso htmp, Option.some.injEq] at h
          subst h
          have d := ctor_copy_dims uninit (σ other) tmp htmp
          exact shape_of_update σ self tmp hσ (shape_invariant_of_dims d.1 d.2 (hσ other))
    · intro σ' h
      exact shape_of_all_dims σ σ' hσ (add_assign_dims σ σ' self other h)
    · intro σ' h
      exact shape_of_all_dims σ σ' hσ (sub_assign_dims σ σ' self other h)
    · intro factor σ' h
      exact shape_of_all_dims σ σ' hσ (scale_assign_dims σ σ' self factor h)
    · intro σ' h
      cases htmp : matrix.operator_mul (σ self) (σ other) with
      | none => simp [Store.mul_assign, htmp] at h
      | some tmp =>
        rw [mul_assign_apply σ self other tmp htmp, Option.some.injEq] at h
        subst h
        have d := operator_mul_dims (σ self) (σ other) tmp htmp
        exact shape_of_update σ self tmp hσ
          (shape_invariant_of_dims d.1 d.2 (ctor_sized_shape _ _))
  · intro σ self other hs ho
    refine ⟨?_, ?_, ?_, ?_⟩
    · by_cases hso : other = self
      · exact ⟨σ, by simp [Store.copy_assign, hso]⟩
      · obtain ⟨tmp, htmp, _⟩ := ctor_copy_of_valid uninit (σ other) ho
        exact ⟨_, copy_assign_apply uninit σ self other tmp hso htmp⟩
    · intro hle
      obtain ⟨σ1, h1, _⟩ := add_assign_valid σ self other hs ho hle
      obtain ⟨σ2, h2, _⟩ := sub_assign_valid σ self other hs ho hle
      exact ⟨⟨σ1, h1⟩, ⟨σ2, h2⟩⟩
    · intro factor
      obtain ⟨σ1, h1, _⟩ := scale_assign_valid σ self factor hs
      exact ⟨σ1, h1⟩
    · intro hk hfit
      obtain ⟨tmp, htmp⟩ := operator_mul_total (σ self) (σ other) hs ho hk hfit
      exact ⟨_, mul_assign_apply σ self other tmp htmp⟩
  · intro left right hl hr
    refine ⟨?_, ?_, ?_, ?_, ?_⟩
    · intro res h
      have d := operator_add_dims uninit left right res h
      exact shape_invariant_of_dims d.1 d.2 hl
    · intro res h
      have d := operator_sub_dims uninit left right res h
      exact shape_invariant_of_dims d.1 d.2 hl
    · intro s res h
      have d := operator_scale_dims uninit left res s h
      exact shape_invariant_of_dims d.1 d.2 hl
    · intro s res h
      have d := operator_scale_dims uninit right res s h
      exact shape_invariant_of_dims d.1 d.2 hr
    · intro res h
      have d := operator_mul_dims left right res h
      exact shape_invariant_of_dims d.1 d.2 (ctor_sized_shape _ _)
  · intro left right hl hr
    refine ⟨fun hle => ⟨operator_add_total uninit left right hl hr hle,
      operator_sub_total uninit left right hl hr hle⟩,
      fun s => ⟨operator_scale_total uninit left s hl, operator_scale_total uninit right s hr⟩,
      fun hk hfit => operator_mul_total left right hl hr hk hfit⟩

/-- Witness for C6: the literal `[[1,2],[3,4]]`, the move constructor on
`[[1,2]]`, move assignment in `demo_store`, the product of the `3 × 1` and
`1 × 2` matrices of `demo_store`, and the sum of `[[1,2]]` with itself. -/
theorem shape_invariant_maintained_witness :
    (∃ M : matrix Int, matrix.ctor_literal (fun _ => 0) ![![1, 2], ![3, 4]] = some M ∧
      M.shape_invariant) ∧
    ((matrix.ctor_move (demo_store 1)).1.shape_invariant ∧
      (matrix.ctor_move (demo_store 1)).2.shape_invariant) ∧
    (∀ x, (Store.move_assign demo_store 0 1 x).shape_invariant) ∧
    (⟨some [7, 14, 8, 16, 9, 18], 3, 2⟩ : matrix Int).shape_invariant ∧
    (∃ res, matrix.operator_add (fun _ => 0) (demo_store 1) (demo_store 1) = some res) :=
  ⟨(@shape_invariant_maintained Int _ _ _ _ Nat _ (fun _ => 0)).1.2.2.1 2 2
      ![![1, 2], ![3, 4]] (by decide) (by decide),
    ((@shape_invariant_maintained Int _ _ _ _ Nat _ (fun _ => 0)).1.2.2.2.1 (demo_store 1)
      (by decide)).2,
    ((@shape_invariant_maintained Int _ _ _ _ Nat _ (fun _ => 0)).2.1 demo_store 0 1
      demo_store_shape).2.1,
    ((@shape_invariant_maintained Int _ _ _ _ Nat _ (fun _ => 0)).2.2.2.1 (demo_store 0)
      (demo_store 1) (by decide) (by decide)).2.2.2.2 _ (by decide),
    (((@shape_invariant_maintained Int _ _ _ _ Nat _ (fun _ => 0)).2.2.2.2 (demo_store 1)
      (demo_store 1) (by decide) (by decide)).1 (by decide)).1⟩

/-! ## C11: the linear range -/

theorem div_mod_row_major (p c : Nat) : p / c * c + p % c = p := by
  rw [Nat.mul_comm]; exact Nat.div_add_mod p c

/-- C11.  For a matrix `M` of shape `r × c` satisfying the invariant of the
data model, the range `begin()..end()` has length `r * c`; for `i < r` and
`j < c` the element at position `i * c + j` of the range is the element
`M(i, j)`, which is readable; and the element at position `p < r * c` is
`M(p / c, p % c)`. -/
theorem linear_range_row_major (M : matrix T) (r c : Nat) (hM : M.valid)
    (hr : M.rows = r) (hc : M.cols = c) :
    M.end_ - M.begin = r * c ∧ M.begin ≤ M.end_ ∧
    (∀ i < r, ∀ j < c, (∃ v, M.operator_call i j = some v) ∧
      load M._data (M.begin + (i * c + j)) = M.operator_call i j) ∧
    (∀ p < r * c, (∃ v, load M._data (M.begin + p) = some v) ∧
      load M._data (M.begin + p) = M.operator_call (p / c) (p % c)) := by
  have hsize : M.size = r * c := by rw [← hr, ← hc]; rfl
  have hread : ∀ p < r * c, ∃ v, load M._data p = some v := by
    intro p hp
    obtain ⟨buf, hd, hlen⟩ := valid_data hM (by omega)
    exact ⟨buf[p], by rw [hd, load_some]; exact List.getElem?_eq_getElem (by omega)⟩
  refine ⟨?_, ?_, ?_, ?_⟩
  · simp only [matrix.end_, matrix.begin, hsize]; omega
  · simp only [matrix.end_, matrix.begin]; omega
  · intro i hi j hj
    have hlt : i * c + j < r * c := row_major_lt hi hj
    constructor
    · obtain ⟨v, hv⟩ := hread _ hlt
      exact ⟨v, by simpa [matrix.operator_call, hc] using hv⟩
    · simp [matrix.operator_call, matrix.begin, hc]
  · intro p hp
    constructor
    · simpa [matrix.begin] using hread p hp
    · simp only [matrix.operator_call, matrix.begin, hc, Nat.zero_add, div_mod_row_major]

/-- Witness for C11: the `3 × 2` matrix `[[1,2],[3,4],[5,6]]`. -/
theorem linear_range_row_major_witness :
    (⟨some [1, 2, 3, 4, 5, 6], 3, 2⟩ : matrix Int).valid ∧
    ((⟨some [1, 2, 3, 4, 5, 6], 3, 2⟩ : matrix Int).end_
        - (⟨some [1, 2, 3, 4, 5, 6], 3, 2⟩ : matrix Int).begin = 3 * 2 ∧
      (⟨some [1, 2, 3, 4, 5, 6], 3, 2⟩ : matrix Int).begin
        ≤ (⟨some [1, 2, 3, 4, 5, 6], 3, 2⟩ : matrix Int).end_ ∧
      (∀ i < 3, ∀ j < 2,
        (∃ v, (⟨some [1, 2, 3, 4, 5, 6], 3, 2⟩ : matrix Int).operator_call i j = some v) ∧
        load (⟨some [1, 2, 3, 4, 5, 6], 3, 2⟩ : matrix Int)._data
            ((⟨some [1, 2, 3, 4, 5, 6], 3, 2⟩ : matrix Int).begin + (i * 2 + j))
          = (⟨some [1, 2, 3, 4, 5, 6], 3, 2⟩ : matrix Int).operator_call i j) ∧
      (∀ p < 3 * 2,
        (∃ v, load (⟨some [1, 2, 3, 4, 5, 6], 3, 2⟩ : matrix Int)._data
            ((⟨some [1, 2, 3, 4, 5, 6], 3, 2⟩ : matrix Int).begin + p) = some v) ∧
        load (⟨some [1, 2, 3, 4, 5, 6], 3, 2⟩ : matrix Int)._data
            ((⟨some [1, 2, 3, 4, 5, 6], 3, 2⟩ : matrix Int).begin + p)
          = (⟨some [1, 2, 3, 4, 5, 6], 3, 2⟩ : matrix Int).operator_call (p / 2) (p % 2))) :=
  ⟨by decide,
    linear_range_row_major (⟨some [1, 2, 3, 4, 5, 6], 3, 2⟩ : matrix Int) 3 2 (by decide)
      rfl rfl⟩

/-! ## C16: the default-constructed matrix -/

/-- C16.  A default-constructed matrix has `rows() == 0`, `cols() == 0`,
`size() == 0` and `empty() == true`; its sum with itself runs to completion,
has no rows and no columns, and compares equal to it. -/
theorem default_matrix_sum [Add T] [DecidableEq T] (uninit : Nat → T) :
    (matrix.ctor_default : matrix T).rows = 0 ∧
    (matrix.ctor_default : matrix T).cols = 0 ∧
    (matrix.ctor_default : matrix T).size = 0 ∧
    (matrix.ctor_default : matrix T).empty = true ∧
    ∃ s, matrix.operator_add uninit (matrix.ctor_default : matrix T) matrix.ctor_default
        = some s ∧
      s.rows = 0 ∧ s.cols = 0 ∧ matrix.operator_eq s matrix.ctor_default = some true :=
  ⟨rfl, rfl, rfl, rfl, ⟨none, 0, 0⟩, rfl, rfl, rfl, rfl⟩

/-! ## C17: arithmetic of the column iterator -/

/-- C17.  For a column iterator `it` with a positive stride and all integers
`n` and `m`: `(it + n) - it == n`; `(it + n) + m` is `it + (n + m)`; `it[n]`
reads the position that `*(it + n)` reads; `++` then `--`, `--` then `++`, and
`+= n` then `-= n` restore the iterator; and `(it + n) < (it + m)` passes its
assertion and holds exactly when `n < m`. -/
theorem col_iterator_arithmetic (it : basic_col_iterator) (n m : Int) (p : Option (List T))
    (h : 0 < it._cols) :
    (it.add n).diff it = some n ∧
    (it.add n).add m = it.add (n + m) ∧
    basic_col_iterator.add_left n it = it.add n ∧
    it.index p n = (it.add n).deref p ∧
    it.incr.decr = it ∧ it.decr.incr = it ∧
    (it.add_assign n).sub_assign n = it ∧
    (it.add n).sub n = it ∧
    (it.add n).lt (it.add m) = some (decide (n < m)) := by
  have hc : (it._cols : Int) ≠ 0 := by
    have : (0 : Int) < (it._cols : Int) := by exact_mod_cast h
    omega
  have hpos : (0 : Int) < (it._cols : Int) := by exact_mod_cast h
  refine ⟨?_, ?_, rfl, rfl, ?_, ?_, ?_, ?_, ?_⟩
  · have hne : ¬ (it._cols = 0) := by omega
    simp only [basic_col_iterator.diff, basic_col_iterator.add, basic_col_iterator.add_assign,
      if_neg hne]
    congr 1
    have : it._data + (it._cols : Int) * n - it._data = (it._cols : Int) * n := by ring
    rw [this]
    exact Int.mul_tdiv_cancel_left n hc
  · simp only [basic_col_iterator.add, basic_col_iterator.add_assign,
      basic_col_iterator.mk.injEq, and_true]
    ring
  · cases it
    simp only [basic_col_iterator.incr, basic_col_iterator.decr, basic_col_iterator.mk.injEq,
      and_true]
    ring
  · cases it
    simp only [basic_col_iterator.incr, basic_col_iterator.decr, basic_col_iterator.mk.injEq,
      and_true]
    ring
  · cases it
    simp only [basic_col_iterator.add_assign, basic_col_iterator.sub_assign,
      basic_col_iterator.mk.injEq, and_true]
    ring
  · cases it
    simp only [basic_col_iterator.add, basic_col_iterator.sub, basic_col_iterator.add_assign,
      basic_col_iterator.sub_assign, basic_col_iterator.mk.injEq, and_true]
    ring
  · simp only [basic_col_iterator.lt, basic_col_iterator.check_col_indices,
      basic_col_iterator.add, basic_col_iterator.add_assign, beq_self_eq_true, if_true]
    congr 1
    apply decide_eq_decide.mpr
    constructor
    · intro hlt
      have : (it._cols : Int) * n < (it._cols : Int) * m := by omega
      exact lt_of_mul_lt_mul_left this (le_of_lt hpos)
    · intro hlt
      have : (it._cols : Int) * n < (it._cols : Int) * m := mul_lt_mul_of_pos_left hlt hpos
      omega

/-- Witness for C17: the iterator of column `1` with stride `2`, moved by `-3`
and `5`, over the buffer of `[[1,2],[3,4],[5,6]]`. -/
theorem col_iterator_arithmetic_witness :
    0 < (⟨4, 1, 2⟩ : basic_col_iterator)._cols ∧
    (((⟨4, 1, 2⟩ : basic_col_iterator).add (-3)).diff ⟨4, 1, 2⟩ = some (-3) ∧
    ((⟨4, 1, 2⟩ : basic_col_iterator).add (-3)).add 5
      = (⟨4, 1, 2⟩ : basic_col_iterator).add (-3 + 5) ∧
    basic_col_iterator.add_left (-3) ⟨4, 1, 2⟩ = (⟨4, 1, 2⟩ : basic_col_iterator).add (-3) ∧
    (⟨4, 1, 2⟩ : basic_col_iterator).index (some [(1 : Int), 2, 3, 4, 5, 6]) (-3)
      = ((⟨4, 1, 2⟩ : basic_col_iterator).add (-3)).deref (some [(1 : Int), 2, 3, 4, 5, 6]) ∧
    (⟨4, 1, 2⟩ : basic_col_iterator).incr.decr = ⟨4, 1, 2⟩ ∧
    (⟨4, 1, 2⟩ : basic_col_iterator).decr.incr = ⟨4, 1, 2⟩ ∧
    ((⟨4, 1, 2⟩ : basic_col_iterator).add_assign (-3)).sub_assign (-3) = ⟨4, 1, 2⟩ ∧
    ((⟨4, 1, 2⟩ : basic_col_iterator).add (-3)).sub (-3) = ⟨4, 1, 2⟩ ∧
    ((⟨4, 1, 2⟩ : basic_col_iterator).add (-3)).lt ((⟨4, 1, 2⟩ : basic_col_iterator).add 5)
      = some (decide ((-3 : Int) < 5))) :=
  ⟨by decide,
    col_iterator_arithmetic ⟨4, 1, 2⟩ (-3) 5 (some [(1 : Int), 2, 3, 4, 5, 6]) (by decide)⟩

/-! ## C20: writing one element -/

theorem valid_load {m : matrix T} (h : m.valid) (p : Nat) (hp : p < m.size) :
    ∃ a, load m._data p = some a := by
  obtain ⟨buf, hd, hlen⟩ := valid_data h (by omega)
  exact ⟨buf[p], by rw [hd, load_some]; exact List.getElem?_eq_getElem (by omega)⟩

theorem ctor_copy_load (uninit : Nat → T) (a : matrix T) (ha : a.valid) :
    ∃ b, matrix.ctor_copy uninit a = some b ∧ b.valid ∧ b.rows = a.rows ∧ b.cols = a.cols ∧
      ∀ p < a.size, load b._data p = load a._data p := by
  obtain ⟨b, hb, hr, hc, hv, hd⟩ := ctor_copy_of_valid uninit a ha
  refine ⟨b, hb, hv, hr, hc, fun p hp => ?_⟩
  rcases hd with hd | ⟨hs, _⟩
  · rw [hd]
  · omega

theorem add_assign_linear [Add T] {A : Type} [DecidableEq A] (σ : Store A T) (self other : A)
    (hs : (σ self).valid) (ho : (σ other).valid) (hle : (σ self).size ≤ (σ other).size) :
    ∃ σ', Store.add_assign σ self other = some σ' ∧ (σ' self).valid ∧
      (σ' self).rows = (σ self).rows ∧ (σ' self).cols = (σ self).cols ∧
      (∀ x, x ≠ self → σ' x = σ x) ∧
      ∀ p < (σ self).size, load (σ' self)._data p
        = (load (σ self)._data p).bind fun a => (load (σ other)._data p).map fun b => a + b := by
  by_cases hz : (σ self).size = 0
  · refine ⟨σ, ?_, hs, rfl, rfl, fun _ _ => rfl, fun p hp => by omega⟩
    unfold Store.add_assign
    rw [hz]; rfl
  · obtain ⟨abuf, hd, hlen⟩ := valid_data hs hz
    obtain ⟨bbuf, hb, hblen⟩ := valid_data ho (by omega)
    obtain ⟨out, hout, holen, hget⟩ := add_assign_spec σ self other abuf bbuf hd (by omega) hb
      (by omega)
    have hdims := set_data_dims σ self self (some out)
    refine ⟨_, hout, ?_, hdims.1, hdims.2, fun x hx => set_data_apply_ne σ self x _ hx, ?_⟩
    · refine valid_of_dims_data hdims.1 hdims.2 ?_ hs
      simp only [matrix.capacity, set_data_apply_self, hd, holen]
    · intro p hp
      rw [set_data_apply_self, hd, hb, load_some, load_some, load_some, hget p, if_pos hp]

theorem sub_assign_linear [Sub T] {A : Type} [DecidableEq A] (σ : Store A T) (self other : A)
    (hs : (σ self).valid) (ho : (σ other).valid) (hle : (σ self).size ≤ (σ other).size) :
    ∃ σ', Store.sub_assign σ self other = some σ' ∧ (σ' self).valid ∧
      (σ' self).rows = (σ self).rows ∧ (σ' self).cols = (σ self).cols ∧
      (∀ x, x ≠ self → σ' x = σ x) ∧
      ∀ p < (σ self).size, load (σ' self)._data p
        = (load (σ self)._data p).bind fun a => (load (σ other)._data p).map fun b => a - b := by
  by_cases hz : (σ self).size = 0
  · refine ⟨σ, ?_, hs, rfl, rfl, fun _ _ => rfl, fun p hp => by omega⟩
    unfold Store.sub_assign
    rw [hz]; rfl
  · obtain ⟨abuf, hd, hlen⟩ := valid_data hs hz
    obtain ⟨bbuf, hb, hblen⟩ := valid_data ho (by omega)
    obtain ⟨out, hout, holen, hget⟩ := sub_assign_spec σ self other abuf bbuf hd (by omega) hb
      (by omega)
    have hdims := set_data_dims σ self self (some out)
    refine ⟨_, hout, ?_, hdims.1, hdims.2, fun x hx => set_data_apply_ne σ self x _ hx, ?_⟩
    · refine valid_of_dims_data hdims.1 hdims.2 ?_ hs
      simp only [matrix.capacity, set_data_apply_self, hd, holen]
    · intro p hp
      rw [set_data_apply_self, hd, hb, load_some, load_some, load_some, hget p, if_pos hp]

theorem scale_assign_linear [Mul T] {A : Type} [DecidableEq A] (σ : Store A T) (self : A)
    (factor : T) (hs : (σ self).valid) :
    ∃ σ', Store.scale_assign σ self factor = some σ' ∧ (σ' self).valid ∧
      (σ' self).rows = (σ self).rows ∧ (σ' self).cols = (σ self).cols ∧
      (∀ x, x ≠ self → σ' x = σ x) ∧
      ∀ p < (σ self).size, load (σ' self)._data p
        = (load (σ self)._data p).map fun a => a * factor := by
  by_cases hz : (σ self).size = 0
  · refine ⟨σ, ?_, hs, rfl, rfl, fun _ _ => rfl, fun p hp => by omega⟩
    unfold Store.scale_assign
    rw [hz]; rfl
  · obtain ⟨abuf, hd, hlen⟩ := valid_data hs hz
    obtain ⟨out, hout, holen, hget⟩ := scale_assign_spec σ self factor abuf hd (by omega)
    have hdims := set_data_dims σ self self (some out)
    refine ⟨_, hout, ?_, hdims.1, hdims.2, fun x hx => set_data_apply_ne σ self x _ hx, ?_⟩
    · refine valid_of_dims_data hdims.1 hdims.2 ?_ hs
      simp only [matrix.capacity, set_data_apply_self, hd, holen]
    · intro p hp
      rw [set_data_apply_self, hd, load_some, load_some, hget p, if_pos hp]

theorem operator_add_linear [Add T] (uninit : Nat → T) (left right : matrix T)
    (hl : left.valid) (hr : right.valid) (hle : left.size ≤ right.size) :
    ∃ res, matrix.operator_add uninit left right = some res ∧ res.valid ∧
      res.rows = left.rows ∧ res.cols = left.cols ∧
      ∀ p < left.size, load res._data p
        = (load left._data p).bind fun a => (load right._data p).map fun b => a + b := by
  obtain ⟨result, h1, hrv, hrr, hrc, hrd⟩ := ctor_copy_load uninit left hl
  have hsz : result.size = left.size := size_of_dims hrr hrc
  obtain ⟨σ, h2, hσv, hσr, hσc, _, hσd⟩ := add_assign_linear (matrix.locals result right)
    none (some ()) hrv hr (by show result.size ≤ right.size; omega)
  obtain ⟨res, h3, hv, hr3, hc3, hd3⟩ := ctor_copy_load uninit (σ none) hσv
  have hsz2 : (σ none).size = left.size := (size_of_dims hσr hσc).trans hsz
  refine ⟨res, by simp only [matrix.operator_add, h1, h2, h3, Option.some_bind], hv,
    hr3.trans (hσr.trans hrr), hc3.trans (hσc.trans hrc), fun p hp => ?_⟩
  rw [hd3 p (by omega), hσd p (by show p < result.size; omega)]
  show ((load result._data p).bind fun a => (load right._data p).map fun b => a + b) = _
  rw [hrd p hp]

theorem operator_sub_linear [Sub T] (uninit : Nat → T) (left right : matrix T)
    (hl : left.valid) (hr : right.valid) (hle : left.size ≤ right.size) :
    ∃ res, matrix.operator_sub uninit left right = some res ∧ res.valid ∧
      res.rows = left.rows ∧ res.cols = left.cols ∧
      ∀ p < left.size, load res._data p
        = (load left._data p).bind fun a => (load right._data p).map fun b => a - b := by
  obtain ⟨result, h1, hrv, hrr, hrc, hrd⟩ := ctor_copy_load uninit left hl
  have hsz : result.size = left.size := size_of_dims hrr hrc
  obtain ⟨σ, h2, hσv, hσr, hσc, _, hσd⟩ := sub_assign_linear (matrix.locals result right)
    none (some ()) hrv hr (by show result.size ≤ right.size; omega)
  obtain ⟨res, h3, hv, hr3, hc3, hd3⟩ := ctor_copy_load uninit (σ none) hσv
  have hsz2 : (σ none).size = left.size := (size_of_dims hσr hσc).trans hsz
  refine ⟨res, by simp only [matrix.operator_sub, h1, h2, h3, Option.some_bind], hv,
    hr3.trans (hσr.trans hrr), hc3.trans (hσc.trans hrc), fun p hp => ?_⟩
  rw [hd3 p (by omega), hσd p (by show p < result.size; omega)]
  show ((load result._data p).bind fun a => (load right._data p).map fun b => a - b) = _
  rw [hrd p hp]

theorem operator_scale_linear [Mul T] (uninit : Nat → T) (left : matrix T) (right : T)
    (hl : left.valid) :
    ∃ res, matrix.operator_scale uninit left right = some res ∧ res.valid ∧
      res.rows = left.rows ∧ res.cols = left.cols ∧
      ∀ p < left.size, load res._data p = (load left._data p).map fun a => a * right := by
  obtain ⟨result, h1, hrv, hrr, hrc, hrd⟩ := ctor_copy_load uninit left hl
  have hsz : result.size = left.size := size_of_dims hrr hrc
  obtain ⟨σ, h2, hσv, hσr, hσc, _, hσd⟩ := scale_assign_linear (fun _ : Unit => result) ()
    right hrv
  obtain ⟨res, h3, hv, hr3, hc3, hd3⟩ := ctor_copy_load uninit (σ ()) hσv
  have hsz2 : (σ ()).size = left.size := (size_of_dims hσr hσc).trans hsz
  refine ⟨res, by simp only [matrix.operator_scale, h1, h2, h3, Option.some_bind], hv,
    hr3.trans (hσr.trans hrr), hc3.trans (hσc.trans hrc), fun p hp => ?_⟩
  rw [hd3 p (by omega), hσd p (by show p < result.size; omega)]
  show ((load result._data p).map fun a => a * right) = _
  rw [hrd p hp]

theorem operator_eq_of_linear [DecidableEq T] (a b : matrix T) (ha : a.valid) (hb : b.valid)
    (hr : a.rows = b.rows) (hc : a.cols = b.cols)
    (h : ∀ p < a.size, load a._data p = load b._data p) :
    matrix.operator_eq a b = some true := by
  rw [operator_eq_linear a b ha hb hr hc]
  congr 1
  exact decide_eq_true h

theorem cell_offset_lt (m : matrix T) {i j : Nat} (hi : i < m.rows) (hj : j < m.cols) :
    i * m.cols + j < m.size :=
  row_major_lt hi hj

/-! ## C12: `(A + B) - B == A` -/

/-- C12.  For matrices `A` and `B` of identical shape over an additive group
(such as the integers), both satisfying the invariant of the data model,
`A + B` and then `(A + B) - B` run to completion and `(A + B) - B == A` is
true, whatever the allocated storage held. -/
theorem add_then_sub_cancels [AddGroup T] [DecidableEq T] (u1 u2 : Nat → T) (A B : matrix T)
    (hA : A.valid) (hB : B.valid) (hr : A.rows = B.rows) (hc : A.cols = B.cols) :
    ∃ s d, matrix.operator_add u1 A B = some s ∧ matrix.operator_sub u2 s B = some d ∧
      matrix.operator_eq d A = some true := by
  have hsz : A.size = B.size := size_of_dims hr hc
  obtain ⟨s, hs, hsv, hsr, hsc, hsd⟩ := operator_add_linear u1 A B hA hB (by omega)
  have hssz : s.size = A.size := size_of_dims hsr hsc
  obtain ⟨d, hd, hdv, hdr, hdc, hdd⟩ := operator_sub_linear u2 s B hsv hB (by omega)
  have hdsz : d.size = A.size := (size_of_dims hdr hdc).trans hssz
  refine ⟨s, d, hs, hd, operator_eq_of_linear d A hdv hA (hdr.trans hsr) (hdc.trans hsc) ?_⟩
  intro p hp
  obtain ⟨a, ha⟩ := valid_load hA p (by omega)
  obtain ⟨b, hb⟩ := valid_load hB p (by omega)
  rw [hdd p (by omega), hsd p (by omega), ha, hb]
  simp

/-- Witness for C12: `A = [[1,2],[3,4]]` and `B = [[5,6],[7,8]]`. -/
theorem add_then_sub_cancels_witness :
    (⟨some [1, 2, 3, 4], 2, 2⟩ : matrix Int).valid ∧
    (⟨some [5, 6, 7, 8], 2, 2⟩ : matrix Int).valid ∧
    ∃ s d, matrix.operator_add (fun _ => 0) (⟨some [1, 2, 3, 4], 2, 2⟩ : matrix Int)
        ⟨some [5, 6, 7, 8], 2, 2⟩ = some s ∧
      matrix.operator_sub (fun _ => 0) s ⟨some [5, 6, 7, 8], 2, 2⟩ = some d ∧
      matrix.operator_eq d ⟨some [1, 2, 3, 4], 2, 2⟩ = some true :=
  ⟨by decide, by decide,
    add_then_sub_cancels (fun _ => 0) (fun _ => 0) (⟨some [1, 2, 3, 4], 2, 2⟩ : matrix Int)
      ⟨some [5, 6, 7, 8], 2, 2⟩ (by decide) (by decide) rfl rfl⟩

/-! ## C13: `A + A == A * 2` -/

/-- C13.  For a matrix `A` over a semiring (such as the integers) satisfying
the invariant of the data model, `A + A` and the matrix-by-scalar product
`A * 2` run to completion and `A + A == A * 2` is true. -/
theorem add_self_eq_scale_two [NonAssocSemiring T] [DecidableEq T] (u1 u2 : Nat → T)
    (A : matrix T) (hA : A.valid) :
    ∃ s d, matrix.operator_add u1 A A = some s ∧ matrix.operator_scale u2 A 2 = some d ∧
      matrix.operator_eq s d = some true := by
  obtain ⟨s, hs, hsv, hsr, hsc, hsd⟩ := operator_add_linear u1 A A hA hA (Nat.le_refl _)
  have hssz : s.size = A.size := size_of_dims hsr hsc
  obtain ⟨d, hd, hdv, hdr, hdc, hdd⟩ := operator_scale_linear u2 A 2 hA
  refine ⟨s, d, hs, hd,
    operator_eq_of_linear s d hsv hdv (hsr.trans hdr.symm) (hsc.trans hdc.symm) ?_⟩
  intro p hp
  obtain ⟨a, ha⟩ := valid_load hA p (by omega)
  rw [hsd p (by omega), hdd p (by omega), ha]
  simp [mul_two]

/-- Witness for C13: `A = [[1,2],[3,4]]`. -/
theorem add_self_eq_scale_two_witness :
    (⟨some [1, 2, 3, 4], 2, 2⟩ : matrix Int).valid ∧
    ∃ s d, matrix.operator_add (fun _ => 0) (⟨some [1, 2, 3, 4], 2, 2⟩ : matrix Int)
        ⟨some [1, 2, 3, 4], 2, 2⟩ = some s ∧
      matrix.operator_scale (fun _ => 0) (⟨some [1, 2, 3, 4], 2, 2⟩ : matrix Int) 2 = some d ∧
      matrix.operator_eq s d = some true :=
  ⟨by decide,
    add_self_eq_scale_two (fun _ => 0) (fun _ => 0) (⟨some [1, 2, 3, 4], 2, 2⟩ : matrix Int)
      (by decide)⟩

/-! ## C14: the matrix-by-scalar product -/

/-- C14.  For a matrix `A` satisfying the invariant of the data model and a
scalar `s`, the products `A * s` and `s * A` run to completion, have the rows
and columns of `A`, and their element `(i, j)` is `A(i, j) * s` for every
`i < rows` and `j < cols`; `s * A == A * s` is true; and `A * 1 == A` is true. -/
theorem scalar_product_spec [MulOneClass T] [DecidableEq T] (u1 u2 u3 : Nat → T)
    (A : matrix T) (s : T) (hA : A.valid) :
    ∃ x y z, matrix.operator_scale u1 A s = some x ∧
      matrix.operator_scale_left u2 s A = some y ∧
      matrix.operator_scale u3 A 1 = some z ∧
      x.rows = A.rows ∧ x.cols = A.cols ∧ y.rows = A.rows ∧ y.cols = A.cols ∧
      (∀ i < A.rows, ∀ j < A.cols, ∃ a, A.operator_call i j = some a ∧
        x.operator_call i j = some (a * s) ∧ y.operator_call i j = some (a * s)) ∧
      matrix.operator_eq y x = some true ∧
      matrix.operator_eq z A = some true := by
  obtain ⟨x, hx, hxv, hxr, hxc, hxd⟩ := operator_scale_linear u1 A s hA
  obtain ⟨y, hy, hyv, hyr, hyc, hyd⟩ := operator_scale_linear u2 A s hA
  obtain ⟨z, hz, hzv, hzr, hzc, hzd⟩ := operator_scale_linear u3 A 1 hA
  have hxsz : x.size = A.size := size_of_dims hxr hxc
  have hysz : y.size = A.size := size_of_dims hyr hyc
  have hzsz : z.size = A.size := size_of_dims hzr hzc
  refine ⟨x, y, z, hx, hy, hz, hxr, hxc, hyr, hyc, ?_, ?_, ?_⟩
  · intro i hi j hj
    have hlt : i * A.cols + j < A.size := cell_offset_lt A hi hj
    obtain ⟨a, ha⟩ := valid_load hA _ hlt
    refine ⟨a, ha, ?_, ?_⟩
    · simp only [matrix.operator_call, hxc]
      rw [hxd _ hlt, ha]; rfl
    · simp only [matrix.operator_call, hyc]
      rw [hyd _ hlt, ha]; rfl
  · refine operator_eq_of_linear y x hyv hxv (hyr.trans hxr.symm) (hyc.trans hxc.symm) ?_
    intro p hp
    rw [hyd p (by omega), hxd p (by omega)]
  · refine operator_eq_of_linear z A hzv hA hzr hzc ?_
    intro p hp
    obtain ⟨a, ha⟩ := valid_load hA p (by omega)
    rw [hzd p (by omega), ha]
    simp

/-- Witness for C14: `A = [[1,2],[3,4]]` and `s = 3`. -/
theorem scalar_product_spec_witness :
    (⟨some [1, 2, 3, 4], 2, 2⟩ : matrix Int).valid ∧
    ∃ x y z, matrix.operator_scale (fun _ => 0) (⟨some [1, 2, 3, 4], 2, 2⟩ : matrix Int) 3
        = some x ∧
      matrix.operator_scale_left (fun _ => 0) 3 (⟨some [1, 2, 3, 4], 2, 2⟩ : matrix Int)
        = some y ∧
      matrix.operator_scale (fun _ => 0) (⟨some [1, 2, 3, 4], 2, 2⟩ : matrix Int) 1 = some z ∧
      x.rows = (⟨some [1, 2, 3, 4], 2, 2⟩ : matrix Int).rows ∧
      x.cols = (⟨some [1, 2, 3, 4], 2, 2⟩ : matrix Int).cols ∧
      y.rows = (⟨some [1, 2, 3, 4], 2, 2⟩ : matrix Int).rows ∧
      y.cols = (⟨some [1, 2, 3, 4], 2, 2⟩ : matrix Int).cols ∧
      (∀ i < (⟨some [1, 2, 3, 4], 2, 2⟩ : matrix Int).rows,
        ∀ j < (⟨some [1, 2, 3, 4], 2, 2⟩ : matrix Int).cols,
          ∃ a, (⟨some [1, 2, 3, 4], 2, 2⟩ : matrix Int).operator_call i j = some a ∧
            x.operator_call i j = some (a * 3) ∧ y.operator_call i j = some (a * 3)) ∧
      matrix.operator_eq y x = some true ∧
      matrix.operator_eq z ⟨some [1, 2, 3, 4], 2, 2⟩ = some true :=
  ⟨by decide,
    scalar_product_spec (fun _ => 0) (fun _ => 0) (fun _ => 0)
      (⟨some [1, 2, 3, 4], 2, 2⟩ : matrix Int) 3 (by decide)⟩

/-! ## C15: `+=`, `-=` and their non-mutating forms -/

/-- C15.  Let the objects at `self` and `other` have identical shape and
satisfy the invariant of the data model.  Then `self += other` runs to
completion, leaves the rows and columns of `self` unchanged, sets every
element `(i, j)` of `self` to its old value plus the old element `(i, j)` of
`other`, and leaves every object other than `self` unchanged, in particular
`other` when it is a distinct object; the non-mutating sum of the two (whose
operands are passed by value here, hence untouched) runs to completion and has
the same rows, columns and elements.  The same holds for `-=` and the
non-mutating difference, with minus for plus. -/
theorem compound_add_sub_spec [Add T] [Sub T] {A : Type} [DecidableEq A] (u1 u2 : Nat → T)
    (σ : Store A T) (self other : A)
    (hs : (σ self).valid) (ho : (σ other).valid)
    (hr : (σ self).rows = (σ other).rows) (hc : (σ self).cols = (σ other).cols) :
    (∃ σ' res, Store.add_assign σ self other = some σ' ∧
      matrix.operator_add u1 (σ self) (σ other) = some res ∧
      (σ' self).rows = (σ self).rows ∧ (σ' self).cols = (σ self).cols ∧
      res.rows = (σ self).rows ∧ res.cols = (σ self).cols ∧
      (∀ i < (σ self).rows, ∀ j < (σ self).cols, ∃ a b,
        (σ self).operator_call i j = some a ∧ (σ other).operator_call i j = some b ∧
        (σ' self).operator_call i j = some (a + b) ∧ res.operator_call i j = some (a + b)) ∧
      (other ≠ self → σ' other = σ other) ∧ ∀ x, x ≠ self → σ' x = σ x) ∧
    (∃ σ' res, Store.sub_assign σ self other = some σ' ∧
      matrix.operator_sub u2 (σ self) (σ other) = some res ∧
      (σ' self).rows = (σ self).rows ∧ (σ' self).cols = (σ self).cols ∧
      res.rows = (σ self).rows ∧ res.cols = (σ self).cols ∧
      (∀ i < (σ self).rows, ∀ j < (σ self).cols, ∃ a b,
        (σ self).operator_call i j = some a ∧ (σ other).operator_call i j = some b ∧
        (σ' self).operator_call i j = some (a - b) ∧ res.operator_call i j = some (a - b)) ∧
      (other ≠ self → σ' other = σ other) ∧ ∀ x, x ≠ self → σ' x = σ x) := by
  have hsz : (σ self).size = (σ other).size := size_of_dims hr hc
  constructor
  · obtain ⟨σ', h1, _, hr1, hc1, hfr, hd1⟩ := add_assign_linear σ self other hs ho (by omega)
    obtain ⟨res, h2, _, hr2, hc2, hd2⟩ := operator_add_linear u1 (σ self) (σ other) hs ho
      (by omega)
    refine ⟨σ', res, h1, h2, hr1, hc1, hr2, hc2, ?_, hfr other, hfr⟩
    intro i hi j hj
    have hlt : i * (σ self).cols + j < (σ self).size := cell_offset_lt _ hi hj
    obtain ⟨a, ha⟩ := valid_load hs _ hlt
    obtain ⟨b, hb⟩ := valid_load ho _ (by omega : i * (σ self).cols + j < (σ other).size)
    refine ⟨a, b, ha, ?_, ?_, ?_⟩
    · simp only [matrix.operator_call, ← hc]; exact hb
    · simp only [matrix.operator_call, hc1]
      rw [hd1 _ hlt, ha, hb]; rfl
    · simp only [matrix.operator_call, hc2]
      rw [hd2 _ hlt, ha, hb]; rfl
  · obtain ⟨σ', h1, _, hr1, hc1, hfr, hd1⟩ := sub_assign_linear σ self other hs ho (by omega)
    obtain ⟨res, h2, _, hr2, hc2, hd2⟩ := operator_sub_linear u2 (σ self) (σ other) hs ho
      (by omega)
    refine ⟨σ', res, h1, h2, hr1, hc1, hr2, hc2, ?_, hfr other, hfr⟩
    intro i hi j hj
    have hlt : i * (σ self).cols + j < (σ self).size := cell_offset_lt _ hi hj
    obtain ⟨a, ha⟩ := valid_load hs _ hlt
    obtain ⟨b, hb⟩ := valid_load ho _ (by omega : i * (σ self).cols + j < (σ other).size)
    refine ⟨a, b, ha, ?_, ?_, ?_⟩
    · simp only [matrix.operator_call, ← hc]; exact hb
    · simp only [matrix.operator_call, hc1]
      rw [hd1 _ hlt, ha, hb]; rfl
    · simp only [matrix.operator_call, hc2]
      rw [hd2 _ hlt, ha, hb]; rfl

/-- Witness for C15: in `sum_store` the object `[[5,6],[7,8]]` at address `1`
is added to and subtracted from the object `[[1,2],[3,4]]` at address `0`. -/
theorem compound_add_sub_spec_witness :
    (sum_store 0).valid ∧ (sum_store 1).valid ∧
    ((∃ σ' res, Store.add_assign sum_store 0 1 = some σ' ∧
      matrix.operator_add (fun _ => 0) (sum_store 0) (sum_store 1) = some res ∧
      (σ' 0).rows = (sum_store 0).rows ∧ (σ' 0).cols = (sum_store 0).cols ∧
      res.rows = (sum_store 0).rows ∧ res.cols = (sum_store 0).cols ∧
      (∀ i < (sum_store 0).rows, ∀ j < (sum_store 0).cols, ∃ a b,
        (sum_store 0).operator_call i j = some a ∧ (sum_store 1).operator_call i j = some b ∧
        (σ' 0).operator_call i j = some (a + b) ∧ res.operator_call i j = some (a + b)) ∧
      ((1 : Nat) ≠ 0 → σ' 1 = sum_store 1) ∧ ∀ x, x ≠ 0 → σ' x = sum_store x) ∧
    (∃ σ' res, Store.sub_assign sum_store 0 1 = some σ' ∧
      matrix.operator_sub (fun _ => 0) (sum_store 0) (sum_store 1) = some res ∧
      (σ' 0).rows = (sum_store 0).rows ∧ (σ' 0).cols = (sum_store 0).cols ∧
      res.rows = (sum_store 0).rows ∧ res.cols = (sum_store 0).cols ∧
      (∀ i < (sum_store 0).rows, ∀ j < (sum_store 0).cols, ∃ a b,
        (sum_store 0).operator_call i j = some a ∧ (sum_store 1).operator_call i j = some b ∧
        (σ' 0).operator_call i j = some (a - b) ∧ res.operator_call i j = some (a - b)) ∧
      ((1 : Nat) ≠ 0 → σ' 1 = sum_store 1) ∧ ∀ x, x ≠ 0 → σ' x = sum_store x)) :=
  ⟨by decide, by decide,
    compound_add_sub_spec (fun _ => 0) (fun _ => 0) sum_store 0 1 (by decide)
      (by decide) rfl rfl⟩

/-! ## The recorded product: auxiliary facts -/

theorem traced_bind_result {α β : Type} (x : Traced α) (f : α → Traced β) :
    (x.bind f).2 = x.2.bind fun a => (f a).2 := by
  unfold Traced.bind
  cases h : x.2 <;> simp

theorem traced_mem_bind {α β : Type} (x : Traced α) (f : α → Traced β) (e : Event)
    (h : e ∈ (x.bind f).1) : e ∈ x.1 ∨ ∃ a, x.2 = some a ∧ e ∈ (f a).1 := by
  unfold Traced.bind at h
  cases hx : x.2 with
  | none => rw [hx] at h; exact Or.inl h
  | some a =>
    rw [hx] at h
    rcases List.mem_append.mp h with h | h
    · exact Or.inl h
    · exact Or.inr ⟨a, rfl, h⟩

theorem for_loop_traced_result {σ : Type} (bodyT : Nat → σ → Traced σ)
    (body : Nat → σ → Option σ) (h : ∀ i s, (bodyT i s).2 = body i s) :
    ∀ (count i : Nat) (s : σ), (for_loop_traced bodyT count i s).2 = for_loop body count i s := by
  intro count
  induction count with
  | zero => intro i s; rfl
  | succ c ih =>
    intro i s
    simp only [for_loop_traced, for_loop, traced_bind_result, h]
    congr 1
    funext s'
    exact ih (i + 1) s'

theorem inner_product_loop_traced_result [Add T] [Mul T] (p1 p2 : Option (List T)) :
    ∀ (n first1 : Nat) (first2 : basic_col_iterator) (init : T),
      (inner_product_loop_traced p1 p2 n first1 first2 init).2
        = inner_product_loop p1 p2 n first1 first2 init := by
  intro n
  induction n with
  | zero => intro first1 first2 init; rfl
  | succ n ih =>
    intro first1 first2 init
    simp only [inner_product_loop_traced, inner_product_loop, traced_bind_result, Traced.step]
    congr 1
    funext a
    congr 1
    funext b
    exact ih _ _ _

theorem std_inner_product_traced_result [Add T] [Mul T] (p1 : Option (List T))
    (first1 last1 : Nat) (p2 : Option (List T)) (first2 : basic_col_iterator) (init : T) :
    (std_inner_product_traced p1 first1 last1 p2 first2 init).2
      = std_inner_product p1 first1 last1 p2 first2 init := by
  unfold std_inner_product_traced std_inner_product
  split
  · rfl
  · exact inner_product_loop_traced_result p1 p2 _ _ _ _

theorem row_begin_traced_result (m : matrix T) (i : Nat) :
    (m.row_begin_traced i).2 = m.row_begin i := rfl

theorem row_end_traced_result (m : matrix T) (i : Nat) :
    (m.row_end_traced i).2 = m.row_end i := by
  unfold matrix.row_end_traced matrix.row_end
  simp only [traced_bind_result, Traced.step, row_begin_traced_result]
  by_cases h : i < m.rows
  · simp [h, matrix.row_begin]
  · simp [h]

theorem col_begin_traced_result (m : matrix T) (j : Nat) :
    (m.col_begin_traced j).2 = m.col_begin j := rfl

/-- The recorded product computes what `operator*` computes. -/
theorem operator_mul_traced_result [Zero T] [Add T] [Mul T] (left right : matrix T) :
    (matrix.operator_mul_traced left right).2 = matrix.operator_mul left right := by
  unfold matrix.operator_mul_traced matrix.operator_mul
  apply for_loop_traced_result
  intro i s
  apply for_loop_traced_result
  intro j t
  simp only [traced_bind_result, row_begin_traced_result, row_end_traced_result,
    col_begin_traced_result, std_inner_product_traced_result, matrix.assign_call_traced,
    Traced.step]

theorem for_loop_traced_events {σ : Type} (body : Nat → σ → Traced σ) (P : Event → Prop)
    (I : σ → Prop) :
    ∀ (count i : Nat) (s : σ), I s →
      (∀ j s, i ≤ j → j < i + count → I s →
        (∀ e ∈ (body j s).1, P e) ∧ ∀ s', (body j s).2 = some s' → I s') →
      (∀ e ∈ (for_loop_traced body count i s).1, P e) ∧
        ∀ s', (for_loop_traced body count i s).2 = some s' → I s' := by
  intro count
  induction count with
  | zero =>
    intro i s hI _
    refine ⟨fun e he => ?_, fun s' hs' => ?_⟩
    · simp [for_loop_traced] at he
    · simp only [for_loop_traced, Option.some.injEq] at hs'
      subst hs'; exact hI
  | succ c ih =>
    intro i s hI hbody
    obtain ⟨hev, hres⟩ := hbody i s (Nat.le_refl i) (by omega) hI
    have hrest : ∀ a, (body i s).2 = some a →
        (∀ e ∈ (for_loop_traced body c (i + 1) a).1, P e) ∧
          ∀ s', (for_loop_traced body c (i + 1) a).2 = some s' → I s' :=
      fun a ha => ih (i + 1) a (hres a ha)
        (fun j s hj hj' hIs => hbody j s (by omega) (by omega) hIs)
    refine ⟨fun e he => ?_, fun s' hs' => ?_⟩
    · simp only [for_loop_traced] at he
      rcases traced_mem_bind _ _ e he with h | ⟨a, ha, h⟩
      · exact hev e h
      · exact (hrest a ha).1 e h
    · simp only [for_loop_traced, traced_bind_result, Option.bind_eq_some] at hs'
      obtain ⟨a, ha, h⟩ := hs'
      exact (hrest a ha).2 s' h

theorem inner_product_loop_traced_events [Add T] [Mul T] (p1 p2 : Option (List T)) :
    ∀ (n first1 : Nat) (first2 : basic_col_iterator) (init : T) (e : Event),
      e ∈ (inner_product_loop_traced p1 p2 n first1 first2 init).1 →
      (∃ t < n, e = Event.read_left (first1 + t)) ∨
      (∃ t < n, e = Event.read_right
        (first2._data + (first2._cols : Int) * (t : Int) + (first2._col_index : Int))) := by
  intro n
  induction n with
  | zero =>
    intro first1 first2 init e he
    simp [inner_product_loop_traced] at he
  | succ n ih =>
    intro first1 first2 init e he
    simp only [inner_product_loop_traced] at he
    rcases traced_mem_bind _ _ e he with h | ⟨a, _, h⟩
    · simp only [Traced.step, List.mem_singleton] at h
      exact Or.inl ⟨0, Nat.succ_pos n, by rw [h]; rfl⟩
    · rcases traced_mem_bind _ _ e h with h | ⟨b, _, h⟩
      · simp only [Traced.step, List.mem_singleton] at h
        refine Or.inr ⟨0, Nat.succ_pos n, ?_⟩
        rw [h]; congr 1; push_cast; ring
      · rcases ih _ _ _ e h with ⟨t, ht, he⟩ | ⟨t, ht, he⟩
        · exact Or.inl ⟨t + 1, by omega, by rw [he]; congr 1; omega⟩
        · refine Or.inr ⟨t + 1, by omega, ?_⟩
          rw [he]; congr 1
          simp only [basic_col_iterator.incr]; push_cast; ring

theorem in_bounds_of_size (left right r1 r2 : matrix T) (h : r1.size = r2.size) (e : Event)
    (he : e.in_bounds left right r1) : e.in_bounds left right r2 := by
  cases e <;> simp only [Event.in_bounds] at he ⊢ <;> first | exact he | omega

theorem mul_body_events [Zero T] [Add T] [Mul T] (left right R t : matrix T) (i j : Nat)
    (hi : i < left.rows) (hj : j < right.cols) (hk : left.cols ≤ right.rows)
    (hR : R.size = left.rows * right.cols) (htc : t._cols = right.cols) :
    ∀ e ∈ ((left.row_begin_traced i).bind fun first1 =>
        (left.row_end_traced i).bind fun last1 =>
        (right.col_begin_traced j).bind fun first2 =>
        (std_inner_product_traced left._data first1 last1 right._data first2 0).bind fun v =>
        t.assign_call_traced i j v).1, e.in_bounds left right R := by
  intro e he
  rcases traced_mem_bind _ _ e he with h | ⟨first1, hf1, h⟩
  · simp only [matrix.row_begin_traced, Traced.step, List.mem_singleton] at h
    subst h; exact hi
  simp only [matrix.row_begin_traced, Traced.step, hi, if_true, Option.some.injEq] at hf1
  subst hf1
  rcases traced_mem_bind _ _ e h with h | ⟨last1, hl1, h⟩
  · simp only [matrix.row_end_traced, matrix.row_begin_traced, Traced.step, Traced.bind, hi,
      if_true, List.append_nil, List.singleton_append, List.mem_cons, List.mem_singleton,
      List.not_mem_nil, or_false] at h
    rcases h with h | h <;> (subst h; exact hi)
  simp only [matrix.row_end_traced, matrix.row_begin_traced, Traced.step, Traced.bind, hi,
    if_true, Option.some.injEq] at hl1
  subst hl1
  rcases traced_mem_bind _ _ e h with h | ⟨first2, hf2, h⟩
  · simp only [matrix.col_begin_traced, Traced.step, List.mem_singleton] at h
    subst h; exact hj
  simp only [matrix.col_begin_traced, Traced.step, hj, if_true, Option.some.injEq] at hf2
  subst hf2
  rcases traced_mem_bind _ _ e h with h | ⟨v, _, h⟩
  · have hnot : ¬ (i * left.cols + left.cols < i * left.cols) := by omega
    have hsub : i * left.cols + left.cols - i * left.cols = left.cols := by omega
    simp only [std_inner_product_traced, if_neg hnot, hsub] at h
    rcases inner_product_loop_traced_events _ _ _ _ _ _ e h with ⟨x, hx, he⟩ | ⟨x, hx, he⟩
    · subst he
      exact row_major_lt hi hx
    · subst he
      have hlt : x * right.cols + j < right.rows * right.cols :=
        row_major_lt (by omega) hj
      have hpos : (matrix.begin right : Int) + (right.cols : Int) * (x : Int) + (j : Int)
          = ((x * right.cols + j : Nat) : Int) := by
        simp only [matrix.begin]; push_cast; ring
      simp only [Event.in_bounds, hpos]
      constructor
      · exact Int.natCast_nonneg _
      · exact_mod_cast hlt
  · simp only [matrix.assign_call_traced, Traced.step, List.mem_singleton] at h
    subst h
    simp only [Event.in_bounds, hR, matrix.cols, htc]
    exact row_major_lt hi hj

theorem operator_mul_traced_safe [Zero T] [Add T] [Mul T] (left right : matrix T)
    (hk : left.cols ≤ right.rows) :
    ∀ e ∈ (matrix.operator_mul_traced left right).1,
      e.in_bounds left right (matrix.ctor_sized left.rows right.cols) := by
  have key := for_loop_traced_events
    (fun i (result : matrix T) =>
      for_loop_traced (fun j (result : matrix T) =>
          (left.row_begin_traced i).bind fun first1 =>
          (left.row_end_traced i).bind fun last1 =>
          (right.col_begin_traced j).bind fun first2 =>
          (std_inner_product_traced left._data first1 last1 right._data first2 0).bind fun v =>
          result.assign_call_traced i j v)
        right.cols 0 result)
    (fun e => e.in_bounds left right (matrix.ctor_sized left.rows right.cols))
    (fun t : matrix T =>
      t._rows = (matrix.ctor_sized left.rows right.cols : matrix T)._rows ∧
      t._cols = (matrix.ctor_sized left.rows right.cols : matrix T)._cols)
    left.rows 0 (matrix.ctor_sized left.rows right.cols) ⟨rfl, rfl⟩
    (by
      intro i s _ hi hI
      have hi : i < left.rows := by omega
      exact for_loop_traced_events _
        (fun e => e.in_bounds left right (matrix.ctor_sized left.rows right.cols))
        (fun t : matrix T =>
          t._rows = (matrix.ctor_sized left.rows right.cols : matrix T)._rows ∧
          t._cols = (matrix.ctor_sized left.rows right.cols : matrix T)._cols)
        right.cols 0 s hI
        (by
          intro j t _ hj hIt
          have hj : j < right.cols := by omega
          have hne : left.rows ≠ 0 ∧ right.cols ≠ 0 := ⟨by omega, by omega⟩
          have hR : (matrix.ctor_sized left.rows right.cols : matrix T).size
              = left.rows * right.cols := by
            simp [matrix.ctor_sized, hne, matrix.size]
          have hc0 : (matrix.ctor_sized left.rows right.cols : matrix T)._cols = right.cols := by
            simp [matrix.ctor_sized, hne]
          refine ⟨mul_body_events left right _ t i j hi hj hk hR (hIt.2.trans hc0), ?_⟩
          intro s' hs'
          simp only [traced_bind_result, Option.bind_eq_some] at hs'
          obtain ⟨_, _, _, _, _, _, v, _, hv⟩ := hs'
          obtain ⟨h1, h2⟩ := assign_call_dims t s' i j v hv
          exact ⟨h1.trans hIt.1, h2.trans hIt.2⟩))
  exact key.1

theorem operator_mul_total_le [Zero T] [Add T] [Mul T] (left right : matrix T)
    (hl : left.valid) (hr : right.valid) (h : left.cols ≤ right.rows)
    (hfit : left.rows * right.cols < size_t_range) :
    ∃ res, matrix.operator_mul left right = some res := by
  rcases Nat.eq_zero_or_pos left.rows with hm | hm
  · refine ⟨matrix.ctor_default, ?_⟩
    simp [matrix.operator_mul, matrix.ctor_sized, hm, for_loop]
  · have hk : 0 < left.cols := by
      rcases Nat.eq_zero_or_pos left.cols with h0 | h0
      · have := (hl.1.2 (Or.inr h0)).1
        omega
      · exact h0
    have hn : 0 < right.cols := by
      rcases Nat.eq_zero_or_pos right.cols with h0 | h0
      · have := (hr.1.2 (Or.inr h0)).1
        omega
      · exact h0
    obtain ⟨res, hres, _⟩ := operator_mul_nonempty left right left.rows left.cols right.cols
      (fun i t => (left.operator_call i t).getD 0) (fun t j => (right.operator_call t j).getD 0)
      hm hn hfit rfl rfl rfl (valid_cells left hl)
      (fun t ht j hj => valid_cells right hr t (by omega) j hj)
    exact ⟨res, hres⟩

/-! ## C18: the product stays within bounds -/

theorem for_loop_traced_first_none {σ : Type} (body : Nat → σ → Traced σ) (count i : Nat)
    (s : σ) (hc : 0 < count) (h : (body i s).2 = none) :
    for_loop_traced body count i s = ((body i s).1, none) := by
  obtain ⟨c, rfl⟩ : ∃ c, count = c + 1 := ⟨count - 1, by omega⟩
  simp only [for_loop_traced, Traced.bind, h]

theorem ones_result_wrapped (n : Nat) (hn : 0 < n) (hw : (n * n) % size_t_range = 0) :
    (matrix.ctor_sized (column_of_ones n).rows (row_of_ones n).cols : matrix Int)
      = ⟨some [], n, n⟩ := by
  have hne : n ≠ 0 := by omega
  show (matrix.ctor_sized n n : matrix Int) = _
  unfold matrix.ctor_sized
  rw [if_pos ⟨hne, hne⟩]
  show (⟨some (List.replicate ((n * n) % size_t_range) (0 : Int)), n, n⟩ : matrix Int) = _
  rw [hw]
  rfl

theorem ones_product_record (n : Nat) (hn : 0 < n) (hw : (n * n) % size_t_range = 0) :
    matrix.operator_mul_traced (column_of_ones n) (row_of_ones n) =
      ([Event.row_begin 0, Event.row_end 0, Event.row_begin 0, Event.col_begin 0,
        Event.read_left 0, Event.read_right 0, Event.write_result 0], none) := by
  have hR := ones_result_wrapped n hn hw
  have hbody : ((column_of_ones n).row_begin_traced 0).bind (fun first1 =>
      ((column_of_ones n).row_end_traced 0).bind fun last1 =>
      ((row_of_ones n).col_begin_traced 0).bind fun first2 =>
      (std_inner_product_traced (column_of_ones n)._data first1 last1 (row_of_ones n)._data
        first2 0).bind fun v =>
      (matrix.ctor_sized (column_of_ones n).rows (row_of_ones n).cols : matrix Int).assign_call_traced
        0 0 v) =
      ([Event.row_begin 0, Event.row_end 0, Event.row_begin 0, Event.col_begin 0,
        Event.read_left 0, Event.read_right 0, Event.write_result 0], none) := by
    have hip : std_inner_product_traced (column_of_ones n)._data 0 1 (row_of_ones n)._data
        ⟨0, 0, n⟩ 0 = ([Event.read_left 0, Event.read_right 0], some (0 + 1 * 1)) := by
      simp [std_inner_product_traced, inner_product_loop_traced, Traced.bind, Traced.step,
        column_of_ones, row_of_ones, load_some, basic_col_iterator.deref, load_at,
        List.getElem?_replicate, hn]
    have hst : ∀ v : Int, (⟨some [], n, n⟩ : matrix Int).assign_call 0 0 v = none := by
      intro v
      simp [matrix.assign_call, store]
    rw [hR]
    simp [matrix.row_begin_traced, matrix.row_end_traced, matrix.col_begin_traced,
      matrix.assign_call_traced, Traced.bind, Traced.step, hn, matrix.cols, matrix.rows,
      matrix.begin, hip, hst,
      show (column_of_ones n)._cols = 1 from rfl, show (column_of_ones n)._rows = n from rfl,
      show (row_of_ones n)._cols = n from rfl]
  have hinner := for_loop_traced_first_none (fun j (result : matrix Int) =>
      ((column_of_ones n).row_begin_traced 0).bind fun first1 =>
      ((column_of_ones n).row_end_traced 0).bind fun last1 =>
      ((row_of_ones n).col_begin_traced j).bind fun first2 =>
      (std_inner_product_traced (column_of_ones n)._data first1 last1 (row_of_ones n)._data
        first2 0).bind fun v =>
      result.assign_call_traced 0 j v) (row_of_ones n).cols 0
    (matrix.ctor_sized (column_of_ones n).rows (row_of_ones n).cols) hn (by beta_reduce; rw [hbody])
  beta_reduce at hinner
  rw [hbody] at hinner
  unfold matrix.operator_mul_traced
  rw [for_loop_traced_first_none _ _ _ _ (show 0 < (column_of_ones n).rows from hn)
    (by rw [hinner])]
  rw [hinner]

/-- C18, as stated, fails: the `2^32 × 1` and `1 × 2^32` matrices of ones
satisfy the invariant of the data model and their inner dimensions agree, but
the result `matrix(2^32, 2^32)` is allocated with `2^32 * 2^32 mod 2^64 = 0`
elements: the steps of the product up to the first write are within bounds,
and that write, of `result(0, 0)` at offset `0`, is outside the buffer of
`result`, where the behaviour becomes undefined. -/
theorem operator_mul_write_wraps :
    (column_of_ones (2 ^ 32)).valid ∧ (row_of_ones (2 ^ 32)).valid ∧
    (column_of_ones (2 ^ 32)).cols = (row_of_ones (2 ^ 32)).rows ∧
    matrix.operator_mul_traced (column_of_ones (2 ^ 32)) (row_of_ones (2 ^ 32)) =
      ([Event.row_begin 0, Event.row_end 0, Event.row_begin 0, Event.col_begin 0,
        Event.read_left 0, Event.read_right 0, Event.write_result 0], none) ∧
    (matrix.ctor_sized (column_of_ones (2 ^ 32)).rows (row_of_ones (2 ^ 32)).cols :
      matrix Int).capacity = 0 := by
  have hv := ones_valid (2 ^ 32) (by norm_num)
  have hw : (2 ^ 32 * 2 ^ 32) % size_t_range = 0 := by norm_num [size_t_range]
  refine ⟨hv.1, hv.2, rfl, ones_product_record (2 ^ 32) (by norm_num) hw, ?_⟩
  have hne : (2 : Nat) ^ 32 ≠ 0 := by norm_num
  have h1 : (column_of_ones (2 ^ 32)).rows = 2 ^ 32 := rfl
  have h2 : (row_of_ones (2 ^ 32)).cols = 2 ^ 32 := rfl
  rw [h1, h2]
  unfold matrix.ctor_sized
  rw [if_pos ⟨hne, hne⟩]
  show (List.replicate ((2 ^ 32 * 2 ^ 32) % size_t_range) (0 : Int)).length = 0
  rw [hw]
  rfl

/-- C18, amended.  For `left` and `right` satisfying the invariant of the data
model with `left.cols() == right.rows()` and `left.rows() * right.cols()` below
`2 ^ 64`, the product runs to completion and every recorded step respects the
bounds: each `row_begin`/`row_end` call has a row index below `left.rows()`,
each `col_begin` call a column index below `right.cols()`, every read of
`left` an offset below `left.size()`, every read of `right` an offset below
`right.size()`, and every write of `result` an offset below `result.size()`. -/
theorem operator_mul_in_bounds [Zero T] [Add T] [Mul T] (left right : matrix T)
    (hl : left.valid) (hr : right.valid) (hk : left.cols = right.rows)
    (hfit : left.rows * right.cols < size_t_range) :
    ∃ result, matrix.operator_mul left right = some result ∧
      (matrix.operator_mul_traced left right).2 = some result ∧
      ∀ e ∈ (matrix.operator_mul_traced left right).1, e.in_bounds left right result := by
  obtain ⟨result, hres⟩ := operator_mul_total_le left right hl hr (by omega) hfit
  refine ⟨result, hres, by rw [operator_mul_traced_result, hres], fun e he => ?_⟩
  have hd := operator_mul_dims left right result hres
  have hsz : (matrix.ctor_sized left.rows right.cols : matrix T).size = result.size := by
    unfold matrix.size
    rw [hd.1, hd.2]
  exact in_bounds_of_size left right _ result hsz e
    (operator_mul_traced_safe left right (by omega) e he)

/-- Witness for C18, amended: the product of `[[1,2],[3,4]]` and
`[[5,6],[7,8]]`. -/
theorem operator_mul_in_bounds_witness :
    (⟨some [1, 2, 3, 4], 2, 2⟩ : matrix Int).valid ∧
    (⟨some [5, 6, 7, 8], 2, 2⟩ : matrix Int).valid ∧
    2 * 2 < size_t_range ∧
    ∃ result, matrix.operator_mul (⟨some [1, 2, 3, 4], 2, 2⟩ : matrix Int)
        ⟨some [5, 6, 7, 8], 2, 2⟩ = some result ∧
      (matrix.operator_mul_traced (⟨some [1, 2, 3, 4], 2, 2⟩ : matrix Int)
        ⟨some [5, 6, 7, 8], 2, 2⟩).2 = some result ∧
      ∀ e ∈ (matrix.operator_mul_traced (⟨some [1, 2, 3, 4], 2, 2⟩ : matrix Int)
          ⟨some [5, 6, 7, 8], 2, 2⟩).1,
        e.in_bounds (⟨some [1, 2, 3, 4], 2, 2⟩ : matrix Int) ⟨some [5, 6, 7, 8], 2, 2⟩ result :=
  ⟨by decide, by decide, by decide,
    operator_mul_in_bounds (⟨some [1, 2, 3, 4], 2, 2⟩ : matrix Int) ⟨some [5, 6, 7, 8], 2, 2⟩
      (by decide) (by decide) rfl (by decide)⟩

/-! ## C19: mismatched inner dimensions -/

theorem load_past_capacity {m : matrix T} (h : m.valid) (p : Nat) (hp : m.size ≤ p) :
    load m._data p = none := by
  have hcap := h.2
  unfold matrix.capacity at hcap
  cases hd : m._data with
  | none => rfl
  | some buf =>
    rw [hd] at hcap
    have hlen : buf.length = m.size := hcap
    rw [load_some]
    exact List.getElem?_eq_none (by omega)

theorem in_bounds_not_past (left right R : matrix T) (e : Event)
    (h : e.in_bounds left right R) : ¬ e.past_right right := by
  cases e <;> simp only [Event.past_right, not_false_eq_true]
  simp only [Event.in_bounds] at h
  omega

theorem nonempty_dims {m : matrix T} (h : m.size ≠ 0) : 0 < m.rows ∧ 0 < m.cols := by
  have h' : m.rows * m.cols ≠ 0 := h
  constructor
  · rcases Nat.eq_zero_or_pos m.rows with h0 | h0
    · rw [h0, Nat.zero_mul] at h'; exact absurd rfl h'
    · exact h0
  · rcases Nat.eq_zero_or_pos m.cols with h0 | h0
    · rw [h0, Nat.mul_zero] at h'; exact absurd rfl h'
    · exact h0

theorem column_walk_mem (s : Int) :
    ∀ (n first1 : Nat) (pos : Int) (e : Event), e ∈ column_walk first1 pos s n →
      (∃ t < n, e = Event.read_left (first1 + t)) ∨
      (∃ t < n, e = Event.read_right (pos + s * (t : Int))) := by
  intro n
  induction n with
  | zero =>
    intro first1 pos e he
    simp [column_walk] at he
  | succ n ih =>
    intro first1 pos e he
    simp only [column_walk, List.mem_cons] at he
    rcases he with h | h | h
    · exact Or.inl ⟨0, Nat.succ_pos n, by rw [h]; rfl⟩
    · exact Or.inr ⟨0, Nat.succ_pos n, by rw [h]; congr 1; push_cast; ring⟩
    · rcases ih _ _ e h with ⟨t, ht, he⟩ | ⟨t, ht, he⟩
      · exact Or.inl ⟨t + 1, by omega, by rw [he]; congr 1; omega⟩
      · exact Or.inr ⟨t + 1, by omega, by rw [he]; congr 1; push_cast; ring⟩

theorem inner_product_loop_traced_steps [Add T] [Mul T] (p1 p2 : Option (List T)) :
    ∀ (n first1 : Nat) (first2 : basic_col_iterator) (init : T),
      (∀ t < n, ∃ a, load p1 (first1 + t) = some a) →
      (∀ t < n, ∃ b, load_at p2 (first2._data + (first2._col_index : Int)
        + (first2._cols : Int) * (t : Int)) = some b) →
      (inner_product_loop_traced p1 p2 n first1 first2 init).1 =
          column_walk first1 (first2._data + (first2._col_index : Int)) (first2._cols : Int) n ∧
        ∃ v, (inner_product_loop_traced p1 p2 n first1 first2 init).2 = some v := by
  intro n
  induction n with
  | zero =>
    intro first1 first2 init _ _
    exact ⟨rfl, init, rfl⟩
  | succ n ih =>
    intro first1 first2 init ha hb
    obtain ⟨a, ha0⟩ := ha 0 (Nat.succ_pos n)
    obtain ⟨b, hb0⟩ := hb 0 (Nat.succ_pos n)
    have ha0' : load p1 first1 = some a := by simpa using ha0
    have hb0' : first2.deref p2 = some b := by
      simpa [basic_col_iterator.deref] using hb0
    have hpos : first2.incr._data + (first2.incr._col_index : Int)
        = first2._data + (first2._col_index : Int) + (first2._cols : Int) := by
      simp only [basic_col_iterator.incr]; ring
    obtain ⟨h1, v, h2⟩ := ih (first1 + 1) first2.incr (init + a * b)
      (fun t ht => by
        obtain ⟨x, hx⟩ := ha (t + 1) (by omega)
        exact ⟨x, by rw [← hx]; congr 1; omega⟩)
      (fun t ht => by
        obtain ⟨x, hx⟩ := hb (t + 1) (by omega)
        refine ⟨x, ?_⟩
        rw [← hx]; congr 1
        simp only [basic_col_iterator.incr]; push_cast; ring)
    rw [hpos] at h1
    have hc : first2.incr._cols = first2._cols := rfl
    rw [hc] at h1
    refine ⟨?_, v, ?_⟩
    · simp only [inner_product_loop_traced, Traced.bind, Traced.step, ha0', hb0', h1, h2,
        column_walk, List.singleton_append]
    · simp only [inner_product_loop_traced, Traced.bind, Traced.step, ha0', hb0', h2]

theorem inner_product_loop_traced_stops [Add T] [Mul T] (p1 p2 : Option (List T)) :
    ∀ (t0 n first1 : Nat) (first2 : basic_col_iterator) (init : T), t0 < n →
      (∀ t ≤ t0, ∃ a, load p1 (first1 + t) = some a) →
      (∀ t < t0, ∃ b, load_at p2 (first2._data + (first2._col_index : Int)
        + (first2._cols : Int) * (t : Int)) = some b) →
      load_at p2 (first2._data + (first2._col_index : Int)
        + (first2._cols : Int) * (t0 : Int)) = none →
      inner_product_loop_traced p1 p2 n first1 first2 init =
        (column_walk first1 (first2._data + (first2._col_index : Int)) (first2._cols : Int) t0
          ++ [Event.read_left (first1 + t0),
            Event.read_right (first2._data + (first2._col_index : Int)
              + (first2._cols : Int) * (t0 : Int))], none) := by
  intro t0
  induction t0 with
  | zero =>
    intro n first1 first2 init hn ha _ hnone
    obtain ⟨n', rfl⟩ : ∃ n', n = n' + 1 := ⟨n - 1, by omega⟩
    obtain ⟨a, ha0⟩ := ha 0 (Nat.le_refl 0)
    have ha0' : load p1 first1 = some a := by simpa using ha0
    have hd : first2.deref p2 = none := by
      simpa [basic_col_iterator.deref] using hnone
    simp [inner_product_loop_traced, Traced.bind, Traced.step, ha0', hd, column_walk]
  | succ t0 ih =>
    intro n first1 first2 init hn ha hb hnone
    obtain ⟨n', rfl⟩ : ∃ n', n = n' + 1 := ⟨n - 1, by omega⟩
    obtain ⟨a, ha0⟩ := ha 0 (Nat.zero_le _)
    obtain ⟨b, hb0⟩ := hb 0 (Nat.succ_pos t0)
    have ha0' : load p1 first1 = some a := by simpa using ha0
    have hb0' : first2.deref p2 = some b := by
      simpa [basic_col_iterator.deref] using hb0
    have hpos : first2.incr._data + (first2.incr._col_index : Int)
        = first2._data + (first2._col_index : Int) + (first2._cols : Int) := by
      simp only [basic_col_iterator.incr]; ring
    have hlast : first2._data + (first2._col_index : Int) + (first2._cols : Int)
        + (first2._cols : Int) * (t0 : Int)
        = first2._data + (first2._col_index : Int)
          + (first2._cols : Int) * ((t0 + 1 : Nat) : Int) := by
      push_cast; ring
    have hc : first2.incr._cols = first2._cols := rfl
    have hrec := ih n' (first1 + 1) first2.incr (init + a * b) (by omega)
      (fun t ht => by
        obtain ⟨x, hx⟩ := ha (t + 1) (by omega)
        exact ⟨x, by rw [← hx]; congr 1; omega⟩)
      (fun t ht => by
        obtain ⟨x, hx⟩ := hb (t + 1) (by omega)
        refine ⟨x, ?_⟩
        rw [← hx]; congr 1
        simp only [basic_col_iterator.incr]; push_cast; ring)
      (by
        rw [← hnone]; congr 1
        simp only [basic_col_iterator.incr]; push_cast; ring)
    rw [hpos, hc, hlast] at hrec
    have hidx : first1 + 1 + t0 = first1 + (t0 + 1) := by omega
    rw [hidx] at hrec
    simp only [inner_product_loop_traced, Traced.bind, Traced.step, ha0', hb0', hrec,
      column_walk, List.singleton_append, List.cons_append, List.nil_append]

theorem for_loop_traced_steps {σ : Type} (body : Nat → σ → Traced σ)
    (steps : Nat → List Event) (I : σ → Prop) :
    ∀ (count i : Nat) (s : σ), I s →
      (∀ k s, i ≤ k → k < i + count → I s →
        (body k s).1 = steps k ∧ ∃ s', (body k s).2 = some s' ∧ I s') →
      (for_loop_traced body count i s).1 = steps_from steps count i ∧
        ∃ s', (for_loop_traced body count i s).2 = some s' ∧ I s' := by
  intro count
  induction count with
  | zero =>
    intro i s hI _
    exact ⟨rfl, s, rfl, hI⟩
  | succ c ih =>
    intro i s hI hbody
    obtain ⟨h1, a, h2, hIa⟩ := hbody i s (Nat.le_refl i) (by omega) hI
    obtain ⟨h3, s', h4, hIs'⟩ := ih (i + 1) a hIa
      (fun k s hk hk' hIs => hbody k s (by omega) (by omega) hIs)
    refine ⟨?_, s', ?_, hIs'⟩
    · simp only [for_loop_traced, Traced.bind, h2, h1, h3, steps_from]
    · simp only [for_loop_traced, Traced.bind, h2, h4]

theorem row_begin_traced_steps (m : matrix T) (i : Nat) (hi : i < m.rows) :
    m.row_begin_traced i = ([Event.row_begin i], some (i * m.cols)) := by
  simp [matrix.row_begin_traced, Traced.step, hi]

theorem row_end_traced_steps (m : matrix T) (i : Nat) (hi : i < m.rows) :
    m.row_end_traced i = ([Event.row_end i, Event.row_begin i], some (i * m.cols + m.cols)) := by
  simp [matrix.row_end_traced, matrix.row_begin_traced, Traced.bind, Traced.step, hi]

theorem col_begin_traced_steps (m : matrix T) (j : Nat) (hj : j < m.cols) :
    m.col_begin_traced j = ([Event.col_begin j], some ⟨0, j, m.cols⟩) := by
  simp [matrix.col_begin_traced, Traced.step, hj, matrix.begin]

theorem mul_cell_steps [Zero T] [Add T] [Mul T] (left right t : matrix T) (i j : Nat)
    (hl : left.valid) (hr : right.valid) (hk : left.cols ≤ right.rows)
    (hi : i < left.rows) (hj : j < right.cols)
    (ht : result_shape left.rows right.cols t) :
    ((left.row_begin_traced i).bind fun first1 =>
        (left.row_end_traced i).bind fun last1 =>
        (right.col_begin_traced j).bind fun first2 =>
        (std_inner_product_traced left._data first1 last1 right._data first2 0).bind fun v =>
        t.assign_call_traced i j v).1 = cell_steps left.cols right.cols i j ∧
    ∃ t', ((left.row_begin_traced i).bind fun first1 =>
        (left.row_end_traced i).bind fun last1 =>
        (right.col_begin_traced j).bind fun first2 =>
        (std_inner_product_traced left._data first1 last1 right._data first2 0).bind fun v =>
        t.assign_call_traced i j v).2 = some t' ∧ result_shape left.rows right.cols t' := by
  obtain ⟨htr, htc, buf, hd, hlen⟩ := ht
  have hnot : ¬ (i * left.cols + left.cols < i * left.cols) := by omega
  have hsub : i * left.cols + left.cols - i * left.cols = left.cols := by omega
  obtain ⟨hip1, v, hip2⟩ := inner_product_loop_traced_steps left._data right._data left.cols
    (i * left.cols) ⟨0, j, right.cols⟩ 0
    (fun x hx => valid_load hl _ (row_major_lt hi hx))
    (fun x hx => by
      obtain ⟨b, hb⟩ := valid_load hr (x * right.cols + j)
        (row_major_lt (show x < right.rows by omega) hj)
      refine ⟨b, ?_⟩
      have hpos : ((⟨0, j, right.cols⟩ : basic_col_iterator)._data
          + ((⟨0, j, right.cols⟩ : basic_col_iterator)._col_index : Int)
          + ((⟨0, j, right.cols⟩ : basic_col_iterator)._cols : Int) * (x : Int))
          = ((x * right.cols + j : Nat) : Int) := by
        push_cast; ring
      rw [hpos, load_at_natCast]
      exact hb)
  have hip1' : (inner_product_loop_traced left._data right._data left.cols (i * left.cols)
      ⟨0, j, right.cols⟩ 0).1 = column_walk (i * left.cols) (j : Int) (right.cols : Int)
        left.cols := by
    rw [hip1]
    congr 1
    simp
  have hlt : i * right.cols + j < buf.length := by
    rw [hlen]; exact row_major_lt hi hj
  have hst : t.assign_call i j v = some { t with _data := some (buf.set (i * right.cols + j) v) } := by
    have hlt' : i * right._cols + j < buf.length := hlt
    simp [matrix.assign_call, matrix.cols, htc, hd, store, hlt']
  have hbody : ((left.row_begin_traced i).bind fun first1 =>
        (left.row_end_traced i).bind fun last1 =>
        (right.col_begin_traced j).bind fun first2 =>
        (std_inner_product_traced left._data first1 last1 right._data first2 0).bind fun v =>
        t.assign_call_traced i j v) =
      (cell_steps left.cols right.cols i j,
        some { t with _data := some (buf.set (i * right.cols + j) v) }) := by
    have hact : ∀ x : T, t.assign_call_traced i j x
        = ([Event.write_result (i * right.cols + j)], t.assign_call i j x) := by
      intro x
      simp only [matrix.assign_call_traced, Traced.step, matrix.cols, htc]
    rw [row_begin_traced_steps left i hi, row_end_traced_steps left i hi,
      col_begin_traced_steps right j hj]
    simp only [Traced.bind, std_inner_product_traced, if_neg hnot, hsub, hip2, hip1',
      hact, hst, cell_steps,
      List.append_assoc, List.singleton_append, List.cons_append, List.nil_append]
  rw [hbody]
  exact ⟨rfl, _, rfl, htr, htc, _, rfl, by rw [List.length_set]; exact hlen⟩

theorem operator_mul_traced_steps [Zero T] [Add T] [Mul T] (left right : matrix T)
    (hl : left.valid) (hr : right.valid) (hk : left.cols ≤ right.rows)
    (hm : 0 < left.rows) (hn : 0 < right.cols)
    (hfit : left.rows * right.cols < size_t_range) :
    (matrix.operator_mul_traced left right).1
      = product_steps left.rows left.cols right.cols := by
  have hne : left.rows ≠ 0 ∧ right.cols ≠ 0 := ⟨by omega, by omega⟩
  have hinit : result_shape left.rows right.cols
      (matrix.ctor_sized left.rows right.cols : matrix T) := by
    rw [matrix.ctor_sized, if_pos hne, Nat.mod_eq_of_lt hfit]
    exact ⟨rfl, rfl, _, rfl, by simp⟩
  have key := for_loop_traced_steps
    (fun i (result : matrix T) =>
      for_loop_traced (fun j (result : matrix T) =>
          (left.row_begin_traced i).bind fun first1 =>
          (left.row_end_traced i).bind fun last1 =>
          (right.col_begin_traced j).bind fun first2 =>
          (std_inner_product_traced left._data first1 last1 right._data first2 0).bind fun v =>
          result.assign_call_traced i j v)
        right.cols 0 result)
    (fun i => steps_from (cell_steps left.cols right.cols i) right.cols 0)
    (result_shape left.rows right.cols)
    left.rows 0 (matrix.ctor_sized left.rows right.cols) hinit
    (by
      intro i s _ hi hI
      have hi : i < left.rows := by omega
      exact for_loop_traced_steps _ (cell_steps left.cols right.cols i)
        (result_shape left.rows right.cols) right.cols 0 s hI
        (by
          intro j t _ hj hIt
          have hj : j < right.cols := by omega
          exact mul_cell_steps left right t i j hl hr hk hi hj hIt))
  exact key.1

theorem mismatch_record [Zero T] [Add T] [Mul T] (left right : matrix T)
    (hl : left.valid) (hr : right.valid) (hle : left.size ≠ 0) (hre : right.size ≠ 0)
    (hk : right.rows < left.cols) :
    matrix.operator_mul_traced left right =
      ([Event.row_begin 0, Event.row_end 0, Event.row_begin 0, Event.col_begin 0] ++
        column_walk 0 0 (right.cols : Int) right.rows ++
        [Event.read_left right.rows, Event.read_right (right.size : Int)], none) := by
  obtain ⟨hlr, hlc⟩ := nonempty_dims hle
  obtain ⟨hrr, hrc⟩ := nonempty_dims hre
  have hnot : ¬ (0 * left.cols + left.cols < 0 * left.cols) := by omega
  have hsub : 0 * left.cols + left.cols - 0 * left.cols = left.cols := by omega
  have hpos : ∀ x : Nat, ((⟨0, 0, right.cols⟩ : basic_col_iterator)._data
      + ((⟨0, 0, right.cols⟩ : basic_col_iterator)._col_index : Int)
      + ((⟨0, 0, right.cols⟩ : basic_col_iterator)._cols : Int) * (x : Int))
      = ((x * right.cols : Nat) : Int) := by
    intro x; push_cast; ring
  have hip := inner_product_loop_traced_stops left._data right._data right.rows left.cols
    (0 * left.cols) ⟨0, 0, right.cols⟩ 0 hk
    (fun x hx => valid_load hl _ (row_major_lt hlr (by omega)))
    (fun x hx => by
      obtain ⟨b, hb⟩ := valid_load hr (x * right.cols + 0) (row_major_lt hx hrc)
      exact ⟨b, by rw [hpos x, load_at_natCast]; exact hb⟩)
    (by
      rw [hpos right.rows, load_at_natCast]
      exact load_past_capacity hr _ (Nat.le_refl _))
  rw [hpos right.rows] at hip
  have hstart : ((⟨0, 0, right.cols⟩ : basic_col_iterator)._data
      + ((⟨0, 0, right.cols⟩ : basic_col_iterator)._col_index : Int)) = 0 := by
    simp
  have hcols : (((⟨0, 0, right.cols⟩ : basic_col_iterator)._cols : Nat) : Int)
      = (right.cols : Int) := rfl
  have hsize : right.rows * right.cols = right.size := rfl
  rw [hstart, hcols, hsize] at hip
  have hbody : ∀ t : matrix T, ((left.row_begin_traced 0).bind fun first1 =>
        (left.row_end_traced 0).bind fun last1 =>
        (right.col_begin_traced 0).bind fun first2 =>
        (std_inner_product_traced left._data first1 last1 right._data first2 0).bind fun v =>
        t.assign_call_traced 0 0 v) =
      ([Event.row_begin 0, Event.row_end 0, Event.row_begin 0, Event.col_begin 0] ++
        column_walk 0 0 (right.cols : Int) right.rows ++
        [Event.read_left right.rows, Event.read_right (right.size : Int)], none) := by
    intro t
    rw [row_begin_traced_steps left 0 hlr, row_end_traced_steps left 0 hlr,
      col_begin_traced_steps right 0 hrc]
    simp only [Traced.bind, std_inner_product_traced, if_neg hnot, hsub, hip,
      List.append_assoc, List.singleton_append, List.cons_append, List.nil_append]
    simp only [Nat.zero_mul, Nat.zero_add]
  have hinner := for_loop_traced_first_none (fun j (result : matrix T) =>
      (left.row_begin_traced 0).bind fun first1 =>
      (left.row_end_traced 0).bind fun last1 =>
      (right.col_begin_traced j).bind fun first2 =>
      (std_inner_product_traced left._data first1 last1 right._data first2 0).bind fun v =>
      result.assign_call_traced 0 j v) right.cols 0
    (matrix.ctor_sized left.rows right.cols) hrc
    (by beta_reduce; rw [hbody (matrix.ctor_sized left.rows right.cols)])
  beta_reduce at hinner
  rw [hbody (matrix.ctor_sized left.rows right.cols)] at hinner
  unfold matrix.operator_mul_traced
  rw [for_loop_traced_first_none _ _ _ _ hlr (by rw [hinner])]
  rw [hinner]

/-- C19, as stated, fails: `left = [[1,2],[3,4]]` and the `3 × 2` matrix
`right = [[5,6],[7,8],[1,1]]` are non-empty, satisfy the invariants and have
`left.cols() != right.rows()`, yet the product runs to completion and no read
of `right` has an offset `>= right.size()`. -/
theorem mismatch_without_overrun :
    (⟨some [1, 2, 3, 4], 2, 2⟩ : matrix Int).valid ∧
    (⟨some [5, 6, 7, 8, 1, 1], 3, 2⟩ : matrix Int).valid ∧
    (⟨some [1, 2, 3, 4], 2, 2⟩ : matrix Int).empty = false ∧
    (⟨some [5, 6, 7, 8, 1, 1], 3, 2⟩ : matrix Int).empty = false ∧
    (⟨some [1, 2, 3, 4], 2, 2⟩ : matrix Int).cols
      ≠ (⟨some [5, 6, 7, 8, 1, 1], 3, 2⟩ : matrix Int).rows ∧
    matrix.operator_mul (⟨some [1, 2, 3, 4], 2, 2⟩ : matrix Int) ⟨some [5, 6, 7, 8, 1, 1], 3, 2⟩
      = some ⟨some [19, 22, 43, 50], 2, 2⟩ ∧
    ¬ ∃ e ∈ (matrix.operator_mul_traced (⟨some [1, 2, 3, 4], 2, 2⟩ : matrix Int)
        ⟨some [5, 6, 7, 8, 1, 1], 3, 2⟩).1,
      e.past_right (⟨some [5, 6, 7, 8, 1, 1], 3, 2⟩ : matrix Int) := by
  decide

/-- C19, amended.  For non-empty `left` and `right` satisfying the invariant of
the data model, with elements `L` and `R`.  Some read of `right` has an offset
`>= right.size()` exactly when `left.cols() > right.rows()`.  In that case the
product computes cell `(0, 0)` first and walks `right`'s column `0`: step `t`
reads `left` at offset `t` and `right` at offset `t * right.cols()`; the steps
`t < right.rows()` and the read of `left` in step `t = right.rows()` are within
bounds; the read of `right` in step `t = right.rows()` is at offset
`right.size()`, it is the last step recorded, and the behaviour of the product
is undefined.  When `left.cols() <= right.rows()` and
`left.rows() * right.cols()` is below `2 ^ 64`, the product records, for every
cell `(i, j)` in row-major order, a walk of exactly `left.cols()` steps, step
`t` reading `left` at offset `i * left.cols() + t` and `right` at offset
`t * right.cols() + j`, every step is within bounds, and the product returns
the `left.rows() × right.cols()` matrix whose element `(i, j)` is
`L i t * R t j` accumulated over `t < left.cols()`: the rows `t >= left.cols()`
of `right` are neither read nor used. -/
theorem mismatch_overrun_iff [Zero T] [Add T] [Mul T] (left right : matrix T)
    (L R : Nat → Nat → T)
    (hl : left.valid) (hr : right.valid) (hle : left.size ≠ 0) (hre : right.size ≠ 0)
    (hL : ∀ i < left.rows, ∀ t < left.cols, left.operator_call i t = some (L i t))
    (hR : ∀ t < right.rows, ∀ j < right.cols, right.operator_call t j = some (R t j)) :
    ((∃ e ∈ (matrix.operator_mul_traced left right).1, e.past_right right)
      ↔ right.rows < left.cols) ∧
    (right.rows < left.cols →
      matrix.operator_mul_traced left right =
        ([Event.row_begin 0, Event.row_end 0, Event.row_begin 0, Event.col_begin 0] ++
          column_walk 0 0 (right.cols : Int) right.rows ++
          [Event.read_left right.rows, Event.read_right (right.size : Int)], none) ∧
      (∀ e ∈ [Event.row_begin 0, Event.row_end 0, Event.row_begin 0, Event.col_begin 0] ++
          column_walk 0 0 (right.cols : Int) right.rows ++ [Event.read_left right.rows],
        e.in_bounds left right (matrix.ctor_sized left.rows right.cols)) ∧
      (Event.read_right (right.size : Int)).past_right right ∧
      matrix.operator_mul left right = none) ∧
    (left.cols ≤ right.rows → left.rows * right.cols < size_t_range →
      ∃ result, matrix.operator_mul_traced left right
          = (product_steps left.rows left.cols right.cols, some result) ∧
        matrix.operator_mul left right = some result ∧
        result.rows = left.rows ∧ result.cols = right.cols ∧
        (∀ i < left.rows, ∀ j < right.cols, result.operator_call i j =
          some ((List.range left.cols).foldl (fun acc t => acc + L i t * R t j) 0)) ∧
        ∀ e ∈ product_steps left.rows left.cols right.cols,
          e.in_bounds left right result) := by
  obtain ⟨hlr, hlc⟩ := nonempty_dims hle
  obtain ⟨hrr, hrc⟩ := nonempty_dims hre
  refine ⟨⟨?_, ?_⟩, ?_, ?_⟩
  · intro ⟨e, he, hpast⟩
    by_contra hk
    exact in_bounds_not_past left right _ e
      (operator_mul_traced_safe left right (by omega) e he) hpast
  · intro hk
    rw [mismatch_record left right hl hr hle hre hk]
    exact ⟨Event.read_right (right.size : Int), by simp, by simp [Event.past_right]⟩
  · intro hk
    refine ⟨mismatch_record left right hl hr hle hre hk, ?_, by simp [Event.past_right], ?_⟩
    · intro e he
      simp only [List.mem_append, List.mem_cons, List.mem_singleton, List.not_mem_nil,
        or_false] at he
      rcases he with ((h | h | h | h) | h) | h
      · subst h; exact hlr
      · subst h; exact hlr
      · subst h; exact hlr
      · subst h; exact hrc
      · rcases column_walk_mem _ _ _ _ e h with ⟨t, ht, he⟩ | ⟨t, ht, he⟩
        · subst he
          have h1 : 0 * left.cols + t < left.rows * left.cols :=
            row_major_lt hlr (by omega)
          show 0 + t < left.rows * left.cols
          omega
        · subst he
          have h1 : t * right.cols + 0 < right.rows * right.cols := row_major_lt ht hrc
          have h2 : (0 : Int) + (right.cols : Int) * (t : Int)
              = ((t * right.cols + 0 : Nat) : Int) := by
            push_cast; ring
          simp only [Event.in_bounds, h2]
          exact ⟨Int.natCast_nonneg _, by exact_mod_cast h1⟩
      · subst h
        have h1 : 0 * left.cols + right.rows < left.rows * left.cols :=
          row_major_lt hlr hk
        show right.rows < left.rows * left.cols
        omega
    · rw [← operator_mul_traced_result, mismatch_record left right hl hr hle hre hk]
  · intro hk hfit
    obtain ⟨result, hres, hr', hc', buf, hd, hlen, hdone, _⟩ :=
      operator_mul_nonempty left right left.rows left.cols right.cols L R hlr hrc hfit
        rfl rfl rfl hL (fun t ht j hj => hR t (by omega) j hj)
    have htr := operator_mul_traced_steps left right hl hr hk hlr hrc hfit
    have hres2 : (matrix.operator_mul_traced left right).2 = some result := by
      rw [operator_mul_traced_result, hres]
    refine ⟨result, Prod.ext htr hres2, hres, hr', hc', ?_, ?_⟩
    · intro i hi j hj
      have := hdone i (by omega) j hj
      simpa [matrix.operator_call, matrix.cols, hc', hd, load_some] using this
    · intro e he
      rw [← htr] at he
      have hsz : (matrix.ctor_sized left.rows right.cols : matrix T).size = result.size := by
        have hd := operator_mul_dims left right result hres
        unfold matrix.size
        rw [hd.1, hd.2]
      exact in_bounds_of_size left right _ result hsz e
        (operator_mul_traced_safe left right hk e he)

/-- Witness for C19, amended: `left = [[1,2],[3,4]]` with the `1 × 2` matrix
`right = [[5,6]]`, where `left.cols() > right.rows()`, and with the `3 × 2`
matrix `right = [[5,6],[7,8],[1,1]]`, where `left.cols() < right.rows()`. -/
theorem mismatch_overrun_iff_witness :
    ((⟨some [5, 6], 1, 2⟩ : matrix Int).rows < (⟨some [1, 2, 3, 4], 2, 2⟩ : matrix Int).cols ∧
      matrix.operator_mul_traced (⟨some [1, 2, 3, 4], 2, 2⟩ : matrix Int) ⟨some [5, 6], 1, 2⟩ =
        ([Event.row_begin 0, Event.row_end 0, Event.row_begin 0, Event.col_begin 0] ++
          column_walk 0 0 ((⟨some [5, 6], 1, 2⟩ : matrix Int).cols : Int)
            (⟨some [5, 6], 1, 2⟩ : matrix Int).rows ++
          [Event.read_left (⟨some [5, 6], 1, 2⟩ : matrix Int).rows,
            Event.read_right ((⟨some [5, 6], 1, 2⟩ : matrix Int).size : Int)], none) ∧
      matrix.operator_mul (⟨some [1, 2, 3, 4], 2, 2⟩ : matrix Int) ⟨some [5, 6], 1, 2⟩ = none) ∧
    ((⟨some [1, 2, 3, 4], 2, 2⟩ : matrix Int).cols
        ≤ (⟨some [5, 6, 7, 8, 1, 1], 3, 2⟩ : matrix Int).rows ∧
      ∃ result, matrix.operator_mul_traced (⟨some [1, 2, 3, 4], 2, 2⟩ : matrix Int)
          ⟨some [5, 6, 7, 8, 1, 1], 3, 2⟩
          = (product_steps 2 2 2, some result) ∧
        matrix.operator_mul (⟨some [1, 2, 3, 4], 2, 2⟩ : matrix Int)
          ⟨some [5, 6, 7, 8, 1, 1], 3, 2⟩ = some result ∧
        ∀ i < 2, ∀ j < 2, result.operator_call i j =
          some ((List.range 2).foldl
            (fun acc t => acc + ([1, 2, 3, 4] : List Int).getD (i * 2 + t) 0
              * ([5, 6, 7, 8, 1, 1] : List Int).getD (t * 2 + j) 0) 0)) :=
  ⟨⟨by decide,
      ((mismatch_overrun_iff (⟨some [1, 2, 3, 4], 2, 2⟩ : matrix Int) ⟨some [5, 6], 1, 2⟩
        (fun i t => ([1, 2, 3, 4] : List Int).getD (i * 2 + t) 0)
        (fun t j => ([5, 6] : List Int).getD (t * 2 + j) 0)
        (by decide) (by decide) (by decide) (by decide) (by decide) (by decide)).2.1
          (by decide)).1,
      ((mismatch_overrun_iff (⟨some [1, 2, 3, 4], 2, 2⟩ : matrix Int) ⟨some [5, 6], 1, 2⟩
        (fun i t => ([1, 2, 3, 4] : List Int).getD (i * 2 + t) 0)
        (fun t j => ([5, 6] : List Int).getD (t * 2 + j) 0)
        (by decide) (by decide) (by decide) (by decide) (by decide) (by decide)).2.1
          (by decide)).2.2.2⟩,
    ⟨by decide, by
      obtain ⟨result, h1, h2, _, _, h3, _⟩ :=
        (mismatch_overrun_iff (⟨some [1, 2, 3, 4], 2, 2⟩ : matrix Int)
          ⟨some [5, 6, 7, 8, 1, 1], 3, 2⟩
          (fun i t => ([1, 2, 3, 4] : List Int).getD (i * 2 + t) 0)
          (fun t j => ([5, 6, 7, 8, 1, 1] : List Int).getD (t * 2 + j) 0)
          (by decide) (by decide) (by decide) (by decide) (by decide) (by decide)).2.2
            (by decide) (by decide)
      exact ⟨result, h1, h2, h3⟩⟩⟩

end MatrixSpec
